import Mathlib

/-!
# ChaCha20 + Merkle pipeline (`mercha`): shallow embedding and verification

Embedding conventions.

* A byte is a `Nat` below `256`, a 32-bit word a `Nat` below `2^32`; every
  `uint32_t` addition and left shift is followed by an explicit `% 2^32`.
* A buffer is a `List Nat` of bytes.  A pointer `p + off` is the view
  `buf.drop off` of the buffer it points into.
* The target is x86 (the code uses AVX2 intrinsics), so storing a word through
  a `uint32_t*`, `uint64_t*` or `__m256i*` lays its bytes out little-endian.
* `size_t` values are offsets into buffers that exist in memory, so they are
  unbounded `Nat`s; the `(uint32_t)` casts of block indices are modelled with
  `% 2^32`.
* `has_avx2` (the cached result of `__builtin_cpu_supports("avx2")`) and
  `num_threads` (`omp_get_max_threads()`) are explicit parameters.  An OpenMP
  work-sharing loop is run in increasing index order.  A `parallel` region with
  `num_threads(n)` is run by the team OpenMP grants it, which has at most `n`
  threads: the team size of every region is part of the environment
  (`MerkleEnv.team`), and the threads of the team run one after the other in
  increasing `thread_id`.  A `__builtin_prefetch` is a hint and no access.
* `malloc` and `posix_memalign` return uninitialised memory: the bytes found in
  the scratch buffers of `merkel_tree` are part of the environment
  (`MerkleEnv.scratch1`, `MerkleEnv.scratch2`).
-/

/-! ## Little-endian memory representation -/

/-- Value of a little-endian byte string (a load through a wide pointer). -/
def le_load : List Nat → Nat
  | [] => 0
  | b :: bs => b + 256 * le_load bs

/-- The `n` little-endian bytes of `v` (a store through a wide pointer). -/
def le_store : Nat → Nat → List Nat
  | 0, _ => []
  | n + 1, v => v % 256 :: le_store n (v / 256)

/-- All elements of a buffer are bytes. -/
def bytes_ok (buf : List Nat) : Prop := ∀ b ∈ buf, b < 256

/-- All elements of a state are 32-bit words. -/
def words_ok (st : List Nat) : Prop := ∀ w ∈ st, w < 2 ^ 32

instance (buf : List Nat) : Decidable (bytes_ok buf) := by
  unfold bytes_ok; infer_instance

instance (st : List Nat) : Decidable (words_ok st) := by
  unfold words_ok; infer_instance

/-! ## chacha.c : `chacha20_block` -/

/-- The sixteen `register uint32_t x0 .. x15` of `chacha20_block`. -/
structure XRegs where
  x0 : Nat
  x1 : Nat
  x2 : Nat
  x3 : Nat
  x4 : Nat
  x5 : Nat
  x6 : Nat
  x7 : Nat
  x8 : Nat
  x9 : Nat
  x10 : Nat
  x11 : Nat
  x12 : Nat
  x13 : Nat
  x14 : Nat
  x15 : Nat
deriving DecidableEq, Repr

/-- Macro `QR_INLINE(a, b, c, d)` of chacha.c, on `uint32_t` values. -/
def QR_INLINE (a b c d : Nat) : Nat × Nat × Nat × Nat :=
  let a := (a + b) % 2 ^ 32
  let d := d ^^^ a
  let d := ((d <<< 16) % 2 ^ 32) ||| (d >>> 16)
  let c := (c + d) % 2 ^ 32
  let b := b ^^^ c
  let b := ((b <<< 12) % 2 ^ 32) ||| (b >>> 20)
  let a := (a + b) % 2 ^ 32
  let d := d ^^^ a
  let d := ((d <<< 8) % 2 ^ 32) ||| (d >>> 24)
  let c := (c + d) % 2 ^ 32
  let b := b ^^^ c
  let b := ((b <<< 7) % 2 ^ 32) ||| (b >>> 25)
  (a, b, c, d)

/-- Macro `DOUBLE_ROUND()` of chacha.c: eight `QR_INLINE` in source order. -/
def DOUBLE_ROUND (r : XRegs) : XRegs :=
  let x0 := r.x0; let x1 := r.x1; let x2 := r.x2; let x3 := r.x3
  let x4 := r.x4; let x5 := r.x5; let x6 := r.x6; let x7 := r.x7
  let x8 := r.x8; let x9 := r.x9; let x10 := r.x10; let x11 := r.x11
  let x12 := r.x12; let x13 := r.x13; let x14 := r.x14; let x15 := r.x15
  let q := QR_INLINE x0 x4 x8 x12
  let x0 := q.1; let x4 := q.2.1; let x8 := q.2.2.1; let x12 := q.2.2.2
  let q := QR_INLINE x1 x5 x9 x13
  let x1 := q.1; let x5 := q.2.1; let x9 := q.2.2.1; let x13 := q.2.2.2
  let q := QR_INLINE x2 x6 x10 x14
  let x2 := q.1; let x6 := q.2.1; let x10 := q.2.2.1; let x14 := q.2.2.2
  let q := QR_INLINE x3 x7 x11 x15
  let x3 := q.1; let x7 := q.2.1; let x11 := q.2.2.1; let x15 := q.2.2.2
  let q := QR_INLINE x0 x5 x10 x15
  let x0 := q.1; let x5 := q.2.1; let x10 := q.2.2.1; let x15 := q.2.2.2
  let q := QR_INLINE x1 x6 x11 x12
  let x1 := q.1; let x6 := q.2.1; let x11 := q.2.2.1; let x12 := q.2.2.2
  let q := QR_INLINE x2 x7 x8 x13
  let x2 := q.1; let x7 := q.2.1; let x8 := q.2.2.1; let x13 := q.2.2.2
  let q := QR_INLINE x3 x4 x9 x14
  let x3 := q.1; let x4 := q.2.1; let x9 := q.2.2.1; let x14 := q.2.2.2
  { x0 := x0, x1 := x1, x2 := x2, x3 := x3, x4 := x4, x5 := x5, x6 := x6, x7 := x7,
    x8 := x8, x9 := x9, x10 := x10, x11 := x11, x12 := x12, x13 := x13, x14 := x14,
    x15 := x15 }

/-- The registers as the list `[x0, .., x15]`. -/
def XRegs.toList (r : XRegs) : List Nat :=
  [r.x0, r.x1, r.x2, r.x3, r.x4, r.x5, r.x6, r.x7,
   r.x8, r.x9, r.x10, r.x11, r.x12, r.x13, r.x14, r.x15]

/-- Registers loaded from `state[0] .. state[15]`. -/
def XRegs.load (state : List Nat) : XRegs :=
  { x0 := state.getD 0 0, x1 := state.getD 1 0, x2 := state.getD 2 0, x3 := state.getD 3 0,
    x4 := state.getD 4 0, x5 := state.getD 5 0, x6 := state.getD 6 0, x7 := state.getD 7 0,
    x8 := state.getD 8 0, x9 := state.getD 9 0, x10 := state.getD 10 0, x11 := state.getD 11 0,
    x12 := state.getD 12 0, x13 := state.getD 13 0, x14 := state.getD 14 0,
    x15 := state.getD 15 0 }

/-- The function `chacha20_block(state, output)`: returns the contents of `state` after the
call and the 64 bytes written to `output`.  The body loads the registers, runs
the ten textual `DOUBLE_ROUND()`s, adds `s0..s15` (a second load of `state`)
and stores the sixteen words through `out32`. -/
def chacha20_block (state : List Nat) : List Nat × List Nat :=
  let x := XRegs.load state
  let x := DOUBLE_ROUND x
  let x := DOUBLE_ROUND x
  let x := DOUBLE_ROUND x
  let x := DOUBLE_ROUND x
  let x := DOUBLE_ROUND x
  let x := DOUBLE_ROUND x
  let x := DOUBLE_ROUND x
  let x := DOUBLE_ROUND x
  let x := DOUBLE_ROUND x
  let x := DOUBLE_ROUND x
  let s := XRegs.load state
  let x0 := (x.x0 + s.x0) % 2 ^ 32
  let x4 := (x.x4 + s.x4) % 2 ^ 32
  let x8 := (x.x8 + s.x8) % 2 ^ 32
  let x12 := (x.x12 + s.x12) % 2 ^ 32
  let x1 := (x.x1 + s.x1) % 2 ^ 32
  let x5 := (x.x5 + s.x5) % 2 ^ 32
  let x9 := (x.x9 + s.x9) % 2 ^ 32
  let x13 := (x.x13 + s.x13) % 2 ^ 32
  let x2 := (x.x2 + s.x2) % 2 ^ 32
  let x6 := (x.x6 + s.x6) % 2 ^ 32
  let x10 := (x.x10 + s.x10) % 2 ^ 32
  let x14 := (x.x14 + s.x14) % 2 ^ 32
  let x3 := (x.x3 + s.x3) % 2 ^ 32
  let x7 := (x.x7 + s.x7) % 2 ^ 32
  let x11 := (x.x11 + s.x11) % 2 ^ 32
  let x15 := (x.x15 + s.x15) % 2 ^ 32
  (state,
   le_store 4 x0 ++ le_store 4 x1 ++ le_store 4 x2 ++ le_store 4 x3 ++
   le_store 4 x4 ++ le_store 4 x5 ++ le_store 4 x6 ++ le_store 4 x7 ++
   le_store 4 x8 ++ le_store 4 x9 ++ le_store 4 x10 ++ le_store 4 x11 ++
   le_store 4 x12 ++ le_store 4 x13 ++ le_store 4 x14 ++ le_store 4 x15)

/-! ## Specification of the ChaCha20 block (spec §4.A) -/

/-- Rotation of a 32-bit word to the left by `n` bits. -/
def rotl32 (x n : Nat) : Nat := ((x <<< n) ||| (x >>> (32 - n))) % 2 ^ 32

/-- The quarter-round `QR(a,b,c,d)` of §4.A on the working state, `a b c d`
being indices. -/
def spec_QR (s : List Nat) (a b c d : Nat) : List Nat :=
  let s := s.set a ((s.getD a 0 + s.getD b 0) % 2 ^ 32)
  let s := s.set d (s.getD d 0 ^^^ s.getD a 0)
  let s := s.set d (rotl32 (s.getD d 0) 16)
  let s := s.set c ((s.getD c 0 + s.getD d 0) % 2 ^ 32)
  let s := s.set b (s.getD b 0 ^^^ s.getD c 0)
  let s := s.set b (rotl32 (s.getD b 0) 12)
  let s := s.set a ((s.getD a 0 + s.getD b 0) % 2 ^ 32)
  let s := s.set d (s.getD d 0 ^^^ s.getD a 0)
  let s := s.set d (rotl32 (s.getD d 0) 8)
  let s := s.set c ((s.getD c 0 + s.getD d 0) % 2 ^ 32)
  let s := s.set b (s.getD b 0 ^^^ s.getD c 0)
  s.set b (rotl32 (s.getD b 0) 7)

/-- Column round: QR on the columns (0,4,8,12), (1,5,9,13), (2,6,10,14), (3,7,11,15). -/
def spec_column_round (s : List Nat) : List Nat :=
  spec_QR (spec_QR (spec_QR (spec_QR s 0 4 8 12) 1 5 9 13) 2 6 10 14) 3 7 11 15

/-- Diagonal round: QR on the diagonals (0,5,10,15), (1,6,11,12), (2,7,8,13), (3,4,9,14). -/
def spec_diagonal_round (s : List Nat) : List Nat :=
  spec_QR (spec_QR (spec_QR (spec_QR s 0 5 10 15) 1 6 11 12) 2 7 8 13) 3 4 9 14

/-- One (column, diagonal) double-round. -/
def spec_double_round (s : List Nat) : List Nat :=
  spec_diagonal_round (spec_column_round s)

/-- The block function of §4.A: ten double-rounds on a copy of the state, the
original state added word-wise mod 2^32, every word serialised little-endian. -/
def spec_block (state : List Nat) : List Nat :=
  let working := spec_double_round^[10] state
  let sum := List.zipWith (fun w s => (w + s) % 2 ^ 32) working state
  (sum.map (le_store 4)).flatten

/-- The quarter-round of the spec on four values. -/
def spec_QR_vals (a b c d : Nat) : Nat × Nat × Nat × Nat :=
  let a := (a + b) % 2 ^ 32
  let d := rotl32 (d ^^^ a) 16
  let c := (c + d) % 2 ^ 32
  let b := rotl32 (b ^^^ c) 12
  let a := (a + b) % 2 ^ 32
  let d := rotl32 (d ^^^ a) 8
  let c := (c + d) % 2 ^ 32
  let b := rotl32 (b ^^^ c) 7
  (a, b, c, d)

/-- Every register holds a 32-bit word. -/
def XRegs.ok (r : XRegs) : Prop :=
  r.x0 < 2 ^ 32 ∧ r.x1 < 2 ^ 32 ∧ r.x2 < 2 ^ 32 ∧ r.x3 < 2 ^ 32 ∧
  r.x4 < 2 ^ 32 ∧ r.x5 < 2 ^ 32 ∧ r.x6 < 2 ^ 32 ∧ r.x7 < 2 ^ 32 ∧
  r.x8 < 2 ^ 32 ∧ r.x9 < 2 ^ 32 ∧ r.x10 < 2 ^ 32 ∧ r.x11 < 2 ^ 32 ∧
  r.x12 < 2 ^ 32 ∧ r.x13 < 2 ^ 32 ∧ r.x14 < 2 ^ 32 ∧ r.x15 < 2 ^ 32

/-! ## Control flow and memory helpers -/

/-- The loop `for (i = lo; i < hi; i++) s = body i s`. -/
def for_loop {σ : Type} (lo hi : Nat) (body : Nat → σ → σ) (s : σ) : σ :=
  (List.range' lo (hi - lo)).foldl (fun s i => body i s) s

/-- The loop `while (cond s) s = body s`, unrolled at most `fuel` times. -/
def while_loop {σ : Type} (cond : σ → Bool) (body : σ → σ) : Nat → σ → σ
  | 0, s => s
  | fuel + 1, s => if cond s then while_loop cond body fuel (body s) else s

/-- The `n` bytes at `buf + off`. -/
def load_at (buf : List Nat) (off n : Nat) : List Nat := (buf.drop off).take n

/-- The buffer after `bytes` have been stored at `buf + off`. -/
def store_at (buf : List Nat) (off : Nat) (bytes : List Nat) : List Nat :=
  buf.take off ++ bytes ++ buf.drop (off + bytes.length)

/-! ## chacha.c : `simd_xor_block` and `chacha20_encrypt` -/

/-- The function `simd_xor_block(buffer, keystream, block_size)`: the memory at `buffer`
after the call.  With `has_avx2` and `block_size >= 32` it XORs 256-bit lanes
and then single bytes; otherwise it XORs `uint64_t` lanes and then single
bytes. -/
def simd_xor_block (has_avx2 : Bool) (buffer keystream : List Nat) (block_size : Nat) :
    List Nat :=
  if has_avx2 = true ∧ block_size ≥ 32 then
    let avx_blocks := block_size / 32
    let buffer := for_loop 0 avx_blocks (fun i buffer =>
      let data := le_load (load_at buffer (i * 32) 32)
      let key := le_load (load_at keystream (i * 32) 32)
      let result := data ^^^ key
      store_at buffer (i * 32) (le_store 32 result)) buffer
    for_loop (avx_blocks * 32) block_size (fun i buffer =>
      buffer.set i (buffer.getD i 0 ^^^ keystream.getD i 0)) buffer
  else
    let full_qwords := block_size / 8
    let buffer := for_loop 0 full_qwords (fun i buffer =>
      store_at buffer (i * 8)
        (le_store 8 (le_load (load_at buffer (i * 8) 8) ^^^ le_load (load_at keystream (i * 8) 8))))
      buffer
    for_loop (full_qwords * 8) block_size (fun i buffer =>
      buffer.set i (buffer.getD i 0 ^^^ keystream.getD i 0)) buffer

/-- The call `simd_xor_block(buffer + block_offset, keystream, block_size)`
seen from the whole buffer. -/
def simd_xor_block_at (has_avx2 : Bool) (buffer : List Nat) (block_offset : Nat)
    (keystream : List Nat) (block_size : Nat) : List Nat :=
  buffer.take block_offset ++
    simd_xor_block has_avx2 (buffer.drop block_offset) keystream block_size

/-- The expression `b0 | (b1 << 8) | (b2 << 16) | (b3 << 24)` assigned to a `uint32_t`. -/
def pack32 (b0 b1 b2 b3 : Nat) : Nat :=
  (b0 ||| (b1 <<< 8) ||| (b2 <<< 16) ||| (b3 <<< 24)) % 2 ^ 32

/-- The state `chacha20_encrypt` builds in `state[0..15]`. -/
def chacha20_state (key nonce : List Nat) (initial_counter : Nat) : List Nat :=
  [0x61707865, 0x3320646e, 0x79622d32, 0x6b206574,
   pack32 (key.getD 0 0) (key.getD 1 0) (key.getD 2 0) (key.getD 3 0),
   pack32 (key.getD 4 0) (key.getD 5 0) (key.getD 6 0) (key.getD 7 0),
   pack32 (key.getD 8 0) (key.getD 9 0) (key.getD 10 0) (key.getD 11 0),
   pack32 (key.getD 12 0) (key.getD 13 0) (key.getD 14 0) (key.getD 15 0),
   pack32 (key.getD 16 0) (key.getD 17 0) (key.getD 18 0) (key.getD 19 0),
   pack32 (key.getD 20 0) (key.getD 21 0) (key.getD 22 0) (key.getD 23 0),
   pack32 (key.getD 24 0) (key.getD 25 0) (key.getD 26 0) (key.getD 27 0),
   pack32 (key.getD 28 0) (key.getD 29 0) (key.getD 30 0) (key.getD 31 0),
   initial_counter,
   pack32 (nonce.getD 0 0) (nonce.getD 1 0) (nonce.getD 2 0) (nonce.getD 3 0),
   pack32 (nonce.getD 4 0) (nonce.getD 5 0) (nonce.getD 6 0) (nonce.getD 7 0),
   pack32 (nonce.getD 8 0) (nonce.getD 9 0) (nonce.getD 10 0) (nonce.getD 11 0)]

/-- The expression `initial_counter + (uint32_t)block` in `uint32_t` arithmetic. -/
def block_counter (initial_counter block : Nat) : Nat :=
  (initial_counter + block % 2 ^ 32) % 2 ^ 32

/-- The expression `(block_offset + 64 <= length) ? 64 : (length - block_offset)`. -/
def block_size_at (length block_offset : Nat) : Nat :=
  if block_offset + 64 ≤ length then 64 else length - block_offset

/-- Body of the batch loop of the first tier (`num_blocks >= 16 &&
num_threads > 1`): a batch of up to four blocks, with the thread-local
`local_state` and `keystream_batch[256]`.  The loop state is
`(local_state, keystream_batch, buffer)`. -/
def chacha20_batch_body (has_avx2 : Bool) (initial_counter length num_blocks : Nat)
    (block_batch : Nat) (s : List Nat × List Nat × List Nat) :
    List Nat × List Nat × List Nat :=
  let start_block := block_batch * 4
  let end_block := if start_block + 4 ≤ num_blocks then start_block + 4 else num_blocks
  let batch_size := end_block - start_block
  let lk := for_loop 0 batch_size (fun i (lk : List Nat × List Nat) =>
    let local_state := lk.1.set 12 (block_counter initial_counter (start_block + i))
    let r := chacha20_block local_state
    (r.1, store_at lk.2 (i * 64) r.2)) (s.1, s.2.1)
  let buffer := for_loop 0 batch_size (fun i buffer =>
    let block_offset := (start_block + i) * 64
    let block_size := block_size_at length block_offset
    simd_xor_block_at has_avx2 buffer block_offset (lk.2.drop (i * 64)) block_size) s.2.2
  (lk.1, lk.2, buffer)

/-- First tier: the batch loop, started with a copy of `state` and an
uninitialised (here zeroed) `keystream_batch`.  The locals of one thread are
carried through all batches; a batch overwrites `local_state[12]` and the
keystream bytes it uses before it reads them, so the thread that runs a batch
does not matter. -/
def chacha20_tier_batch (has_avx2 : Bool) (state : List Nat) (initial_counter : Nat)
    (buffer : List Nat) (length num_blocks : Nat) : List Nat :=
  let local_state := state
  let keystream_batch := List.replicate 256 0
  (for_loop 0 ((num_blocks + 3) / 4)
    (chacha20_batch_body has_avx2 initial_counter length num_blocks)
    (local_state, keystream_batch, buffer)).2.2

/-- Second tier (`num_blocks >= 8`): one block per iteration with a fresh copy
of the state. -/
def chacha20_tier_parallel_for (has_avx2 : Bool) (state : List Nat) (initial_counter : Nat)
    (buffer : List Nat) (length num_blocks : Nat) : List Nat :=
  for_loop 0 num_blocks (fun block buffer =>
    let local_state := state
    let local_state := local_state.set 12 (block_counter initial_counter block)
    let keystream := (chacha20_block local_state).2
    let block_offset := block * 64
    let block_size := block_size_at length block_offset
    simd_xor_block_at has_avx2 buffer block_offset keystream block_size) buffer

/-- Body of the two-at-a-time loop of the third tier.  The loop state is
`(block, state, keystream, buffer)` with `keystream[128]`. -/
def chacha20_pairs_body (has_avx2 : Bool) (initial_counter length : Nat)
    (s : Nat × List Nat × List Nat × List Nat) : Nat × List Nat × List Nat × List Nat :=
  let block := s.1
  let state := s.2.1.set 12 (block_counter initial_counter block)
  let r := chacha20_block state
  let keystream := store_at s.2.2.1 0 r.2
  let state := r.1.set 12 (block_counter initial_counter (block + 1))
  let r := chacha20_block state
  let keystream := store_at keystream 64 r.2
  let buffer := for_loop 0 2 (fun i buffer =>
    let block_offset := (block + i) * 64
    let block_size := block_size_at length block_offset
    simd_xor_block_at has_avx2 buffer block_offset (keystream.drop (i * 64)) block_size)
    s.2.2.2
  (block + 2, r.1, keystream, buffer)

/-- The loop `for (; block + 1 < num_blocks; block += 2)` of the third tier. -/
def chacha20_pairs_loop (has_avx2 : Bool) (state : List Nat) (initial_counter : Nat)
    (buffer : List Nat) (length num_blocks : Nat) : Nat × List Nat × List Nat × List Nat :=
  while_loop (fun (s : Nat × List Nat × List Nat × List Nat) => decide (s.1 + 1 < num_blocks))
    (chacha20_pairs_body has_avx2 initial_counter length)
    num_blocks (0, state, List.replicate 128 0, buffer)

/-- Third tier (`num_blocks >= 2`): two blocks per iteration, then a trailing
single block. -/
def chacha20_tier_pairs (has_avx2 : Bool) (state : List Nat) (initial_counter : Nat)
    (buffer : List Nat) (length num_blocks : Nat) : List Nat :=
  let s := chacha20_pairs_loop has_avx2 state initial_counter buffer length num_blocks
  let block := s.1
  if block < num_blocks then
    let state := s.2.1.set 12 (block_counter initial_counter block)
    let keystream_single := (chacha20_block state).2
    let block_offset := block * 64
    let block_size := block_size_at length block_offset
    simd_xor_block_at has_avx2 s.2.2.2 block_offset keystream_single block_size
  else s.2.2.2

/-- Fourth tier: one block per iteration on the shared `state`.  The loop state
is `(state, buffer)`. -/
def chacha20_tier_sequential (has_avx2 : Bool) (state : List Nat) (initial_counter : Nat)
    (buffer : List Nat) (length num_blocks : Nat) : List Nat :=
  (for_loop 0 num_blocks (fun block (s : List Nat × List Nat) =>
    let state := s.1.set 12 (block_counter initial_counter block)
    let r := chacha20_block state
    let keystream := r.2
    let block_offset := block * 64
    let block_size := block_size_at length block_offset
    (r.1, simd_xor_block_at has_avx2 s.2 block_offset keystream block_size))
    (state, buffer)).2

/-- The function `chacha20_encrypt(key, nonce, initial_counter, buffer, length)`: the buffer
after the call. -/
def chacha20_encrypt (has_avx2 : Bool) (num_threads : Nat) (key nonce : List Nat)
    (initial_counter : Nat) (buffer : List Nat) (length : Nat) : List Nat :=
  if length = 0 then buffer
  else
    let state := chacha20_state key nonce initial_counter
    let num_blocks := (length + 63) / 64
    if num_blocks ≥ 16 ∧ num_threads > 1 then
      chacha20_tier_batch has_avx2 state initial_counter buffer length num_blocks
    else if num_blocks ≥ 8 then
      chacha20_tier_parallel_for has_avx2 state initial_counter buffer length num_blocks
    else if num_blocks ≥ 2 then
      chacha20_tier_pairs has_avx2 state initial_counter buffer length num_blocks
    else
      chacha20_tier_sequential has_avx2 state initial_counter buffer length num_blocks

/-- Bytes `[0, m)` of `b` XORed with those of `k`, the rest of `b` unchanged. -/
def xor_upto (b k : List Nat) (m : Nat) : List Nat :=
  List.zipWith (· ^^^ ·) (b.take m) (k.take m) ++ b.drop m

/-- Keystream block `K_block` that `chacha20_encrypt` derives from `state`. -/
def keystream_block (state : List Nat) (initial_counter block : Nat) : List Nat :=
  (chacha20_block (state.set 12 (block_counter initial_counter block))).2

/-- Invariant of the block loops: the first `m` blocks of `orig` (below
`length`) have been XORed with their keystream blocks, the rest is untouched. -/
def Encrypted (orig : List Nat) (K : Nat → List Nat) (length m : Nat) (cur : List Nat) : Prop :=
  cur.length = orig.length ∧ bytes_ok cur ∧
  ∀ j, cur.getD j 0 =
    if j < 64 * m ∧ j < length then orig.getD j 0 ^^^ (K (j / 64)).getD (j % 64) 0
    else orig.getD j 0

/-- Two states that agree except possibly at word 12. -/
def Same12 (s t : List Nat) : Prop := ∀ v, s.set 12 v = t.set 12 v

/-! ## Specification of the ChaCha20 state (spec §3) -/

/-- The first `n` little-endian 32-bit words of a byte string. -/
def le_words (bytes : List Nat) (n : Nat) : List Nat :=
  (List.range n).map (fun i => le_load ((bytes.drop (4 * i)).take 4))

/-- The ChaCha state `[c0,c1,c2,c3, k0..k7, ctr, n0,n1,n2]` of §3. -/
def spec_state (key nonce : List Nat) (ctr : Nat) : List Nat :=
  [0x61707865, 0x3320646e, 0x79622d32, 0x6b206574] ++ le_words key 8 ++ [ctr] ++
    le_words nonce 3

/-! ## merkle.c : `merge_hash` -/

/-- The sixteen `register uint32_t s0 .. s15` of `merge_hash`. -/
structure SRegs where
  s0 : Nat
  s1 : Nat
  s2 : Nat
  s3 : Nat
  s4 : Nat
  s5 : Nat
  s6 : Nat
  s7 : Nat
  s8 : Nat
  s9 : Nat
  s10 : Nat
  s11 : Nat
  s12 : Nat
  s13 : Nat
  s14 : Nat
  s15 : Nat
deriving DecidableEq, Repr

/-- Macro `ROTL32(x, n)` of mercha.h, `((x) << (n)) | ((x) >> (32 - (n)))`, as it
expands in `s = ROTL32(s, n);` on a `uint32_t`. -/
def ROTL32 (x n : Nat) : Nat := ((x <<< n) % 2 ^ 32) ||| (x >>> (32 - n))

/-- Macro `HASH_ROUND()` of the AVX2 path of `merge_hash`.  The scalar path
repeats the same eight lines verbatim. -/
def HASH_ROUND (r : SRegs) : SRegs :=
  let s0 := r.s0; let s1 := r.s1; let s2 := r.s2; let s3 := r.s3
  let s4 := r.s4; let s5 := r.s5; let s6 := r.s6; let s7 := r.s7
  let s8 := r.s8; let s9 := r.s9; let s10 := r.s10; let s11 := r.s11
  let s12 := r.s12; let s13 := r.s13; let s14 := r.s14; let s15 := r.s15
  let s0 := (s0 + s4) % 2 ^ 32; let s0 := ROTL32 s0 7
  let s1 := (s1 + s5) % 2 ^ 32; let s1 := ROTL32 s1 7
  let s2 := (s2 + s6) % 2 ^ 32; let s2 := ROTL32 s2 7
  let s3 := (s3 + s7) % 2 ^ 32; let s3 := ROTL32 s3 7
  let s8 := (s8 + s12) % 2 ^ 32; let s8 := ROTL32 s8 7
  let s9 := (s9 + s13) % 2 ^ 32; let s9 := ROTL32 s9 7
  let s10 := (s10 + s14) % 2 ^ 32; let s10 := ROTL32 s10 7
  let s11 := (s11 + s15) % 2 ^ 32; let s11 := ROTL32 s11 7
  let s0 := (s0 + s8) % 2 ^ 32; let s0 := ROTL32 s0 9
  let s1 := (s1 + s9) % 2 ^ 32; let s1 := ROTL32 s1 9
  let s2 := (s2 + s10) % 2 ^ 32; let s2 := ROTL32 s2 9
  let s3 := (s3 + s11) % 2 ^ 32; let s3 := ROTL32 s3 9
  let s4 := (s4 + s12) % 2 ^ 32; let s4 := ROTL32 s4 9
  let s5 := (s5 + s13) % 2 ^ 32; let s5 := ROTL32 s5 9
  let s6 := (s6 + s14) % 2 ^ 32; let s6 := ROTL32 s6 9
  let s7 := (s7 + s15) % 2 ^ 32; let s7 := ROTL32 s7 9
  { s0 := s0, s1 := s1, s2 := s2, s3 := s3, s4 := s4, s5 := s5, s6 := s6, s7 := s7,
    s8 := s8, s9 := s9, s10 := s10, s11 := s11, s12 := s12, s13 := s13, s14 := s14, s15 := s15 }

/-- The registers as the list `[s0, .., s15]`. -/
def SRegs.toList (r : SRegs) : List Nat :=
  [r.s0, r.s1, r.s2, r.s3, r.s4, r.s5, r.s6, r.s7,
   r.s8, r.s9, r.s10, r.s11, r.s12, r.s13, r.s14, r.s15]

/-- The seeding of `s0 .. s15` from the words `w1[0..7]`, `w2[0..7]` (the same
sixteen initialisers on both paths). -/
def merge_hash_seed (w1 w2 : List Nat) : SRegs :=
  { s0 := w1.getD 0 0 ^^^ w2.getD 7 0,
    s1 := w1.getD 1 0 ^^^ w2.getD 6 0,
    s2 := w1.getD 2 0 ^^^ w2.getD 5 0,
    s3 := w1.getD 3 0 ^^^ w2.getD 4 0,
    s4 := w1.getD 4 0 ^^^ w2.getD 3 0,
    s5 := w1.getD 5 0 ^^^ w2.getD 2 0,
    s6 := w1.getD 6 0 ^^^ w2.getD 1 0,
    s7 := w1.getD 7 0 ^^^ w2.getD 0 0,
    s8 := w2.getD 0 0 ^^^ w1.getD 7 0,
    s9 := w2.getD 1 0 ^^^ w1.getD 6 0,
    s10 := w2.getD 2 0 ^^^ w1.getD 5 0,
    s11 := w2.getD 3 0 ^^^ w1.getD 4 0,
    s12 := w2.getD 4 0 ^^^ w1.getD 3 0,
    s13 := w2.getD 5 0 ^^^ w1.getD 2 0,
    s14 := w2.getD 6 0 ^^^ w1.getD 1 0,
    s15 := w2.getD 7 0 ^^^ w1.getD 0 0 }

/-- The final `s0 += s15; s1 += s14; ...; s7 += s8;` of `merge_hash`. -/
def merge_hash_final (r : SRegs) : SRegs :=
  { r with
    s0 := (r.s0 + r.s15) % 2 ^ 32, s1 := (r.s1 + r.s14) % 2 ^ 32,
    s2 := (r.s2 + r.s13) % 2 ^ 32, s3 := (r.s3 + r.s12) % 2 ^ 32,
    s4 := (r.s4 + r.s11) % 2 ^ 32, s5 := (r.s5 + r.s10) % 2 ^ 32,
    s6 := (r.s6 + r.s9) % 2 ^ 32, s7 := (r.s7 + r.s8) % 2 ^ 32 }

/-- The words `w[0] .. w[7]` read through a `const uint32_t *` at `block`. -/
def load_words8 (block : List Nat) : List Nat :=
  [le_load (load_at block 0 4), le_load (load_at block 4 4), le_load (load_at block 8 4),
   le_load (load_at block 12 4), le_load (load_at block 16 4), le_load (load_at block 20 4),
   le_load (load_at block 24 4), le_load (load_at block 28 4)]

/-- The bytes of a `uint32_t` array in memory. -/
def words_bytes (ws : List Nat) : List Nat := (ws.map (le_store 4)).flatten

/-- AVX2 path of `merge_hash` (`has_avx2` true): the 64 bytes written to
`output`.  The words are loaded with two 256-bit loads and spilled to
`w1_arr`, `w2_arr`; ten `HASH_ROUND()`s; the result array is copied with two
256-bit loads and stores. -/
def merge_hash_avx2 (block1 block2 : List Nat) : List Nat :=
  let w1_low := le_load (load_at block1 0 32)
  let w2_low := le_load (load_at block2 0 32)
  let w1_arr := load_words8 (le_store 32 w1_low)
  let w2_arr := load_words8 (le_store 32 w2_low)
  let s := merge_hash_seed w1_arr w2_arr
  let s := HASH_ROUND s
  let s := HASH_ROUND s
  let s := HASH_ROUND s
  let s := HASH_ROUND s
  let s := HASH_ROUND s
  let s := HASH_ROUND s
  let s := HASH_ROUND s
  let s := HASH_ROUND s
  let s := HASH_ROUND s
  let s := HASH_ROUND s
  let s := merge_hash_final s
  let result := words_bytes s.toList
  let out_low := le_load (load_at result 0 32)
  let out_high := le_load (load_at result 32 32)
  le_store 32 out_low ++ le_store 32 out_high

/-- Scalar path of `merge_hash` (`has_avx2` false): the 64 bytes written to
`output`.  The source spells the round out nine times (merkle.c lines 81-88,
90-97, 99-106, 108-115, 117-124, 126-133, 135-142, 144-151, 153-160). -/
def merge_hash_scalar (block1 block2 : List Nat) : List Nat :=
  let w1 := load_words8 block1
  let w2 := load_words8 block2
  let s := merge_hash_seed w1 w2
  let s := HASH_ROUND s
  let s := HASH_ROUND s
  let s := HASH_ROUND s
  let s := HASH_ROUND s
  let s := HASH_ROUND s
  let s := HASH_ROUND s
  let s := HASH_ROUND s
  let s := HASH_ROUND s
  let s := HASH_ROUND s
  let s := merge_hash_final s
  words_bytes s.toList

/-- The 64 bytes `merge_hash(block1, block2, output)` writes to `output`,
`block1` and `block2` being the memory at the two pointers. -/
def merge_hash_bytes (has_avx2 : Bool) (block1 block2 : List Nat) : List Nat :=
  if has_avx2 then merge_hash_avx2 block1 block2 else merge_hash_scalar block1 block2

/-! ## Specification of the AR compression (spec §4.C) -/

/-- One round of §4.C: the two distance-4 by-7 layers, then the distance-8
by-9 layer. -/
def spec_ar_round (s : List Nat) : List Nat :=
  let s := for_loop 0 4 (fun i s =>
    let s := s.set i ((s.getD i 0 + s.getD (i + 4) 0) % 2 ^ 32)
    s.set i (rotl32 (s.getD i 0) 7)) s
  let s := for_loop 0 4 (fun i s =>
    let s := s.set (i + 8) ((s.getD (i + 8) 0 + s.getD (i + 12) 0) % 2 ^ 32)
    s.set (i + 8) (rotl32 (s.getD (i + 8) 0) 7)) s
  for_loop 0 8 (fun i s =>
    let s := s.set i ((s.getD i 0 + s.getD (i + 8) 0) % 2 ^ 32)
    s.set i (rotl32 (s.getD i 0) 9)) s

/-- The AR compression of §4.C on two blocks: anti-diagonal XOR seeding, ten
identical rounds, the final anti-diagonal addition `s0 += s15, .., s7 += s8`,
little-endian serialisation of `s0..s15`. -/
def spec_merge_hash (block1 block2 : List Nat) : List Nat :=
  let w1 := le_words block1 8
  let w2 := le_words block2 8
  let s := (List.range 8).map (fun i => w1.getD i 0 ^^^ w2.getD (7 - i) 0) ++
    (List.range 8).map (fun i => w2.getD i 0 ^^^ w1.getD (7 - i) 0)
  let s := spec_ar_round^[10] s
  let s := for_loop 0 8 (fun i s => s.set i ((s.getD i 0 + s.getD (15 - i) 0) % 2 ^ 32)) s
  (s.map (le_store 4)).flatten

/-! ## merkle.c : `merkel_tree`, and mercha.c : `mercha` -/

/-- A `for` loop whose body may fault. -/
def for_loopM {σ : Type} (lo hi : Nat) (body : Nat → σ → Option σ) (s : σ) : Option σ :=
  (List.range' lo (hi - lo)).foldlM (fun s i => body i s) s

/-- A `while` loop whose body may fault, unrolled at most `fuel` times; `none`
also when the fuel does not suffice. -/
def while_loopM {σ : Type} (cond : σ → Bool) (body : σ → Option σ) : Nat → σ → Option σ
  | 0, s => if cond s then none else some s
  | fuel + 1, s => if cond s then (body s).bind (while_loopM cond body fuel) else some s

/-- The call `merge_hash(block1, block2, output)` on the memory at its three
pointers: the memory at `output` after the call, or `none` when it reads past
the end of `block1` or `block2` (eight words each) or writes past the end of
`output` (sixteen words). -/
def merge_hash (has_avx2 : Bool) (block1 block2 output : List Nat) : Option (List Nat) :=
  if 32 ≤ block1.length ∧ 32 ≤ block2.length ∧ 64 ≤ output.length then
    some (merge_hash_bytes has_avx2 block1 block2 ++ output.drop 64)
  else none

/-- The two scratch buffers of `merkel_tree`. -/
inductive BufId where
  | buf1
  | buf2
deriving DecidableEq, Repr

/-- The variables of `merkel_tree` that its loop changes: the contents of the
two scratch buffers, which of them `prev_buf` and `cur_buf` point to,
`first_iteration` and `length`. -/
structure MerkleState where
  buf1 : List Nat
  buf2 : List Nat
  prev_buf : BufId
  cur_buf : BufId
  first_iteration : Bool
  length : Nat
deriving DecidableEq, Repr

/-- The memory a scratch pointer points to. -/
def MerkleState.mem (st : MerkleState) : BufId → List Nat
  | .buf1 => st.buf1
  | .buf2 => st.buf2

/-- The state after the memory at a scratch pointer has been replaced. -/
def MerkleState.write (st : MerkleState) (p : BufId) (m : List Nat) : MerkleState :=
  match p with
  | .buf1 => { st with buf1 := m }
  | .buf2 => { st with buf2 := m }

/-- The buffer the current level is read from: `first_input` in the first
iteration, `prev_buf` afterwards. -/
def MerkleState.source (st : MerkleState) (input : List Nat) : List Nat :=
  if st.first_iteration then input else st.mem st.prev_buf

/-- What the run-time environment decides in a call of `merkel_tree`.  The
parallel region of the iteration entered with `length = n` asks for
`num_threads = omp_get_max_threads()` threads and is granted a team of
`team n` of them (OpenMP may grant fewer than a region asks for).  The bytes
found at offset `j` of the freshly allocated `buf1` and `buf2`, which the code
does not initialise, are `scratch1 j` and `scratch2 j`. -/
structure MerkleEnv where
  team : Nat → Nat
  scratch1 : Nat → Nat
  scratch2 : Nat → Nat

/-- The environment that grants every parallel region `t` threads and whose
fresh allocations hold zero bytes. -/
def env_team (t : Nat) : MerkleEnv :=
  { team := fun _ => t, scratch1 := fun _ => 0, scratch2 := fun _ => 0 }

/-- The `if (first_iteration) merge_hash(..) else merge_hash(..)` statement for
block `i` (the same in the parallel and the sequential branch). -/
def merkle_block (has_avx2 : Bool) (input : List Nat) (i : Nat) (st : MerkleState) :
    Option MerkleState :=
  let src := st.source input
  let cur := st.mem st.cur_buf
  (merge_hash has_avx2 (src.drop ((2 * i) * 64)) (src.drop ((2 * i + 1) * 64))
    (cur.drop (i * 64))).map (fun out => st.write st.cur_buf (cur.take (i * 64) ++ out))

/-- The buffer swap and `length /= 2` at the end of a `while` iteration. -/
def merkle_swap (st : MerkleState) : MerkleState :=
  let st :=
    if st.first_iteration then
      { st with
        first_iteration := false
        prev_buf := st.cur_buf
        cur_buf := if st.cur_buf = BufId.buf1 then BufId.buf2 else BufId.buf1 }
    else
      { st with cur_buf := st.prev_buf, prev_buf := st.cur_buf }
  { st with length := st.length / 2 }

/-- One iteration of `while (length >= 64)`: the level is computed either by
the parallel region or by the sequential loop.  The region asks for
`num_threads` threads and is run by the `team` threads OpenMP grants it, at
most `num_threads`; thread `thread_id` of the team takes the blocks
`[start_block, end_block)`, and the ranges of thread ids beyond the team are
not processed. -/
def merkle_level (has_avx2 : Bool) (num_threads team : Nat) (input : List Nat)
    (st : MerkleState) : Option MerkleState :=
  let num_blocks := st.length / 64
  let blocks_per_thread := num_blocks / num_threads
  let use_parallel := decide (num_blocks ≥ 4) && decide (blocks_per_thread ≥ 1)
  let r :=
    if use_parallel then
      for_loopM 0 (min team num_threads) (fun thread_id st =>
        let start_block := thread_id * blocks_per_thread
        let end_block :=
          if thread_id = num_threads - 1 then num_blocks else start_block + blocks_per_thread
        for_loopM start_block end_block (merkle_block has_avx2 input) st) st
    else
      for_loopM 0 num_blocks (merkle_block has_avx2 input) st
  r.map merkle_swap

/-- The function `merkel_tree(input, output, length)`: the 64 bytes written to `output`, or
`none` when a memory access is out of bounds.  Both scratch buffers are
allocated with `length` bytes and hold the bytes the environment put there.
The two branches of the final copy move the same 64 bytes. -/
def merkel_tree (has_avx2 : Bool) (num_threads : Nat) (env : MerkleEnv) (input : List Nat)
    (length : Nat) : Option (List Nat) :=
  if length = 64 then
    if 64 ≤ input.length then some (load_at input 0 64) else none
  else
    let st : MerkleState :=
      { buf1 := (List.range length).map (fun j => env.scratch1 j % 256)
        buf2 := (List.range length).map (fun j => env.scratch2 j % 256)
        prev_buf := BufId.buf1
        cur_buf := BufId.buf2
        first_iteration := true
        length := length / 2 }
    (while_loopM (fun st => decide (st.length ≥ 64))
      (fun st => merkle_level has_avx2 num_threads (env.team st.length) input st)
      length st).bind (fun st =>
        if 64 ≤ (st.mem st.prev_buf).length then some (load_at (st.mem st.prev_buf) 0 64)
        else none)

/-- The function `mercha(key, nonce, input, output, length)`: the contents of `input` after
the call and the 64 bytes written to `output`. -/
def mercha (has_avx2 : Bool) (num_threads : Nat) (env : MerkleEnv) (key nonce input : List Nat)
    (length : Nat) : List Nat × Option (List Nat) :=
  let input := chacha20_encrypt has_avx2 num_threads key nonce 0 input length
  (input, merkel_tree has_avx2 num_threads env input length)

/-- The level the code computes from `src` when it runs `n` blocks: block `i`
is `merge_hash` of the memory at `src + 2i*64` and at `src + (2i+1)*64`. -/
def next_level (has_avx2 : Bool) (src : List Nat) (n : Nat) : List Nat :=
  ((List.range n).map (fun i =>
    merge_hash_bytes has_avx2 (src.drop ((2 * i) * 64)) (src.drop ((2 * i + 1) * 64)))).flatten

/-- The state of the block loop of a level after blocks `[0, i)` are written. -/
def level_state (has_avx2 : Bool) (input : List Nat) (st : MerkleState) (i : Nat) :
    MerkleState :=
  st.write st.cur_buf
    (next_level has_avx2 (st.source input) i ++ (st.mem st.cur_buf).drop (i * 64))

/-! ## Specification of the Merkle reducer (spec §4.D) -/

/-- The level `level[m+1]` from `level[m]`: block `j` is `mh` of blocks `2j` and `2j+1`. -/
def spec_next_level (mh : List Nat → List Nat → List Nat) (lvl : List Nat) : List Nat :=
  ((List.range (lvl.length / 128)).map (fun j =>
    mh (load_at lvl ((2 * j) * 64) 64) (load_at lvl ((2 * j + 1) * 64) 64))).flatten

/-- The level `level[m]`, with `level[0] = input`. -/
def spec_level (mh : List Nat → List Nat → List Nat) (input : List Nat) (m : Nat) : List Nat :=
  (spec_next_level mh)^[m] input

/-- Invariant of `while (length >= 64)` on an input of `64 * 2^k` bytes: with
`r` levels still to go, `length` is `32 * 2^r` and the first `64 * 2^r` bytes
of the buffer the next level reads are `level[k - r]`. -/
def MerkleInv (has_avx2 : Bool) (input : List Nat) (k : Nat) (st : MerkleState) : Prop :=
  ∃ r, r ≤ k ∧ st.length = 32 * 2 ^ r ∧
    (∀ p, (st.mem p).length = 64 * 2 ^ k) ∧
    (r = k → st.first_iteration = true) ∧
    (r < k → st.first_iteration = false ∧ st.prev_buf ≠ st.cur_buf) ∧
    64 * 2 ^ r ≤ (st.source input).length ∧
    (st.source input).take (64 * 2 ^ r) = spec_level (merge_hash_bytes has_avx2) input (k - r)

/-- The function `optimized_xor_block(buffer, keystream, block_size)` of
merkle.c: the memory at `buffer` after the call.  With `has_avx2` and
`block_size == 64` it loads both 256-bit lanes of the buffer and of the
keystream, XORs them and stores both lanes; otherwise it XORs `uint64_t` lanes
and then single bytes. -/
def optimized_xor_block (has_avx2 : Bool) (buffer keystream : List Nat) (block_size : Nat) :
    List Nat :=
  if has_avx2 = true ∧ block_size = 64 then
    let data1 := le_load (load_at buffer 0 32)
    let data2 := le_load (load_at buffer 32 32)
    let key1 := le_load (load_at keystream 0 32)
    let key2 := le_load (load_at keystream 32 32)
    let data1 := data1 ^^^ key1
    let data2 := data2 ^^^ key2
    let buffer := store_at buffer 0 (le_store 32 data1)
    store_at buffer 32 (le_store 32 data2)
  else
    let full_qwords := block_size / 8
    let buffer := for_loop 0 full_qwords (fun i buffer =>
      store_at buffer (i * 8)
        (le_store 8 (le_load (load_at buffer (i * 8) 8) ^^^ le_load (load_at keystream (i * 8) 8))))
      buffer
    for_loop (full_qwords * 8) block_size (fun i buffer =>
      buffer.set i (buffer.getD i 0 ^^^ keystream.getD i 0)) buffer

/-! ## tool.c : the test-vector generator -/

/-- Constant `LCG_A` of tool.c. -/
def LCG_A : Nat := 1103515245

/-- Constant `LCG_C` of tool.c. -/
def LCG_C : Nat := 12345

/-- Constant `LCG_M` of tool.c. -/
def LCG_M : Nat := 2147483648

/-- The generating loop of `main` in tool.c, on the loop state
`(meta.generate_info, buffer)`: each iteration updates `generate_info` in
`unsigned long long` arithmetic (multiplication and addition wrap at `2^64`)
and stores `generate_info % 255` as a `uint8_t`.  Returns the final
`generate_info` and the `length` bytes written to the file. -/
def tool_generate (generate_info length : Nat) : Nat × List Nat :=
  for_loop 0 length (fun i (s : Nat × List Nat) =>
    let generate_info := ((LCG_A * s.1 % 2 ^ 64 + LCG_C) % 2 ^ 64) % LCG_M
    (generate_info, s.2.set i (generate_info % 255 % 256)))
    (generate_info, List.replicate length 0)

/-- The linear congruential generator of §6 over the integers: `s_0 = s`,
`s_{j+1} = (1103515245 * s_j + 12345) mod 2^31`. -/
def spec_lcg (s : Nat) : Nat → Nat
  | 0 => s
  | j + 1 => (1103515245 * spec_lcg s j + 12345) % 2 ^ 31

/-! ## main.c : the verdict of the command-line tool -/

/-- What `main` of main.c needs from the parsed metafile. -/
structure meta_info where
  length : Nat
  key : List Nat
  nonce : List Nat
  result : List Nat
deriving Repr

/-- The comparison loop of `main`: `flag` after the 64 bytes of `output` have
been compared with `meta.result`. -/
def main_flag (output result : List Nat) : Int :=
  for_loop 0 64 (fun i (flag : Int) =>
    if output.getD i 0 ≠ result.getD i 0 then -1 else flag) 0

/-- The function `main` of main.c (`main` is not available as a name), from `argc`, the parsed metafile (`none`
when it cannot be opened) and the contents of the input file (`none` when it
cannot be opened): the verdict line printed, if any, and the exit code.  The
result is `none` when `mercha` makes an out-of-bounds access. -/
def main_c (has_avx2 : Bool) (num_threads : Nat) (env : MerkleEnv) (argc : Nat)
    (metafile : Option meta_info) (input_file : Option (List Nat)) :
    Option (Option String × Int) :=
  if argc ≠ 2 then some (none, -1)
  else
    match metafile with
    | none => some (none, -1)
    | some m =>
      match input_file with
      | none => some (none, -1)
      | some input =>
        match (mercha has_avx2 num_threads env m.key m.nonce input m.length).2 with
        | none => none
        | some output =>
          let flag := main_flag output m.result
          let verdict := if flag = 0 then "Pass this test!\n" else "Fail this test!\n"
          some (some verdict, 0)

/-! ## `merkel_tree` with its calls of `merge_hash` counted -/

/-- The statement of `merkle_block` with a counter of the `merge_hash` calls
made so far. -/
def merkle_block_counted (has_avx2 : Bool) (input : List Nat) (i : Nat)
    (s : MerkleState × Nat) : Option (MerkleState × Nat) :=
  (merkle_block has_avx2 input i s.1).map (fun st => (st, s.2 + 1))

/-- One iteration of `while (length >= 64)` as in `merkle_level`, with the
call counter. -/
def merkle_level_counted (has_avx2 : Bool) (num_threads team : Nat) (input : List Nat)
    (s : MerkleState × Nat) : Option (MerkleState × Nat) :=
  let num_blocks := s.1.length / 64
  let blocks_per_thread := num_blocks / num_threads
  let use_parallel := decide (num_blocks ≥ 4) && decide (blocks_per_thread ≥ 1)
  let r :=
    if use_parallel then
      for_loopM 0 (min team num_threads) (fun thread_id s =>
        let start_block := thread_id * blocks_per_thread
        let end_block :=
          if thread_id = num_threads - 1 then num_blocks else start_block + blocks_per_thread
        for_loopM start_block end_block (merkle_block_counted has_avx2 input) s) s
    else
      for_loopM 0 num_blocks (merkle_block_counted has_avx2 input) s
  r.map (fun s => (merkle_swap s.1, s.2))

/-- The function `merkel_tree` as in the definition above, returning the 64
output bytes together with the number of `merge_hash` calls it made. -/
def merkel_tree_counted (has_avx2 : Bool) (num_threads : Nat) (env : MerkleEnv)
    (input : List Nat) (length : Nat) : Option (List Nat × Nat) :=
  if length = 64 then
    if 64 ≤ input.length then some (load_at input 0 64, 0) else none
  else
    let st : MerkleState :=
      { buf1 := (List.range length).map (fun j => env.scratch1 j % 256)
        buf2 := (List.range length).map (fun j => env.scratch2 j % 256)
        prev_buf := BufId.buf1
        cur_buf := BufId.buf2
        first_iteration := true
        length := length / 2 }
    (while_loopM (fun (s : MerkleState × Nat) => decide (s.1.length ≥ 64))
      (fun s => merkle_level_counted has_avx2 num_threads (env.team s.1.length) input s)
      length (st, 0)).bind (fun s =>
        if 64 ≤ (s.1.mem s.1.prev_buf).length then
          some (load_at (s.1.mem s.1.prev_buf) 0 64, s.2)
        else none)

/-- The number of times the round is run by `merge_hash`: ten `HASH_ROUND()`s
on the AVX2 path, nine spelled-out rounds on the scalar path. -/
def merge_hash_rounds (has_avx2 : Bool) : Nat := if has_avx2 then 10 else 9

/-- The eight seed words `w1[i] ^ w2[7-i]`, `i = 0..7`, of `merge_hash`. -/
def seed_words (w1 w2 : List Nat) : List Nat :=
  (List.range 8).map (fun i => w1.getD i 0 ^^^ w2.getD (7 - i) 0)

/-- The output of `merge_hash` computed from eight seed words `x[0..7]` alone:
the registers start as `x[0], .., x[7], x[7], .., x[0]`. -/
def merge_hash_from_seed (has_avx2 : Bool) (x : List Nat) : List Nat :=
  let s : SRegs :=
    { s0 := x.getD 0 0, s1 := x.getD 1 0, s2 := x.getD 2 0, s3 := x.getD 3 0,
      s4 := x.getD 4 0, s5 := x.getD 5 0, s6 := x.getD 6 0, s7 := x.getD 7 0,
      s8 := x.getD 7 0, s9 := x.getD 6 0, s10 := x.getD 5 0, s11 := x.getD 4 0,
      s12 := x.getD 3 0, s13 := x.getD 2 0, s14 := x.getD 1 0, s15 := x.getD 0 0 }
  words_bytes (merge_hash_final (HASH_ROUND^[merge_hash_rounds has_avx2] s)).toList

/-- A block with `d` XORed into its 32-bit little-endian word `i` (bytes
`4i .. 4i+3`). -/
def xor_word (block : List Nat) (i d : Nat) : List Nat :=
  store_at block (4 * i) (le_store 4 (le_load (load_at block (4 * i) 4) ^^^ d))

/-- The flag `use_parallel = (num_blocks >= 4) && (blocks_per_thread >= 1)` of
`merkel_tree`, with `blocks_per_thread = num_blocks / num_threads`. -/
def merkle_use_parallel (num_blocks num_threads : Nat) : Bool :=
  let blocks_per_thread := num_blocks / num_threads
  decide (num_blocks ≥ 4) && decide (blocks_per_thread ≥ 1)

/-- The first block `start_block = thread_id * blocks_per_thread` of a thread
of the parallel region. -/
def merkle_start_block (num_blocks num_threads thread_id : Nat) : Nat :=
  let blocks_per_thread := num_blocks / num_threads
  thread_id * blocks_per_thread

/-- The bound `end_block = (thread_id == num_threads - 1) ? num_blocks :
start_block + blocks_per_thread` of a thread of the parallel region. -/
def merkle_end_block (num_blocks num_threads thread_id : Nat) : Nat :=
  let blocks_per_thread := num_blocks / num_threads
  let start_block := thread_id * blocks_per_thread
  if thread_id = num_threads - 1 then num_blocks else start_block + blocks_per_thread

/-- Every parallel region of a call of `merkel_tree` with `length` is granted
the whole team it asks for. -/
def full_team (num_threads : Nat) (env : MerkleEnv) (length : Nat) : Prop :=
  ∀ n, n ≤ length / 2 → merkle_use_parallel (n / 64) num_threads = true →
    num_threads ≤ env.team n

/-! ## The states of the reduction loop of `merkel_tree` -/

/-- The loop state of `merkel_tree` before the first iteration, the scratch
buffers `buf1`, `buf2` having `cap1`, `cap2` bytes (the code allocates `length`
bytes for each): `prev_buf = buf1`, `cur_buf = buf2`, `first_iteration = 1`,
`length /= 2`. -/
def merkle_init (env : MerkleEnv) (cap1 cap2 length : Nat) : MerkleState :=
  { buf1 := (List.range cap1).map (fun j => env.scratch1 j % 256)
    buf2 := (List.range cap2).map (fun j => env.scratch2 j % 256)
    prev_buf := BufId.buf1
    cur_buf := BufId.buf2
    first_iteration := true
    length := length / 2 }

/-- The state after `n` iterations of a loop body that may fault. -/
def iterateM {σ : Type} (body : σ → Option σ) : Nat → σ → Option σ
  | 0, s => some s
  | n + 1, s => (iterateM body n s).bind body

/-- The state of the loop of `merkel_tree` after `i` iterations of
`while (length >= 64)`, or `none` when one of them faults. -/
def merkle_state_after (has_avx2 : Bool) (num_threads : Nat) (env : MerkleEnv)
    (input : List Nat) (length i : Nat) : Option MerkleState :=
  iterateM (fun st => merkle_level has_avx2 num_threads (env.team st.length) input st) i
    (merkle_init env length length length)

/-- The states the loop goes through when every region is granted its whole
team and no access faults: every iteration writes the `length / 64` blocks of
the next level to `cur_buf` and swaps. -/
def merkle_traj (has_avx2 : Bool) (env : MerkleEnv) (input : List Nat)
    (cap1 cap2 length : Nat) : Nat → MerkleState
  | 0 => merkle_init env cap1 cap2 length
  | i + 1 =>
    merkle_swap (level_state has_avx2 input (merkle_traj has_avx2 env input cap1 cap2 length i)
      ((merkle_traj has_avx2 env input cap1 cap2 length i).length / 64))

/-- The loop state after `i` iterations on an input of `L` bytes with
`64 * 2^m <= L < 64 * 2^(m+1)`: `length` is `L / 2^(i+1)`, the pointers
alternate between the two scratch buffers, and the first `64 * 2^(m-i)` bytes
of the buffer the next level reads are `level[i]` of the first `64 * 2^m`
input bytes. -/
def MerkleAt (has_avx2 : Bool) (input : List Nat) (cap1 cap2 L m i : Nat)
    (st : MerkleState) : Prop :=
  st.length = L / 2 ^ (i + 1) ∧ 32 * 2 ^ (m - i) ≤ st.length ∧ st.length < 64 * 2 ^ (m - i) ∧
  st.prev_buf = (if i % 2 = 0 then BufId.buf1 else BufId.buf2) ∧
  st.cur_buf = (if i % 2 = 0 then BufId.buf2 else BufId.buf1) ∧
  st.first_iteration = decide (i = 0) ∧
  st.buf1.length = cap1 ∧ st.buf2.length = cap2 ∧
  (st.source input).take (64 * 2 ^ (m - i)) =
    spec_level (merge_hash_bytes has_avx2) (input.take (64 * 2 ^ m)) i

/-- Scratch capacities that hold every level: level `j` writes `L / 2^(j+1) / 64`
blocks to `buf2` when `j` is even and to `buf1` when `j` is odd, and from the
second level on reads twice as many blocks from the other buffer. -/
def caps_ok (cap1 cap2 L m : Nat) : Prop :=
  ∀ j, j < m →
    L / 2 ^ (j + 1) / 64 * 64 ≤ (if j % 2 = 0 then cap2 else cap1) ∧
    (1 ≤ j → 2 * (L / 2 ^ (j + 1) / 64) * 64 ≤ (if j % 2 = 0 then cap1 else cap2))

/-! ## The block accesses of `merkel_tree` -/

/-- The memory regions `merkel_tree` accesses: the input and the two scratch
buffers. -/
inductive MemRegion where
  | input
  | scratch (p : BufId)
deriving DecidableEq, Repr

/-- One access: the region, the byte offset and length, and whether it is a
write. -/
structure Access where
  region : MemRegion
  off : Nat
  len : Nat
  is_write : Bool
deriving DecidableEq, Repr

/-- The region the current level is read from: `first_input` in the first
iteration, `prev_buf` afterwards. -/
def MerkleState.source_region (st : MerkleState) : MemRegion :=
  if st.first_iteration then MemRegion.input else MemRegion.scratch st.prev_buf

/-- The accesses of the `merge_hash` call for block `i`: eight words read at
`&src[(2*i)*64]`, eight words read at `&src[(2*i+1)*64]`, sixteen words written
at `&cur_buf[i*64]`. -/
def merkle_block_accesses (i : Nat) (st : MerkleState) : List Access :=
  [{ region := st.source_region, off := (2 * i) * 64, len := 32, is_write := false },
   { region := st.source_region, off := (2 * i + 1) * 64, len := 32, is_write := false },
   { region := MemRegion.scratch st.cur_buf, off := i * 64, len := 64, is_write := true }]

/-- The statement `merkle_block` for block `i`, its accesses appended to a log. -/
def merkle_block_logged (has_avx2 : Bool) (input : List Nat) (i : Nat)
    (s : MerkleState × List Access) : Option (MerkleState × List Access) :=
  (merkle_block has_avx2 input i s.1).map (fun st => (st, s.2 ++ merkle_block_accesses i s.1))

/-- One iteration of `while (length >= 64)` as in `merkle_level`, returning
the accesses of the level with the new state. -/
def merkle_level_logged (has_avx2 : Bool) (num_threads team : Nat) (input : List Nat)
    (st : MerkleState) : Option (MerkleState × List Access) :=
  let num_blocks := st.length / 64
  let r :=
    if merkle_use_parallel num_blocks num_threads then
      for_loopM 0 (min team num_threads) (fun thread_id s =>
        for_loopM (merkle_start_block num_blocks num_threads thread_id)
          (merkle_end_block num_blocks num_threads thread_id)
          (merkle_block_logged has_avx2 input) s) (st, [])
    else
      for_loopM 0 num_blocks (merkle_block_logged has_avx2 input) (st, [])
  r.map (fun s => (merkle_swap s.1, s.2))

/-- The function `merkel_tree(input, output, length)` with scratch buffers of `cap1` and
`cap2` bytes (the code allocates `length` bytes for each): the 64 bytes written
to `output`, the accesses of every level in order, and the read of the final
copy; `none` when a memory access is out of bounds. -/
def merkel_tree_logged (has_avx2 : Bool) (num_threads : Nat) (env : MerkleEnv)
    (cap1 cap2 : Nat) (input : List Nat) (length : Nat) :
    Option (List Nat × List (List Access) × Access) :=
  if length = 64 then
    if 64 ≤ input.length then
      some (load_at input 0 64, [],
        { region := MemRegion.input, off := 0, len := 64, is_write := false })
    else none
  else
    (while_loopM (fun s : MerkleState × List (List Access) => decide (s.1.length ≥ 64))
      (fun s => (merkle_level_logged has_avx2 num_threads (env.team s.1.length) input s.1).map
        (fun r => (r.1, s.2 ++ [r.2])))
      length (merkle_init env cap1 cap2 length, [])).bind (fun s =>
        if 64 ≤ (s.1.mem s.1.prev_buf).length then
          some (load_at (s.1.mem s.1.prev_buf) 0 64, s.2,
            { region := MemRegion.scratch s.1.prev_buf, off := 0, len := 64, is_write := false })
        else none)

/-- The accesses of a level of `n` blocks from the state `st`, in block order. -/
def level_accesses (st : MerkleState) (n : Nat) : List Access :=
  (List.range n).flatMap (fun i => merkle_block_accesses i st)

/-! ## `mercha` on the memory of its caller -/

/-- The four byte arrays a call of `mercha` can reach through its pointers:
the caller's `input` and `output` and the two allocations `buf1`, `buf2` of
`merkel_tree`.  The arrays are taken to be disjoint. -/
inductive MerchaRegion where
  | input
  | output
  | buf1
  | buf2
deriving DecidableEq, Repr

/-- The contents of the four arrays. -/
structure MerchaMemory where
  input : List Nat
  output : List Nat
  buf1 : List Nat
  buf2 : List Nat
deriving DecidableEq, Repr

/-- The bytes of the array a pointer points to. -/
def MerchaMemory.get (m : MerchaMemory) : MerchaRegion → List Nat
  | .input => m.input
  | .output => m.output
  | .buf1 => m.buf1
  | .buf2 => m.buf2

/-- The memory after the array a pointer points to has been replaced. -/
def MerchaMemory.set (m : MerchaMemory) (r : MerchaRegion) (v : List Nat) : MerchaMemory :=
  match r with
  | .input => { m with input := v }
  | .output => { m with output := v }
  | .buf1 => { m with buf1 := v }
  | .buf2 => { m with buf2 := v }

/-- The loop state of `merkel_tree` with the memory it runs on: `prev_buf` and
`cur_buf` are pointers, `first_input` is `input`. -/
structure MerkleMem where
  mem : MerchaMemory
  prev_buf : MerchaRegion
  cur_buf : MerchaRegion
  first_iteration : Bool
  length : Nat
deriving DecidableEq, Repr

/-- The `if (first_iteration) merge_hash(..) else merge_hash(..)` statement for
block `i` on the memory: it reads through `first_input` or `prev_buf` and
writes sixteen words through `cur_buf`. -/
def merkle_block_mem (has_avx2 : Bool) (i : Nat) (s : MerkleMem) : Option MerkleMem :=
  let src := if s.first_iteration then s.mem.get MerchaRegion.input else s.mem.get s.prev_buf
  let cur := s.mem.get s.cur_buf
  (merge_hash has_avx2 (src.drop ((2 * i) * 64)) (src.drop ((2 * i + 1) * 64))
    (cur.drop (i * 64))).map
    (fun out => { s with mem := s.mem.set s.cur_buf (cur.take (i * 64) ++ out) })

/-- The pointer swap and `length /= 2` at the end of a `while` iteration. -/
def merkle_swap_mem (s : MerkleMem) : MerkleMem :=
  let s :=
    if s.first_iteration then
      { s with
        first_iteration := false
        prev_buf := s.cur_buf
        cur_buf := if s.cur_buf = MerchaRegion.buf1 then MerchaRegion.buf2
          else MerchaRegion.buf1 }
    else
      { s with cur_buf := s.prev_buf, prev_buf := s.cur_buf }
  { s with length := s.length / 2 }

/-- One iteration of `while (length >= 64)` on the memory, as `merkle_level`. -/
def merkle_level_mem (has_avx2 : Bool) (num_threads team : Nat) (s : MerkleMem) :
    Option MerkleMem :=
  let num_blocks := s.length / 64
  let blocks_per_thread := num_blocks / num_threads
  let use_parallel := decide (num_blocks ≥ 4) && decide (blocks_per_thread ≥ 1)
  let r :=
    if use_parallel then
      for_loopM 0 (min team num_threads) (fun thread_id s =>
        let start_block := thread_id * blocks_per_thread
        let end_block :=
          if thread_id = num_threads - 1 then num_blocks else start_block + blocks_per_thread
        for_loopM start_block end_block (merkle_block_mem has_avx2) s) s
    else
      for_loopM 0 num_blocks (merkle_block_mem has_avx2) s
  r.map merkle_swap_mem

/-- The function `merkel_tree(input, output, length)` on the memory of its caller: the memory
when it returns, or `none` when an access is out of bounds.  The two
allocations hold the bytes the environment put there; the final copy writes
64 bytes through `output`. -/
def merkel_tree_mem (has_avx2 : Bool) (num_threads : Nat) (env : MerkleEnv)
    (m : MerchaMemory) (length : Nat) : Option MerchaMemory :=
  if length = 64 then
    if 64 ≤ m.input.length ∧ 64 ≤ m.output.length then
      some (m.set MerchaRegion.output (store_at m.output 0 (load_at m.input 0 64)))
    else none
  else
    let s : MerkleMem :=
      { mem :=
          { m with
            buf1 := (List.range length).map (fun j => env.scratch1 j % 256)
            buf2 := (List.range length).map (fun j => env.scratch2 j % 256) }
        prev_buf := MerchaRegion.buf1
        cur_buf := MerchaRegion.buf2
        first_iteration := true
        length := length / 2 }
    (while_loopM (fun s => decide (s.length ≥ 64))
      (fun s => merkle_level_mem has_avx2 num_threads (env.team s.length) s)
      length s).bind (fun s =>
        if 64 ≤ (s.mem.get s.prev_buf).length ∧ 64 ≤ s.mem.output.length then
          some (s.mem.set MerchaRegion.output
            (store_at s.mem.output 0 (load_at (s.mem.get s.prev_buf) 0 64)))
        else none)

/-- The function `mercha(key, nonce, input, output, length)` on the memory of its caller:
`chacha20_encrypt` transforms `input` in place, then `merkel_tree` runs on the
same memory. -/
def mercha_mem (has_avx2 : Bool) (num_threads : Nat) (env : MerkleEnv) (key nonce : List Nat)
    (m : MerchaMemory) (length : Nat) : Option MerchaMemory :=
  merkel_tree_mem has_avx2 num_threads env
    (m.set MerchaRegion.input
      (chacha20_encrypt has_avx2 num_threads key nonce 0 m.input length)) length

/-- The pointer to a scratch buffer. -/
def BufId.region : BufId → MerchaRegion
  | .buf1 => MerchaRegion.buf1
  | .buf2 => MerchaRegion.buf2

/-- The loop state of `merkel_tree` on the memory whose `input` and `output`
arrays hold `inp` and `out`. -/
def MerkleState.in_memory (inp out : List Nat) (st : MerkleState) : MerkleMem :=
  { mem := { input := inp, output := out, buf1 := st.buf1, buf2 := st.buf2 }
    prev_buf := st.prev_buf.region
    cur_buf := st.cur_buf.region
    first_iteration := st.first_iteration
    length := st.length }

/-! # Part II: lemmas and theorems -/

/-! ## Bit-level facts -/

theorem or_mod_two_pow (a b n : Nat) : (a ||| b) % 2 ^ n = (a % 2 ^ n) ||| (b % 2 ^ n) := by
  apply Nat.eq_of_testBit_eq
  intro i
  simp only [Nat.testBit_mod_two_pow, Nat.testBit_or]
  by_cases h : i < n <;> simp [h]

theorem shiftRight_lt_of_lt {x k m : Nat} (h : x < m) : x >>> k < m :=
  Nat.lt_of_le_of_lt (by rw [Nat.shiftRight_eq_div_pow]; exact Nat.div_le_self _ _) h

/-- On a 32-bit word the shift-and-or of the code is the rotation. -/
theorem rotl32_eq {x : Nat} (n : Nat) (h : x < 2 ^ 32) :
    rotl32 x n = ((x <<< n) % 2 ^ 32) ||| (x >>> (32 - n)) := by
  unfold rotl32
  rw [or_mod_two_pow, Nat.mod_eq_of_lt (shiftRight_lt_of_lt h)]

theorem rot_code_lt {x : Nat} (n m : Nat) (h : x < 2 ^ 32) :
    ((x <<< n) % 2 ^ 32) ||| (x >>> m) < 2 ^ 32 :=
  Nat.or_lt_two_pow (Nat.mod_lt _ (by decide)) (shiftRight_lt_of_lt h)

theorem rotl32_lt (x n : Nat) : rotl32 x n < 2 ^ 32 := Nat.mod_lt _ (by decide)

theorem spec_QR_vals_eq {a b c d : Nat} (hb : b < 2 ^ 32) (hd : d < 2 ^ 32) :
    spec_QR_vals a b c d = QR_INLINE a b c d := by
  have m : ∀ x : Nat, x % 2 ^ 32 < 2 ^ 32 := fun x => Nat.mod_lt _ (by decide)
  have h1 : d ^^^ (a + b) % 2 ^ 32 < 2 ^ 32 := Nat.xor_lt_two_pow hd (m _)
  have e1 := rotl32_eq 16 h1
  have h2 : b ^^^ (c + rotl32 (d ^^^ (a + b) % 2 ^ 32) 16) % 2 ^ 32 < 2 ^ 32 :=
    Nat.xor_lt_two_pow hb (m _)
  have e2 := rotl32_eq 12 h2
  have h3 : rotl32 (d ^^^ (a + b) % 2 ^ 32) 16 ^^^
      ((a + b) % 2 ^ 32 + rotl32 (b ^^^ (c + rotl32 (d ^^^ (a + b) % 2 ^ 32) 16) % 2 ^ 32) 12)
        % 2 ^ 32 < 2 ^ 32 := Nat.xor_lt_two_pow (rotl32_lt _ _) (m _)
  have e3 := rotl32_eq 8 h3
  have h4 : rotl32 (b ^^^ (c + rotl32 (d ^^^ (a + b) % 2 ^ 32) 16) % 2 ^ 32) 12 ^^^
      ((c + rotl32 (d ^^^ (a + b) % 2 ^ 32) 16) % 2 ^ 32 +
        rotl32 (rotl32 (d ^^^ (a + b) % 2 ^ 32) 16 ^^^
          ((a + b) % 2 ^ 32 +
            rotl32 (b ^^^ (c + rotl32 (d ^^^ (a + b) % 2 ^ 32) 16) % 2 ^ 32) 12) % 2 ^ 32) 8)
        % 2 ^ 32 < 2 ^ 32 := Nat.xor_lt_two_pow (rotl32_lt _ _) (m _)
  have e4 := rotl32_eq 7 h4
  unfold spec_QR_vals QR_INLINE
  simp only []
  rw [e4, e3, e2, e1]

theorem QR_INLINE_lt {a b c d : Nat} (hb : b < 2 ^ 32) (hd : d < 2 ^ 32) :
    (QR_INLINE a b c d).1 < 2 ^ 32 ∧ (QR_INLINE a b c d).2.1 < 2 ^ 32 ∧
    (QR_INLINE a b c d).2.2.1 < 2 ^ 32 ∧ (QR_INLINE a b c d).2.2.2 < 2 ^ 32 := by
  rw [← spec_QR_vals_eq hb hd]
  exact ⟨Nat.mod_lt _ (by decide), rotl32_lt _ _, Nat.mod_lt _ (by decide), rotl32_lt _ _⟩

theorem spec_QR_0_4_8_12 (x0 x1 x2 x3 x4 x5 x6 x7 x8 x9 x10 x11 x12 x13 x14 x15 : Nat) :
    spec_QR [x0, x1, x2, x3, x4, x5, x6, x7, x8, x9, x10, x11, x12, x13, x14, x15] 0 4 8 12 =
      [(spec_QR_vals x0 x4 x8 x12).1, x1, x2, x3, (spec_QR_vals x0 x4 x8 x12).2.1, x5, x6, x7,
       (spec_QR_vals x0 x4 x8 x12).2.2.1, x9, x10, x11, (spec_QR_vals x0 x4 x8 x12).2.2.2, x13, x14, x15] := by
  simp [spec_QR, spec_QR_vals, List.set, List.getD]

theorem spec_QR_1_5_9_13 (x0 x1 x2 x3 x4 x5 x6 x7 x8 x9 x10 x11 x12 x13 x14 x15 : Nat) :
    spec_QR [x0, x1, x2, x3, x4, x5, x6, x7, x8, x9, x10, x11, x12, x13, x14, x15] 1 5 9 13 =
      [x0, (spec_QR_vals x1 x5 x9 x13).1, x2, x3, x4, (spec_QR_vals x1 x5 x9 x13).2.1, x6, x7,
       x8, (spec_QR_vals x1 x5 x9 x13).2.2.1, x10, x11, x12, (spec_QR_vals x1 x5 x9 x13).2.2.2, x14, x15] := by
  simp [spec_QR, spec_QR_vals, List.set, List.getD]

theorem spec_QR_2_6_10_14 (x0 x1 x2 x3 x4 x5 x6 x7 x8 x9 x10 x11 x12 x13 x14 x15 : Nat) :
    spec_QR [x0, x1, x2, x3, x4, x5, x6, x7, x8, x9, x10, x11, x12, x13, x14, x15] 2 6 10 14 =
      [x0, x1, (spec_QR_vals x2 x6 x10 x14).1, x3, x4, x5, (spec_QR_vals x2 x6 x10 x14).2.1, x7,
       x8, x9, (spec_QR_vals x2 x6 x10 x14).2.2.1, x11, x12, x13, (spec_QR_vals x2 x6 x10 x14).2.2.2, x15] := by
  simp [spec_QR, spec_QR_vals, List.set, List.getD]

theorem spec_QR_3_7_11_15 (x0 x1 x2 x3 x4 x5 x6 x7 x8 x9 x10 x11 x12 x13 x14 x15 : Nat) :
    spec_QR [x0, x1, x2, x3, x4, x5, x6, x7, x8, x9, x10, x11, x12, x13, x14, x15] 3 7 11 15 =
      [x0, x1, x2, (spec_QR_vals x3 x7 x11 x15).1, x4, x5, x6, (spec_QR_vals x3 x7 x11 x15).2.1,
       x8, x9, x10, (spec_QR_vals x3 x7 x11 x15).2.2.1, x12, x13, x14, (spec_QR_vals x3 x7 x11 x15).2.2.2] := by
  simp [spec_QR, spec_QR_vals, List.set, List.getD]

theorem spec_QR_0_5_10_15 (x0 x1 x2 x3 x4 x5 x6 x7 x8 x9 x10 x11 x12 x13 x14 x15 : Nat) :
    spec_QR [x0, x1, x2, x3, x4, x5, x6, x7, x8, x9, x10, x11, x12, x13, x14, x15] 0 5 10 15 =
      [(spec_QR_vals x0 x5 x10 x15).1, x1, x2, x3, x4, (spec_QR_vals x0 x5 x10 x15).2.1, x6, x7,
       x8, x9, (spec_QR_vals x0 x5 x10 x15).2.2.1, x11, x12, x13, x14, (spec_QR_vals x0 x5 x10 x15).2.2.2] := by
  simp [spec_QR, spec_QR_vals, List.set, List.getD]

theorem spec_QR_1_6_11_12 (x0 x1 x2 x3 x4 x5 x6 x7 x8 x9 x10 x11 x12 x13 x14 x15 : Nat) :
    spec_QR [x0, x1, x2, x3, x4, x5, x6, x7, x8, x9, x10, x11, x12, x13, x14, x15] 1 6 11 12 =
      [x0, (spec_QR_vals x1 x6 x11 x12).1, x2, x3, x4, x5, (spec_QR_vals x1 x6 x11 x12).2.1, x7,
       x8, x9, x10, (spec_QR_vals x1 x6 x11 x12).2.2.1, (spec_QR_vals x1 x6 x11 x12).2.2.2, x13, x14, x15] := by
  simp [spec_QR, spec_QR_vals, List.set, List.getD]

theorem spec_QR_2_7_8_13 (x0 x1 x2 x3 x4 x5 x6 x7 x8 x9 x10 x11 x12 x13 x14 x15 : Nat) :
    spec_QR [x0, x1, x2, x3, x4, x5, x6, x7, x8, x9, x10, x11, x12, x13, x14, x15] 2 7 8 13 =
      [x0, x1, (spec_QR_vals x2 x7 x8 x13).1, x3, x4, x5, x6, (spec_QR_vals x2 x7 x8 x13).2.1,
       (spec_QR_vals x2 x7 x8 x13).2.2.1, x9, x10, x11, x12, (spec_QR_vals x2 x7 x8 x13).2.2.2, x14, x15] := by
  simp [spec_QR, spec_QR_vals, List.set, List.getD]

theorem spec_QR_3_4_9_14 (x0 x1 x2 x3 x4 x5 x6 x7 x8 x9 x10 x11 x12 x13 x14 x15 : Nat) :
    spec_QR [x0, x1, x2, x3, x4, x5, x6, x7, x8, x9, x10, x11, x12, x13, x14, x15] 3 4 9 14 =
      [x0, x1, x2, (spec_QR_vals x3 x4 x9 x14).1, (spec_QR_vals x3 x4 x9 x14).2.1, x5, x6, x7,
       x8, (spec_QR_vals x3 x4 x9 x14).2.2.1, x10, x11, x12, x13, (spec_QR_vals x3 x4 x9 x14).2.2.2, x15] := by
  simp [spec_QR, spec_QR_vals, List.set, List.getD]

/-! ## The unrolled block function against the specification -/

theorem list_length_16 {l : List Nat} (h : l.length = 16) :
    ∃ a0 a1 a2 a3 a4 a5 a6 a7 a8 a9 a10 a11 a12 a13 a14 a15 : Nat,
      l = [a0, a1, a2, a3, a4, a5, a6, a7, a8, a9, a10, a11, a12, a13, a14, a15] := by
  match l, h with
  | [a0, a1, a2, a3, a4, a5, a6, a7, a8, a9, a10, a11, a12, a13, a14, a15], _ =>
    exact ⟨a0, a1, a2, a3, a4, a5, a6, a7, a8, a9, a10, a11, a12, a13, a14, a15, rfl⟩

theorem XRegs.toList_load {state : List Nat} (h : state.length = 16) :
    (XRegs.load state).toList = state := by
  obtain ⟨a0, a1, a2, a3, a4, a5, a6, a7, a8, a9, a10, a11, a12, a13, a14, a15, rfl⟩ :=
    list_length_16 h
  rfl

theorem XRegs.ok_load {state : List Nat} (h : state.length = 16) (hw : words_ok state) :
    (XRegs.load state).ok := by
  obtain ⟨a0, a1, a2, a3, a4, a5, a6, a7, a8, a9, a10, a11, a12, a13, a14, a15, rfl⟩ :=
    list_length_16 h
  simpa [words_ok, XRegs.ok, XRegs.load] using hw

theorem DOUBLE_ROUND_ok {r : XRegs} (h : r.ok) : (DOUBLE_ROUND r).ok := by
  obtain ⟨h0, h1, h2, h3, h4, h5, h6, h7, h8, h9, h10, h11, h12, h13, h14, h15⟩ := h
  have c0 := QR_INLINE_lt (a := r.x0) (c := r.x8) h4 h12
  have c1 := QR_INLINE_lt (a := r.x1) (c := r.x9) h5 h13
  have c2 := QR_INLINE_lt (a := r.x2) (c := r.x10) h6 h14
  have c3 := QR_INLINE_lt (a := r.x3) (c := r.x11) h7 h15
  have d0 := QR_INLINE_lt (a := (QR_INLINE r.x0 r.x4 r.x8 r.x12).1)
    (c := (QR_INLINE r.x2 r.x6 r.x10 r.x14).2.2.1) c1.2.1 c3.2.2.2
  have d1 := QR_INLINE_lt (a := (QR_INLINE r.x1 r.x5 r.x9 r.x13).1)
    (c := (QR_INLINE r.x3 r.x7 r.x11 r.x15).2.2.1) c2.2.1 c0.2.2.2
  have d2 := QR_INLINE_lt (a := (QR_INLINE r.x2 r.x6 r.x10 r.x14).1)
    (c := (QR_INLINE r.x0 r.x4 r.x8 r.x12).2.2.1) c3.2.1 c1.2.2.2
  have d3 := QR_INLINE_lt (a := (QR_INLINE r.x3 r.x7 r.x11 r.x15).1)
    (c := (QR_INLINE r.x1 r.x5 r.x9 r.x13).2.2.1) c0.2.1 c2.2.2.2
  exact ⟨d0.1, d1.1, d2.1, d3.1, d3.2.1, d0.2.1, d1.2.1, d2.2.1,
    d2.2.2.1, d3.2.2.1, d0.2.2.1, d1.2.2.1, d1.2.2.2, d2.2.2.2, d3.2.2.2, d0.2.2.2⟩

theorem spec_double_round_toList {r : XRegs} (h : r.ok) :
    spec_double_round r.toList = (DOUBLE_ROUND r).toList := by
  obtain ⟨h0, h1, h2, h3, h4, h5, h6, h7, h8, h9, h10, h11, h12, h13, h14, h15⟩ := h
  have c0 := QR_INLINE_lt (a := r.x0) (c := r.x8) h4 h12
  have c1 := QR_INLINE_lt (a := r.x1) (c := r.x9) h5 h13
  have c2 := QR_INLINE_lt (a := r.x2) (c := r.x10) h6 h14
  have c3 := QR_INLINE_lt (a := r.x3) (c := r.x11) h7 h15
  unfold spec_double_round spec_column_round spec_diagonal_round XRegs.toList
  rw [spec_QR_0_4_8_12, spec_QR_1_5_9_13, spec_QR_2_6_10_14, spec_QR_3_7_11_15,
    spec_QR_vals_eq h4 h12, spec_QR_vals_eq h5 h13, spec_QR_vals_eq h6 h14,
    spec_QR_vals_eq h7 h15,
    spec_QR_0_5_10_15, spec_QR_1_6_11_12, spec_QR_2_7_8_13, spec_QR_3_4_9_14,
    spec_QR_vals_eq c1.2.1 c3.2.2.2, spec_QR_vals_eq c2.2.1 c0.2.2.2,
    spec_QR_vals_eq c3.2.1 c1.2.2.2, spec_QR_vals_eq c0.2.1 c2.2.2.2]
  rfl

theorem spec_double_round_iterate (n : Nat) {r : XRegs} (h : r.ok) :
    spec_double_round^[n] r.toList = (DOUBLE_ROUND^[n] r).toList ∧ (DOUBLE_ROUND^[n] r).ok := by
  induction n generalizing r with
  | zero => exact ⟨rfl, h⟩
  | succ n ih =>
    rw [Function.iterate_succ_apply, Function.iterate_succ_apply, spec_double_round_toList h]
    exact ih (DOUBLE_ROUND_ok h)

theorem chacha20_block_eq_spec {state : List Nat} (hlen : state.length = 16)
    (hw : words_ok state) : chacha20_block state = (state, spec_block state) := by
  have hit := (spec_double_round_iterate 10 (XRegs.ok_load hlen hw)).1
  rw [XRegs.toList_load hlen] at hit
  unfold spec_block
  simp only [hit]
  obtain ⟨a0, a1, a2, a3, a4, a5, a6, a7, a8, a9, a10, a11, a12, a13, a14, a15, rfl⟩ :=
    list_length_16 hlen
  simp [chacha20_block, XRegs.toList, XRegs.load, Function.iterate_succ_apply]

/-- C1: for every state of sixteen 32-bit words, `chacha20_block` writes the 64
bytes the specification defines (ten column/diagonal double-rounds with
rotations 16, 12, 8, 7 on a copy of the state, the original state added
word-wise mod 2^32, the words serialised little-endian) and leaves the state
it was passed unchanged. -/
theorem C1_chacha20_block_refines_spec (state : List Nat) (hlen : state.length = 16)
    (hw : words_ok state) :
    (chacha20_block state).2 = spec_block state ∧ (chacha20_block state).1 = state := by
  have h := chacha20_block_eq_spec hlen hw
  constructor
  · rw [h]
  · rw [h]

/-- C1 at the RFC 7539 state for the zero key, zero nonce and counter 0. -/
theorem C1_chacha20_block_refines_spec_witness :
    ([0x61707865, 0x3320646e, 0x79622d32, 0x6b206574, 0, 0, 0, 0, 0, 0, 0, 0, 0, 0, 0, 0]
        : List Nat).length = 16 ∧
    words_ok [0x61707865, 0x3320646e, 0x79622d32, 0x6b206574, 0, 0, 0, 0, 0, 0, 0, 0, 0, 0, 0, 0] ∧
    (chacha20_block
        [0x61707865, 0x3320646e, 0x79622d32, 0x6b206574, 0, 0, 0, 0, 0, 0, 0, 0, 0, 0, 0, 0]).2 =
      spec_block
        [0x61707865, 0x3320646e, 0x79622d32, 0x6b206574, 0, 0, 0, 0, 0, 0, 0, 0, 0, 0, 0, 0] ∧
    (chacha20_block
        [0x61707865, 0x3320646e, 0x79622d32, 0x6b206574, 0, 0, 0, 0, 0, 0, 0, 0, 0, 0, 0, 0]).1 =
      [0x61707865, 0x3320646e, 0x79622d32, 0x6b206574, 0, 0, 0, 0, 0, 0, 0, 0, 0, 0, 0, 0] :=
  ⟨by decide, by decide, C1_chacha20_block_refines_spec _ (by decide) (by decide)⟩

/-! ## Little-endian loads and stores commute with XOR -/

theorem xor_mod_256 (u v : Nat) : (u ^^^ v) % 256 = (u % 256) ^^^ (v % 256) := by
  apply Nat.eq_of_testBit_eq
  intro i
  have h : (256 : Nat) = 2 ^ 8 := by norm_num
  simp only [h, Nat.testBit_mod_two_pow, Nat.testBit_xor]
  by_cases hi : i < 8 <;> simp [hi]

theorem xor_div_256 (u v : Nat) : (u ^^^ v) / 256 = (u / 256) ^^^ (v / 256) := by
  apply Nat.eq_of_testBit_eq
  intro i
  have h : (256 : Nat) = 2 ^ 8 := by norm_num
  simp only [h, ← Nat.shiftRight_eq_div_pow, Nat.testBit_shiftRight, Nat.testBit_xor]

theorem bytes_ok_nil : bytes_ok [] := by
  intro b hb; cases hb

theorem bytes_ok_cons {a : Nat} {l : List Nat} : bytes_ok (a :: l) ↔ a < 256 ∧ bytes_ok l := by
  simp [bytes_ok]

theorem bytes_ok_append {l₁ l₂ : List Nat} : bytes_ok (l₁ ++ l₂) ↔ bytes_ok l₁ ∧ bytes_ok l₂ := by
  simp only [bytes_ok, List.mem_append]
  constructor
  · intro h; exact ⟨fun b hb => h b (Or.inl hb), fun b hb => h b (Or.inr hb)⟩
  · rintro ⟨h1, h2⟩ b (hb | hb)
    · exact h1 b hb
    · exact h2 b hb

theorem bytes_ok_take {l : List Nat} (h : bytes_ok l) (n : Nat) : bytes_ok (l.take n) :=
  fun b hb => h b (List.mem_of_mem_take hb)

theorem bytes_ok_drop {l : List Nat} (h : bytes_ok l) (n : Nat) : bytes_ok (l.drop n) :=
  fun b hb => h b (List.mem_of_mem_drop hb)

theorem bytes_ok_le_store (n v : Nat) : bytes_ok (le_store n v) := by
  induction n generalizing v with
  | zero => exact bytes_ok_nil
  | succ n ih => exact bytes_ok_cons.2 ⟨Nat.mod_lt _ (by decide), ih _⟩

theorem length_le_store (n v : Nat) : (le_store n v).length = n := by
  induction n generalizing v with
  | zero => rfl
  | succ n ih => simp [le_store, ih]

theorem bytes_ok_zipWith_xor {A B : List Nat} (hA : bytes_ok A) (hB : bytes_ok B) :
    bytes_ok (List.zipWith (· ^^^ ·) A B) := by
  induction A generalizing B with
  | nil => simpa using bytes_ok_nil
  | cons a A ih =>
    cases B with
    | nil => simpa using bytes_ok_nil
    | cons b B =>
      have ha := bytes_ok_cons.1 hA
      have hb := bytes_ok_cons.1 hB
      simp only [List.zipWith_cons_cons]
      exact bytes_ok_cons.2
        ⟨Nat.xor_lt_two_pow (n := 8) (by simpa using ha.1) (by simpa using hb.1), ih ha.2 hb.2⟩

/-- Storing the XOR of two wide loads is the byte-wise XOR. -/
theorem le_store_xor_le_load {A B : List Nat} (hlen : A.length = B.length)
    (hA : bytes_ok A) (hB : bytes_ok B) :
    le_store A.length (le_load A ^^^ le_load B) = List.zipWith (· ^^^ ·) A B := by
  induction A generalizing B with
  | nil => cases B with
    | nil => rfl
    | cons b B => simp at hlen
  | cons a A ih =>
    cases B with
    | nil => simp at hlen
    | cons b B =>
      have ha := bytes_ok_cons.1 hA
      have hb := bytes_ok_cons.1 hB
      have hl : A.length = B.length := by simpa using hlen
      have e1 : (a + 256 * le_load A) % 256 = a := by omega
      have e2 : (b + 256 * le_load B) % 256 = b := by omega
      have e3 : (a + 256 * le_load A) / 256 = le_load A := by omega
      have e4 : (b + 256 * le_load B) / 256 = le_load B := by omega
      simp only [List.length_cons, le_load, le_store, List.zipWith_cons_cons, xor_mod_256,
        xor_div_256, e1, e2, e3, e4, ih hl ha.2 hb.2]

/-! ## Loops -/

theorem for_loop_succ {σ : Type} (lo hi : Nat) (body : Nat → σ → σ) (s : σ) (h : lo ≤ hi) :
    for_loop lo (hi + 1) body s = body hi (for_loop lo hi body s) := by
  unfold for_loop
  have e : hi + 1 - lo = (hi - lo) + 1 := by omega
  rw [e, List.range'_1_concat, List.foldl_append]
  have e2 : lo + (hi - lo) = hi := by omega
  simp [e2]

theorem for_loop_self {σ : Type} (lo : Nat) (body : Nat → σ → σ) (s : σ) :
    for_loop lo lo body s = s := by
  simp [for_loop]

/-- Invariant rule for `for_loop`. -/
theorem for_loop_induction {σ : Type} (I : Nat → σ → Prop) (lo hi : Nat)
    (body : Nat → σ → σ) (s : σ) (hle : lo ≤ hi) (h0 : I lo s)
    (hstep : ∀ i s, lo ≤ i → i < hi → I i s → I (i + 1) (body i s)) :
    I hi (for_loop lo hi body s) := by
  induction hi with
  | zero =>
    have : lo = 0 := by omega
    subst this
    simpa [for_loop_self] using h0
  | succ n ih =>
    by_cases hn : lo = n + 1
    · subst hn
      simpa [for_loop_self] using h0
    · have hle' : lo ≤ n := by omega
      rw [for_loop_succ _ _ _ _ hle']
      exact hstep n _ hle' (by omega)
        (ih hle' (fun i s h1 h2 h3 => hstep i s h1 (by omega) h3))

/-- Invariant rule for `while_loop` with a decreasing measure. -/
theorem while_loop_induction {σ : Type} (I : σ → Prop) (μ : σ → Nat) (cond : σ → Bool)
    (body : σ → σ) (hstep : ∀ s, I s → cond s = true → I (body s) ∧ μ (body s) < μ s)
    (fuel : Nat) (s : σ) (h0 : I s) (hfuel : μ s ≤ fuel) :
    I (while_loop cond body fuel s) ∧ cond (while_loop cond body fuel s) = false := by
  induction fuel generalizing s with
  | zero =>
    refine ⟨h0, ?_⟩
    cases hc : cond s with
    | false => simpa [while_loop] using hc
    | true => have := (hstep s h0 hc).2; omega
  | succ n ih =>
    cases hc : cond s with
    | false => simpa [while_loop, hc] using h0
    | true =>
      have hs := hstep s h0 hc
      simp only [while_loop, hc, if_true]
      exact ih (body s) hs.1 (by omega)

/-! ## `simd_xor_block` is the byte-wise XOR on both paths -/

theorem length_xor_upto {b k : List Nat} {m : Nat} (hk : m ≤ k.length) :
    (xor_upto b k m).length = b.length := by
  simp only [xor_upto, List.length_append, List.length_zipWith, List.length_take,
    List.length_drop]
  omega

theorem xor_upto_zero (b k : List Nat) : xor_upto b k 0 = b := by
  simp [xor_upto]

theorem xor_upto_add {b k : List Nat} {m w : Nat} (h1 : m + w ≤ b.length)
    (h2 : m + w ≤ k.length) :
    xor_upto b k (m + w) =
      List.zipWith (· ^^^ ·) (b.take m) (k.take m) ++
        List.zipWith (· ^^^ ·) ((b.drop m).take w) ((k.drop m).take w) ++ b.drop (m + w) := by
  unfold xor_upto
  rw [List.take_add, List.take_add, List.zipWith_append]
  simp only [List.length_take]
  omega

/-- One wide (`w`-byte) XOR step extends the processed prefix by `w`. -/
theorem xor_upto_wide_step {b k : List Nat} {m w : Nat} (hb : bytes_ok b) (hk : bytes_ok k)
    (h1 : m + w ≤ b.length) (h2 : m + w ≤ k.length) :
    store_at (xor_upto b k m) m
        (le_store w (le_load (load_at (xor_upto b k m) m w) ^^^ le_load (load_at k m w))) =
      xor_upto b k (m + w) := by
  have hz : (List.zipWith (· ^^^ ·) (b.take m) (k.take m)).length = m := by
    simp only [List.length_zipWith, List.length_take]; omega
  have hA : load_at (xor_upto b k m) m w = (b.drop m).take w := by
    unfold load_at xor_upto
    rw [List.drop_left' hz]
  have hlA : ((b.drop m).take w).length = w := by
    simp only [List.length_take, List.length_drop]; omega
  have hlB : ((k.drop m).take w).length = w := by
    simp only [List.length_take, List.length_drop]; omega
  have hx := le_store_xor_le_load (A := (b.drop m).take w) (B := (k.drop m).take w)
    (by rw [hlA, hlB]) (bytes_ok_take (bytes_ok_drop hb m) w) (bytes_ok_take (bytes_ok_drop hk m) w)
  rw [hlA] at hx
  rw [hA, xor_upto_add h1 h2]
  unfold store_at load_at
  rw [hx]
  have hlz : (List.zipWith (· ^^^ ·) ((b.drop m).take w) ((k.drop m).take w)).length = w := by
    simp only [List.length_zipWith, hlA, hlB]; omega
  rw [hlz]
  unfold xor_upto
  rw [List.take_left' hz]
  have e : m + w = (List.zipWith (· ^^^ ·) (b.take m) (k.take m)).length + w := by rw [hz]
  conv_lhs => rw [e, List.drop_append, List.drop_drop]

/-- One byte XOR step extends the processed prefix by one. -/
theorem xor_upto_byte_step {b k : List Nat} {m : Nat} (h1 : m < b.length)
    (h2 : m < k.length) :
    (xor_upto b k m).set m ((xor_upto b k m).getD m 0 ^^^ k.getD m 0) =
      xor_upto b k (m + 1) := by
  have hz : (List.zipWith (· ^^^ ·) (b.take m) (k.take m)).length = m := by
    simp only [List.length_zipWith, List.length_take]; omega
  have hlen : (xor_upto b k m).length = b.length := length_xor_upto (by omega)
  have hg : (xor_upto b k m).getD m 0 = b.getD m 0 := by
    unfold xor_upto
    rw [List.getD_append_right _ _ _ _ (by omega), hz]
    simp
  rw [hg, List.set_eq_take_append_cons_drop, if_pos (by omega), xor_upto_add (w := 1) h1 h2]
  unfold xor_upto
  rw [List.take_left' hz]
  have e : m + 1 = (List.zipWith (· ^^^ ·) (b.take m) (k.take m)).length + 1 := by rw [hz]
  conv_lhs => rw [e, List.drop_append, List.drop_drop]
  have hb1 : (b.drop m).take 1 = [b.getD m 0] := by
    rw [List.getD_eq_getElem _ _ h1, List.drop_eq_getElem_cons h1]
    rfl
  have hk1 : (k.drop m).take 1 = [k.getD m 0] := by
    rw [List.getD_eq_getElem _ _ h2, List.drop_eq_getElem_cons h2]
    rfl
  rw [hb1, hk1]
  simp

/-- Both paths of `simd_xor_block` XOR the first `n` bytes of the buffer with
the first `n` bytes of the keystream and leave the rest of the buffer alone. -/
theorem simd_xor_block_eq (has_avx2 : Bool) {b k : List Nat} {n : Nat} (hb : bytes_ok b)
    (hk : bytes_ok k) (h1 : n ≤ b.length) (h2 : n ≤ k.length) :
    simd_xor_block has_avx2 b k n = xor_upto b k n := by
  have wide : ∀ w c : Nat, c * w ≤ n →
      for_loop 0 c (fun i buffer => store_at buffer (i * w)
        (le_store w (le_load (load_at buffer (i * w) w) ^^^ le_load (load_at k (i * w) w)))) b
        = xor_upto b k (c * w) := by
    intro w c hc
    refine for_loop_induction (fun i s => s = xor_upto b k (i * w)) 0 c _ b (Nat.zero_le _)
      (by simp [xor_upto_zero]) ?_
    intro i s _ hi hs
    have hiw : i * w + w ≤ n := by
      have : (i + 1) * w ≤ c * w := Nat.mul_le_mul_right w hi
      have e : (i + 1) * w = i * w + w := by ring
      omega
    subst hs
    have e : (i + 1) * w = i * w + w := by ring
    rw [e]
    exact xor_upto_wide_step hb hk (by omega) (by omega)
  have tail : ∀ a : Nat, a ≤ n →
      for_loop a n (fun i buffer => buffer.set i (buffer.getD i 0 ^^^ k.getD i 0))
        (xor_upto b k a) = xor_upto b k n := by
    intro a ha
    refine for_loop_induction (fun i s => s = xor_upto b k i) a n _ _ ha rfl ?_
    intro i s _ hi hs
    subst hs
    exact xor_upto_byte_step (by omega) (by omega)
  unfold simd_xor_block
  split
  · simp only []
    rw [wide 32 (n / 32) (Nat.div_mul_le_self n 32)]
    exact tail _ (Nat.div_mul_le_self n 32)
  · simp only []
    rw [wide 8 (n / 8) (Nat.div_mul_le_self n 8)]
    exact tail _ (Nat.div_mul_le_self n 8)

/-! ## Pointwise view of block updates -/

theorem getD_take_of_lt {l : List Nat} {n j : Nat} (h : j < n) :
    (l.take n).getD j 0 = l.getD j 0 := by
  simp [List.getElem?_take, h]

theorem getD_drop' (l : List Nat) (n j : Nat) : (l.drop n).getD j 0 = l.getD (n + j) 0 := by
  simp [List.getElem?_drop]

theorem getD_zipWith_xor {A B : List Nat} {j : Nat} (hA : j < A.length) (hB : j < B.length) :
    (List.zipWith (· ^^^ ·) A B).getD j 0 = A.getD j 0 ^^^ B.getD j 0 := by
  simp [List.getElem?_zipWith, List.getElem?_eq_getElem hA, List.getElem?_eq_getElem hB]

theorem getD_xor_upto {b k : List Nat} {n : Nat} (h1 : n ≤ b.length) (h2 : n ≤ k.length)
    (j : Nat) :
    (xor_upto b k n).getD j 0 = if j < n then b.getD j 0 ^^^ k.getD j 0 else b.getD j 0 := by
  have hz : (List.zipWith (· ^^^ ·) (b.take n) (k.take n)).length = n := by
    simp only [List.length_zipWith, List.length_take]; omega
  unfold xor_upto
  by_cases hj : j < n
  · rw [if_pos hj, List.getD_append _ _ _ _ (by omega),
      getD_zipWith_xor (by simp only [List.length_take]; omega)
        (by simp only [List.length_take]; omega),
      getD_take_of_lt hj, getD_take_of_lt hj]
  · rw [if_neg hj, List.getD_append_right _ _ _ _ (by omega), hz, getD_drop']
    congr 1; omega

theorem getD_store_at {buf bytes : List Nat} {off : Nat} (h : off + bytes.length ≤ buf.length)
    (j : Nat) :
    (store_at buf off bytes).getD j 0 =
      if off ≤ j ∧ j < off + bytes.length then bytes.getD (j - off) 0 else buf.getD j 0 := by
  have ht : (buf.take off).length = off := by simp only [List.length_take]; omega
  unfold store_at
  by_cases h1 : j < off
  · rw [if_neg (by omega), List.append_assoc, List.getD_append _ _ _ _ (by omega),
      getD_take_of_lt h1]
  · by_cases h2 : j < off + bytes.length
    · rw [if_pos (by omega), List.append_assoc, List.getD_append_right _ _ _ _ (by omega),
        List.getD_append _ _ _ _ (by omega), ht]
    · rw [if_neg (by omega), List.getD_append_right _ _ _ _
        (by simp only [List.length_append]; omega), getD_drop', List.length_append, ht]
      congr 1; omega

theorem length_store_at {buf bytes : List Nat} {off : Nat} (h : off + bytes.length ≤ buf.length) :
    (store_at buf off bytes).length = buf.length := by
  simp only [store_at, List.length_append, List.length_take, List.length_drop]
  omega

theorem bytes_ok_store_at {buf bytes : List Nat} (off : Nat) (h1 : bytes_ok buf)
    (h2 : bytes_ok bytes) : bytes_ok (store_at buf off bytes) :=
  bytes_ok_append.2 ⟨bytes_ok_append.2 ⟨bytes_ok_take h1 _, h2⟩, bytes_ok_drop h1 _⟩

theorem bytes_ok_xor_upto {b k : List Nat} (n : Nat) (h1 : bytes_ok b) (h2 : bytes_ok k) :
    bytes_ok (xor_upto b k n) :=
  bytes_ok_append.2
    ⟨bytes_ok_zipWith_xor (bytes_ok_take h1 _) (bytes_ok_take h2 _), bytes_ok_drop h1 _⟩

/-- The call `simd_xor_block(buffer + off, ks, n)` seen from the whole buffer. -/
theorem simd_xor_block_at_spec (has_avx2 : Bool) {cur ks : List Nat} {o n : Nat}
    (hc : bytes_ok cur) (hk : bytes_ok ks) (h1 : o + n ≤ cur.length) (h2 : n ≤ ks.length) :
    (simd_xor_block_at has_avx2 cur o ks n).length = cur.length ∧
    bytes_ok (simd_xor_block_at has_avx2 cur o ks n) ∧
    ∀ j, (simd_xor_block_at has_avx2 cur o ks n).getD j 0 =
      if o ≤ j ∧ j < o + n then cur.getD j 0 ^^^ ks.getD (j - o) 0 else cur.getD j 0 := by
  have hd : n ≤ (cur.drop o).length := by simp only [List.length_drop]; omega
  have ht : (cur.take o).length = o := by simp only [List.length_take]; omega
  unfold simd_xor_block_at
  rw [simd_xor_block_eq has_avx2 (bytes_ok_drop hc o) hk hd h2]
  refine ⟨?_, ?_, ?_⟩
  · rw [List.length_append, length_xor_upto h2, ht, List.length_drop]; omega
  · exact bytes_ok_append.2 ⟨bytes_ok_take hc _, bytes_ok_xor_upto _ (bytes_ok_drop hc _) hk⟩
  · intro j
    by_cases hj : j < o
    · rw [if_neg (by omega), List.getD_append _ _ _ _ (by omega), getD_take_of_lt hj]
    · rw [List.getD_append_right _ _ _ _ (by omega), ht, getD_xor_upto hd h2, getD_drop']
      have e : o + (j - o) = j := by omega
      rw [e]
      by_cases hj2 : j < o + n
      · rw [if_pos (by omega), if_pos (by omega)]
      · rw [if_neg (by omega), if_neg (by omega)]

/-! ## The four tiers of `chacha20_encrypt` -/

theorem chacha20_block_fst (st : List Nat) : (chacha20_block st).1 = st := rfl

theorem chacha20_block_snd_length (st : List Nat) : (chacha20_block st).2.length = 64 := by
  simp [chacha20_block, length_le_store]

theorem chacha20_block_snd_bytes_ok (st : List Nat) : bytes_ok (chacha20_block st).2 := by
  simp only [chacha20_block, bytes_ok_append]
  simp only [bytes_ok_le_store, and_self]

theorem Same12.refl (s : List Nat) : Same12 s s := fun _ => rfl

theorem Same12.set {s t : List Nat} (h : Same12 s t) (c : Nat) : Same12 (s.set 12 c) t := by
  intro v
  rw [List.set_set]
  exact h v

theorem Encrypted_zero {orig : List Nat} (K : Nat → List Nat) (length : Nat)
    (h : bytes_ok orig) : Encrypted orig K length 0 orig :=
  ⟨rfl, h, fun j => by simp⟩

/-- Processing block `m` moves the invariant from `m` to `m + 1`. -/
theorem Encrypted_step (has_avx2 : Bool) {orig cur q : List Nat} {K : Nat → List Nat}
    {length m : Nat} (hlen : length ≤ orig.length) (hm : m * 64 < length)
    (hE : Encrypted orig K length m cur) (hks : 64 ≤ q.length) (hkb : bytes_ok q)
    (hK : ∀ t, t < 64 → q.getD t 0 = (K m).getD t 0) :
    Encrypted orig K length (m + 1)
      (simd_xor_block_at has_avx2 cur (m * 64) q (block_size_at length (m * 64))) := by
  obtain ⟨hl, hb, hg⟩ := hE
  have hbs : block_size_at length (m * 64) ≤ 64 ∧
      m * 64 + block_size_at length (m * 64) ≤ length ∧
      (m * 64 + 64 ≤ length → block_size_at length (m * 64) = 64) ∧
      (¬ m * 64 + 64 ≤ length → m * 64 + block_size_at length (m * 64) = length) := by
    unfold block_size_at
    split <;> omega
  obtain ⟨hs1, hs2, hs3, hs4⟩ := hbs
  obtain ⟨r1, r2, r3⟩ := simd_xor_block_at_spec has_avx2 (o := m * 64)
    (n := block_size_at length (m * 64)) hb hkb (by omega) (by omega)
  refine ⟨by rw [r1, hl], r2, ?_⟩
  intro j
  rw [r3 j, hg j]
  by_cases c1 : m * 64 ≤ j ∧ j < m * 64 + block_size_at length (m * 64)
  · have e1 : j / 64 = m := by omega
    have e2 : j % 64 = j - m * 64 := by omega
    rw [if_pos c1, if_neg (by omega), if_pos (by omega), e1, e2, hK _ (by omega)]
  · rw [if_neg c1]
    by_cases c2 : j < 64 * m ∧ j < length
    · rw [if_pos c2, if_pos (by omega)]
    · rw [if_neg c2, if_neg]
      intro c3
      by_cases c4 : m * 64 + 64 ≤ length
      · have := hs3 c4; omega
      · have := hs4 c4; omega

theorem keystream_block_length (st : List Nat) (ic b : Nat) :
    (keystream_block st ic b).length = 64 := chacha20_block_snd_length _

theorem keystream_block_bytes_ok (st : List Nat) (ic b : Nat) :
    bytes_ok (keystream_block st ic b) := chacha20_block_snd_bytes_ok _

theorem tier_parallel_for_spec (has_avx2 : Bool) (state : List Nat) (ic : Nat)
    {buffer : List Nat} {length : Nat} (hb : bytes_ok buffer) (hlen : length ≤ buffer.length) :
    Encrypted buffer (keystream_block state ic) length ((length + 63) / 64)
      (chacha20_tier_parallel_for has_avx2 state ic buffer length ((length + 63) / 64)) := by
  unfold chacha20_tier_parallel_for
  refine for_loop_induction (fun i s => Encrypted buffer (keystream_block state ic) length i s)
    0 _ _ _ (Nat.zero_le _) (Encrypted_zero _ _ hb) ?_
  intro i s _ hi hs
  exact Encrypted_step has_avx2 hlen (by omega) hs
    (by rw [chacha20_block_snd_length]) (chacha20_block_snd_bytes_ok _) (fun t _ => rfl)

theorem tier_sequential_spec (has_avx2 : Bool) (state : List Nat) (ic : Nat)
    {buffer : List Nat} {length : Nat} (hb : bytes_ok buffer) (hlen : length ≤ buffer.length) :
    Encrypted buffer (keystream_block state ic) length ((length + 63) / 64)
      (chacha20_tier_sequential has_avx2 state ic buffer length ((length + 63) / 64)) := by
  unfold chacha20_tier_sequential
  refine (for_loop_induction (fun i (s : List Nat × List Nat) => Same12 s.1 state ∧
      Encrypted buffer (keystream_block state ic) length i s.2)
    0 _ _ _ (Nat.zero_le _) ⟨Same12.refl _, Encrypted_zero _ _ hb⟩ ?_).2
  intro i s _ hi hs
  refine ⟨?_, ?_⟩
  · exact Same12.set hs.1 _
  · refine Encrypted_step has_avx2 hlen (by omega) hs.2
      (by rw [chacha20_block_snd_length]) (chacha20_block_snd_bytes_ok _) (fun t _ => ?_)
    simp only [keystream_block, hs.1 _]

theorem tier_pairs_spec (has_avx2 : Bool) (state : List Nat) (ic : Nat)
    {buffer : List Nat} {length : Nat} (hb : bytes_ok buffer) (hlen : length ≤ buffer.length) :
    Encrypted buffer (keystream_block state ic) length ((length + 63) / 64)
      (chacha20_tier_pairs has_avx2 state ic buffer length ((length + 63) / 64)) := by
  have hrep : bytes_ok (List.replicate 128 0) := by
    intro b hb'
    rw [List.eq_of_mem_replicate hb']
    decide
  have hloop := while_loop_induction
    (fun (s : Nat × List Nat × List Nat × List Nat) =>
      s.1 ≤ (length + 63) / 64 ∧ Same12 s.2.1 state ∧ s.2.2.1.length = 128 ∧
      bytes_ok s.2.2.1 ∧ Encrypted buffer (keystream_block state ic) length s.1 s.2.2.2)
    (fun s => (length + 63) / 64 - s.1)
    (fun (s : Nat × List Nat × List Nat × List Nat) => decide (s.1 + 1 < (length + 63) / 64))
    (chacha20_pairs_body has_avx2 ic length)
    (by
      rintro ⟨block, st, ks, buf⟩ ⟨h1, h2, h3, h4, h5⟩ hc
      unfold chacha20_pairs_body
      dsimp only at h1 h2 h3 h4 h5 hc ⊢
      have hc' : block + 1 < (length + 63) / 64 := by simpa using hc
      have k1 : (chacha20_block (st.set 12 (block_counter ic block))).2 =
          keystream_block state ic block := by
        simp only [keystream_block, h2 _]
      have k2 : (chacha20_block
          ((chacha20_block (st.set 12 (block_counter ic block))).1.set 12
            (block_counter ic (block + 1)))).2 =
          keystream_block state ic (block + 1) := by
        simp only [keystream_block, chacha20_block_fst, List.set_set, h2 _]
      rw [k2, k1]
      have l1 := keystream_block_length state ic block
      have l2 := keystream_block_length state ic (block + 1)
      have b1 := keystream_block_bytes_ok state ic block
      have b2 := keystream_block_bytes_ok state ic (block + 1)
      have s1 : (store_at ks 0 (keystream_block state ic block)).length = 128 := by
        rw [length_store_at (by omega), h3]
      have s2 : (store_at (store_at ks 0 (keystream_block state ic block)) 64
          (keystream_block state ic (block + 1))).length = 128 := by
        rw [length_store_at (by omega), s1]
      have sb := bytes_ok_store_at 64 (bytes_ok_store_at 0 h4 b1) b2
      refine ⟨⟨by omega, ?_, s2, sb, ?_⟩, by omega⟩
      · simp only [chacha20_block_fst]
        exact Same12.set (Same12.set h2 _) _
      rw [for_loop_succ 0 1 _ _ (by omega), for_loop_succ 0 0 _ _ (by omega), for_loop_self]
      have step0 := Encrypted_step has_avx2 (m := block) hlen (by omega) h5
        (q := (store_at (store_at ks 0 (keystream_block state ic block)) 64
          (keystream_block state ic (block + 1))).drop (0 * 64))
        (by simp only [List.length_drop, s2]; omega) (bytes_ok_drop sb _)
        (fun t ht => by
          have e : 0 * 64 + t - 0 = t := by omega
          rw [getD_drop', getD_store_at (by omega), if_neg (by omega),
            getD_store_at (by omega), if_pos (by omega), e])
      have step1 := Encrypted_step has_avx2 (m := block + 1) hlen (by omega) step0
        (q := (store_at (store_at ks 0 (keystream_block state ic block)) 64
          (keystream_block state ic (block + 1))).drop (1 * 64))
        (by simp only [List.length_drop, s2]; omega) (bytes_ok_drop sb _)
        (fun t ht => by
          have e : 1 * 64 + t - 64 = t := by omega
          rw [getD_drop', getD_store_at (by omega), if_pos (by omega), e])
      rw [Nat.add_zero]
      exact step1)
    ((length + 63) / 64) (0, state, List.replicate 128 0, buffer)
    ⟨Nat.zero_le _, Same12.refl _, List.length_replicate _ _, hrep, Encrypted_zero _ _ hb⟩
    (by simp)
  change _ ∧ decide ((chacha20_pairs_loop has_avx2 state ic buffer length
    ((length + 63) / 64)).1 + 1 < (length + 63) / 64) = false at hloop
  obtain ⟨⟨i1, i2, i3, i4, i5⟩, hexit⟩ := hloop
  change Encrypted buffer (keystream_block state ic) length
    (chacha20_pairs_loop has_avx2 state ic buffer length ((length + 63) / 64)).1
    (chacha20_pairs_loop has_avx2 state ic buffer length ((length + 63) / 64)).2.2.2 at i5
  change Same12 (chacha20_pairs_loop has_avx2 state ic buffer length
    ((length + 63) / 64)).2.1 state at i2
  change (chacha20_pairs_loop has_avx2 state ic buffer length ((length + 63) / 64)).1 ≤ _ at i1
  have hexit' := of_decide_eq_false hexit
  unfold chacha20_tier_pairs
  generalize chacha20_pairs_loop has_avx2 state ic buffer length ((length + 63) / 64) = S
    at i1 i2 i5 hexit' ⊢
  obtain ⟨block, st, ks, buf⟩ := S
  dsimp only at i1 i2 i5 hexit' ⊢
  split
  · next hlt =>
    have hE := Encrypted_step has_avx2 hlen (by omega) i5
      (q := (chacha20_block (st.set 12 (block_counter ic block))).2)
      (by rw [chacha20_block_snd_length]) (chacha20_block_snd_bytes_ok _)
      (fun t _ => by simp only [keystream_block, i2 _])
    have e : block + 1 = (length + 63) / 64 := by omega
    rw [e] at hE
    exact hE
  · next hge =>
    have e : block = (length + 63) / 64 := by omega
    rw [e] at i5
    exact i5

/-- One batch of the first tier processes the blocks `[4 * bb, min (4 * bb + 4) nb)`. -/
theorem batch_body_spec (has_avx2 : Bool) (state : List Nat) (ic : Nat)
    {buffer : List Nat} {length : Nat} (hlen : length ≤ buffer.length) {bb : Nat}
    (hbb : bb < ((length + 63) / 64 + 3) / 4) {s : List Nat × List Nat × List Nat}
    (h1 : Same12 s.1 state) (h2 : s.2.1.length = 256) (h3 : bytes_ok s.2.1)
    (h4 : Encrypted buffer (keystream_block state ic) length (bb * 4) s.2.2) :
    Same12 (chacha20_batch_body has_avx2 ic length ((length + 63) / 64) bb s).1 state ∧
    (chacha20_batch_body has_avx2 ic length ((length + 63) / 64) bb s).2.1.length = 256 ∧
    bytes_ok (chacha20_batch_body has_avx2 ic length ((length + 63) / 64) bb s).2.1 ∧
    Encrypted buffer (keystream_block state ic) length
      (if bb * 4 + 4 ≤ (length + 63) / 64 then bb * 4 + 4 else (length + 63) / 64)
      (chacha20_batch_body has_avx2 ic length ((length + 63) / 64) bb s).2.2 := by
  obtain ⟨ls, ks, buf⟩ := s
  dsimp only at h1 h2 h3 h4
  unfold chacha20_batch_body
  dsimp only
  generalize hbs : (if bb * 4 + 4 ≤ (length + 63) / 64 then bb * 4 + 4
    else (length + 63) / 64) - bb * 4 = batch_size
  have hbs4 : batch_size ≤ 4 ∧ bb * 4 + batch_size ≤ (length + 63) / 64 ∧
      bb * 4 + batch_size =
        (if bb * 4 + 4 ≤ (length + 63) / 64 then bb * 4 + 4 else (length + 63) / 64) := by
    split at hbs <;> split <;> omega
  obtain ⟨hb1, hb2, hb3⟩ := hbs4
  have fill := for_loop_induction
    (fun i (lk : List Nat × List Nat) => Same12 lk.1 state ∧ lk.2.length = 256 ∧
      bytes_ok lk.2 ∧ ∀ i', i' < i → ∀ t, t < 64 →
        lk.2.getD (i' * 64 + t) 0 = (keystream_block state ic (bb * 4 + i')).getD t 0)
    0 batch_size
    (fun i (lk : List Nat × List Nat) =>
      let local_state := lk.1.set 12 (block_counter ic (bb * 4 + i))
      let r := chacha20_block local_state
      (r.1, store_at lk.2 (i * 64) r.2)) (ls, ks) (Nat.zero_le _)
    ⟨h1, h2, h3, fun i' hi' => absurd hi' (Nat.not_lt_zero _)⟩
    (by
      rintro i ⟨l, k⟩ _ hi ⟨g1, g2, g3, g4⟩
      dsimp only at g1 g2 g3 g4 ⊢
      have hk : (chacha20_block (l.set 12 (block_counter ic (bb * 4 + i)))).2 =
          keystream_block state ic (bb * 4 + i) := by
        simp only [keystream_block, g1 _]
      have hl := keystream_block_length state ic (bb * 4 + i)
      rw [hk, chacha20_block_fst]
      refine ⟨Same12.set g1 _, ?_, bytes_ok_store_at _ g3 (keystream_block_bytes_ok _ _ _), ?_⟩
      · rw [length_store_at (by omega), g2]
      · intro i' hi' t ht
        rw [getD_store_at (by omega)]
        by_cases c : i' = i
        · subst c
          have e : i' * 64 + t - i' * 64 = t := by omega
          rw [if_pos (by omega), e]
        · rw [if_neg (by omega)]
          exact g4 i' (by omega) t ht)
  generalize for_loop 0 batch_size
    (fun i (lk : List Nat × List Nat) =>
      let local_state := lk.1.set 12 (block_counter ic (bb * 4 + i))
      let r := chacha20_block local_state
      (r.1, store_at lk.2 (i * 64) r.2)) (ls, ks) = LK at fill
  obtain ⟨f1, f2, f3, f4⟩ := fill
  refine ⟨f1, f2, f3, ?_⟩
  rw [← hb3]
  refine for_loop_induction
    (fun i b => Encrypted buffer (keystream_block state ic) length (bb * 4 + i) b)
    0 batch_size _ buf (Nat.zero_le _) h4 ?_
  intro i b _ hi hE
  have hm : (bb * 4 + i) * 64 < length := by omega
  exact Encrypted_step has_avx2 (m := bb * 4 + i) hlen hm hE
    (by simp only [List.length_drop, f2]; omega) (bytes_ok_drop f3 _)
    (fun t ht => by rw [getD_drop']; exact f4 i hi t ht)

theorem tier_batch_spec (has_avx2 : Bool) (state : List Nat) (ic : Nat)
    {buffer : List Nat} {length : Nat} (hb : bytes_ok buffer) (hlen : length ≤ buffer.length) :
    Encrypted buffer (keystream_block state ic) length ((length + 63) / 64)
      (chacha20_tier_batch has_avx2 state ic buffer length ((length + 63) / 64)) := by
  have hrep : bytes_ok (List.replicate 256 0) := by
    intro b hb'
    rw [List.eq_of_mem_replicate hb']
    decide
  unfold chacha20_tier_batch
  have h := for_loop_induction
    (fun bb (s : List Nat × List Nat × List Nat) => Same12 s.1 state ∧ s.2.1.length = 256 ∧
      bytes_ok s.2.1 ∧ Encrypted buffer (keystream_block state ic) length
        (if bb * 4 ≤ (length + 63) / 64 then bb * 4 else (length + 63) / 64) s.2.2)
    0 (((length + 63) / 64 + 3) / 4)
    (chacha20_batch_body has_avx2 ic length ((length + 63) / 64))
    (state, List.replicate 256 0, buffer) (Nat.zero_le _)
    ⟨Same12.refl _, List.length_replicate _ _, hrep, by simpa using Encrypted_zero _ _ hb⟩
    (by
      intro bb s _ hbb ⟨g1, g2, g3, g4⟩
      rw [if_pos (by omega)] at g4
      have e : (bb + 1) * 4 = bb * 4 + 4 := by ring
      rw [e]
      exact batch_body_spec has_avx2 state ic hlen hbb g1 g2 g3 g4)
  have hfin := h.2.2.2
  have e : (if ((length + 63) / 64 + 3) / 4 * 4 ≤ (length + 63) / 64
      then ((length + 63) / 64 + 3) / 4 * 4 else (length + 63) / 64) = (length + 63) / 64 := by
    split <;> omega
  rw [e] at hfin
  exact hfin

/-! ## `chacha20_encrypt`: every byte is XORed with its keystream byte -/

theorem chacha20_encrypt_Encrypted (has_avx2 : Bool) (num_threads : Nat) (key nonce : List Nat)
    (ic : Nat) {buffer : List Nat} {length : Nat} (hb : bytes_ok buffer)
    (hlen : length ≤ buffer.length) :
    Encrypted buffer (keystream_block (chacha20_state key nonce ic) ic) length
      ((length + 63) / 64) (chacha20_encrypt has_avx2 num_threads key nonce ic buffer length) := by
  unfold chacha20_encrypt
  split
  · next h0 =>
    subst h0
    exact Encrypted_zero _ _ hb
  · dsimp only
    split
    · exact tier_batch_spec has_avx2 _ ic hb hlen
    · split
      · exact tier_parallel_for_spec has_avx2 _ ic hb hlen
      · split
        · exact tier_pairs_spec has_avx2 _ ic hb hlen
        · exact tier_sequential_spec has_avx2 _ ic hb hlen

theorem block_counter_eq (ic b : Nat) : block_counter ic b = (ic + b) % 2 ^ 32 := by
  unfold block_counter
  omega

/-- Pointwise description of `chacha20_encrypt`, for every tier and both XOR
paths. -/
theorem chacha20_encrypt_getD (has_avx2 : Bool) (num_threads : Nat) (key nonce : List Nat)
    (ic : Nat) {buffer : List Nat} {n : Nat} (hb : bytes_ok buffer)
    (hlen : n ≤ buffer.length) :
    (chacha20_encrypt has_avx2 num_threads key nonce ic buffer n).length = buffer.length ∧
    bytes_ok (chacha20_encrypt has_avx2 num_threads key nonce ic buffer n) ∧
    ∀ j, (chacha20_encrypt has_avx2 num_threads key nonce ic buffer n).getD j 0 =
      if j < n then
        buffer.getD j 0 ^^^
          (chacha20_block ((chacha20_state key nonce 0).set 12 ((ic + j / 64) % 2 ^ 32))).2.getD
            (j % 64) 0
      else buffer.getD j 0 := by
  obtain ⟨h1, h2, h3⟩ := chacha20_encrypt_Encrypted has_avx2 num_threads key nonce ic hb hlen
  refine ⟨h1, h2, fun j => ?_⟩
  rw [h3 j]
  by_cases hj : j < n
  · rw [if_pos hj, if_pos (by omega)]
    simp only [keystream_block, block_counter_eq]
    rfl
  · rw [if_neg hj, if_neg (by omega)]

theorem list_ext_getD {l₁ l₂ : List Nat} (hl : l₁.length = l₂.length)
    (h : ∀ j, j < l₁.length → l₁.getD j 0 = l₂.getD j 0) : l₁ = l₂ := by
  apply List.ext_getElem hl
  intro n h1 h2
  have := h n h1
  rwa [List.getD_eq_getElem _ _ h1, List.getD_eq_getElem _ _ h2] at this

/-! ## The state built by the code is the state of the specification -/

theorem or_shiftLeft_eq_add {a : Nat} (b k : Nat) (h : a < 2 ^ k) :
    a ||| (b <<< k) = a + b * 2 ^ k := by
  rw [Nat.shiftLeft_eq, Nat.or_comm, Nat.mul_comm, ← Nat.mul_add_lt_is_or h, Nat.add_comm]

theorem pack32_eq_le_load {b0 b1 b2 b3 : Nat} (h0 : b0 < 256) (h1 : b1 < 256) (h2 : b2 < 256)
    (h3 : b3 < 256) : pack32 b0 b1 b2 b3 = le_load [b0, b1, b2, b3] := by
  unfold pack32
  rw [or_shiftLeft_eq_add b1 8 (by omega), or_shiftLeft_eq_add b2 16 (by omega),
    or_shiftLeft_eq_add b3 24 (by omega)]
  simp only [le_load]
  omega

theorem take4_drop {l : List Nat} {k : Nat} (h : k + 4 ≤ l.length) :
    (l.drop k).take 4 = [l.getD k 0, l.getD (k + 1) 0, l.getD (k + 2) 0, l.getD (k + 3) 0] := by
  rw [List.getD_eq_getElem _ _ (by omega), List.getD_eq_getElem _ _ (by omega),
    List.getD_eq_getElem _ _ (by omega), List.getD_eq_getElem _ _ (by omega),
    List.drop_eq_getElem_cons (by omega), List.drop_eq_getElem_cons (by omega),
    List.drop_eq_getElem_cons (by omega), List.drop_eq_getElem_cons (by omega)]
  rfl

theorem bytes_ok_getD {l : List Nat} (h : bytes_ok l) (j : Nat) : l.getD j 0 < 256 := by
  by_cases hj : j < l.length
  · rw [List.getD_eq_getElem _ _ hj]
    exact h _ (List.getElem_mem hj)
  · rw [List.getD_eq_default _ _ (by omega)]
    decide

theorem pack32_getD {l : List Nat} {k : Nat} (hb : bytes_ok l) (h : k + 4 ≤ l.length) :
    pack32 (l.getD k 0) (l.getD (k + 1) 0) (l.getD (k + 2) 0) (l.getD (k + 3) 0) =
      le_load ((l.drop k).take 4) := by
  rw [take4_drop h]
  exact pack32_eq_le_load (bytes_ok_getD hb _) (bytes_ok_getD hb _) (bytes_ok_getD hb _)
    (bytes_ok_getD hb _)

theorem chacha20_state_eq_spec {key nonce : List Nat} (hk : key.length = 32)
    (hn : nonce.length = 12) (hkb : bytes_ok key) (hnb : bytes_ok nonce) (ic c : Nat) :
    (chacha20_state key nonce ic).set 12 c = spec_state key nonce c := by
  have k0 := pack32_getD (k := 0) hkb (by omega)
  have k1 := pack32_getD (k := 4) hkb (by omega)
  have k2 := pack32_getD (k := 8) hkb (by omega)
  have k3 := pack32_getD (k := 12) hkb (by omega)
  have k4 := pack32_getD (k := 16) hkb (by omega)
  have k5 := pack32_getD (k := 20) hkb (by omega)
  have k6 := pack32_getD (k := 24) hkb (by omega)
  have k7 := pack32_getD (k := 28) hkb (by omega)
  have n0 := pack32_getD (k := 0) hnb (by omega)
  have n1 := pack32_getD (k := 4) hnb (by omega)
  have n2 := pack32_getD (k := 8) hnb (by omega)
  simp only [Nat.reduceAdd] at k0 k1 k2 k3 k4 k5 k6 k7 n0 n1 n2
  unfold chacha20_state spec_state le_words
  rw [k0, k1, k2, k3, k4, k5, k6, k7, n0, n1, n2]
  simp [List.range, List.range.loop]

/-! ## Claims on `chacha20_encrypt` -/

/-- C2: for every 32-byte key, 12-byte nonce, counter `ctr0` and buffer of any
length `L`, on every dispatch tier and both XOR paths, `chacha20_encrypt`
yields a buffer of length `L` whose byte `j` is `input[j] XOR K_i[j mod 64]`
with `i = j / 64` and `K_i` the `chacha20_block` output for the state
`[constants, key as 8 LE words, (ctr0 + i) mod 2^32, nonce as 3 LE words]`;
a partial final block uses only the keystream bytes it needs, and an empty
buffer is returned unchanged. -/
theorem C2_chacha20_encrypt_keystream_xor (has_avx2 : Bool) (num_threads : Nat)
    (key nonce : List Nat) (ctr0 : Nat) (buffer : List Nat)
    (hk : key.length = 32) (hn : nonce.length = 12) (hkb : bytes_ok key) (hnb : bytes_ok nonce)
    (hb : bytes_ok buffer) :
    (chacha20_encrypt has_avx2 num_threads key nonce ctr0 buffer buffer.length).length =
      buffer.length ∧
    (∀ j, j < buffer.length →
      (chacha20_encrypt has_avx2 num_threads key nonce ctr0 buffer buffer.length).getD j 0 =
        buffer.getD j 0 ^^^
          (chacha20_block (spec_state key nonce ((ctr0 + j / 64) % 2 ^ 32))).2.getD (j % 64) 0) ∧
    (buffer.length = 0 →
      chacha20_encrypt has_avx2 num_threads key nonce ctr0 buffer buffer.length = buffer) := by
  obtain ⟨h1, _, h3⟩ :=
    chacha20_encrypt_getD has_avx2 num_threads key nonce ctr0 hb (Nat.le_refl buffer.length)
  refine ⟨h1, fun j hj => ?_, fun h0 => ?_⟩
  · rw [h3 j, if_pos hj, chacha20_state_eq_spec hk hn hkb hnb]
  · simp [chacha20_encrypt, h0]

/-- C2 on the zero key and nonce with a three-byte buffer (a partial block). -/
theorem C2_chacha20_encrypt_keystream_xor_witness :
    (List.replicate 32 0).length = 32 ∧ (List.replicate 12 0).length = 12 ∧
    bytes_ok (List.replicate 32 0) ∧ bytes_ok (List.replicate 12 0) ∧ bytes_ok [1, 2, 3] ∧
    ((chacha20_encrypt true 4 (List.replicate 32 0) (List.replicate 12 0) 7 [1, 2, 3]
        ([1, 2, 3] : List Nat).length).length = ([1, 2, 3] : List Nat).length ∧
    (∀ j, j < ([1, 2, 3] : List Nat).length →
      (chacha20_encrypt true 4 (List.replicate 32 0) (List.replicate 12 0) 7 [1, 2, 3]
        ([1, 2, 3] : List Nat).length).getD j 0 =
        ([1, 2, 3] : List Nat).getD j 0 ^^^
          (chacha20_block (spec_state (List.replicate 32 0) (List.replicate 12 0)
            ((7 + j / 64) % 2 ^ 32))).2.getD (j % 64) 0) ∧
    (([1, 2, 3] : List Nat).length = 0 →
      chacha20_encrypt true 4 (List.replicate 32 0) (List.replicate 12 0) 7 [1, 2, 3]
        ([1, 2, 3] : List Nat).length = [1, 2, 3])) :=
  ⟨by decide, by decide, by decide, by decide, by decide,
    C2_chacha20_encrypt_keystream_xor true 4 (List.replicate 32 0) (List.replicate 12 0) 7
      [1, 2, 3] (by decide) (by decide) (by decide) (by decide) (by decide)⟩

/-- C3: `chacha20_encrypt` is an involution: encrypting the result again with
the same key, nonce and initial counter gives back the buffer, whatever its
length. -/
theorem C3_chacha20_encrypt_involution (has_avx2 : Bool) (num_threads : Nat)
    (key nonce : List Nat) (ctr0 : Nat) (x : List Nat) (hx : bytes_ok x) :
    chacha20_encrypt has_avx2 num_threads key nonce ctr0
      (chacha20_encrypt has_avx2 num_threads key nonce ctr0 x x.length) x.length = x := by
  obtain ⟨h1, h2, h3⟩ :=
    chacha20_encrypt_getD has_avx2 num_threads key nonce ctr0 hx (Nat.le_refl x.length)
  obtain ⟨g1, _, g3⟩ :=
    chacha20_encrypt_getD has_avx2 num_threads key nonce ctr0 (n := x.length) h2
      (by rw [h1])
  apply list_ext_getD (by rw [g1, h1])
  intro j hj
  rw [g1, h1] at hj
  rw [g3 j, if_pos hj, h3 j, if_pos hj, Nat.xor_assoc, Nat.xor_self, Nat.xor_zero]

/-- C3 on a 70-byte buffer (one full and one partial block). -/
theorem C3_chacha20_encrypt_involution_witness :
    bytes_ok (List.replicate 70 5) ∧
    chacha20_encrypt false 1 (List.replicate 32 1) (List.replicate 12 2) 0
      (chacha20_encrypt false 1 (List.replicate 32 1) (List.replicate 12 2) 0
        (List.replicate 70 5) (List.replicate 70 5).length)
      (List.replicate 70 5).length = List.replicate 70 5 :=
  ⟨by decide, C3_chacha20_encrypt_involution false 1 (List.replicate 32 1)
    (List.replicate 12 2) 0 (List.replicate 70 5) (by decide)⟩

/-- C4: encrypting `x ++ y` in one call, `x` being `m` whole blocks, equals
encrypting `x` with counter `ctr0` and `y` with counter `(ctr0 + m) mod 2^32`
and concatenating. -/
theorem C4_chacha20_encrypt_split (has_avx2 : Bool) (num_threads : Nat)
    (key nonce : List Nat) (ctr0 m : Nat) (x y : List Nat) (hx : bytes_ok x) (hy : bytes_ok y)
    (hm : x.length = 64 * m) :
    chacha20_encrypt has_avx2 num_threads key nonce ctr0 (x ++ y) (x ++ y).length =
      chacha20_encrypt has_avx2 num_threads key nonce ctr0 x x.length ++
        chacha20_encrypt has_avx2 num_threads key nonce ((ctr0 + m) % 2 ^ 32) y y.length := by
  obtain ⟨a1, _, a3⟩ := chacha20_encrypt_getD has_avx2 num_threads key nonce ctr0
    (bytes_ok_append.2 ⟨hx, hy⟩) (Nat.le_refl (x ++ y).length)
  obtain ⟨b1, _, b3⟩ :=
    chacha20_encrypt_getD has_avx2 num_threads key nonce ctr0 hx (Nat.le_refl x.length)
  obtain ⟨c1, _, c3⟩ := chacha20_encrypt_getD has_avx2 num_threads key nonce
    ((ctr0 + m) % 2 ^ 32) hy (Nat.le_refl y.length)
  apply list_ext_getD (by rw [a1, List.length_append, List.length_append, b1, c1])
  intro j hj
  rw [a1] at hj
  rw [a3 j, if_pos hj]
  by_cases hjx : j < x.length
  · rw [List.getD_append _ _ _ _ hjx, List.getD_append _ _ _ _ (by rw [b1]; exact hjx), b3 j,
      if_pos hjx]
  · have hjy : j - x.length < y.length := by
      rw [List.length_append] at hj; omega
    rw [List.getD_append_right _ _ _ _ (by omega),
      List.getD_append_right _ _ _ _ (by rw [b1]; omega), b1, c3, if_pos hjy]
    have e1 : ((ctr0 + m) % 2 ^ 32 + (j - x.length) / 64) % 2 ^ 32 = (ctr0 + j / 64) % 2 ^ 32 := by
      omega
    have e2 : (j - x.length) % 64 = j % 64 := by omega
    rw [e1, e2]

/-- C4 on 128 zero bytes: one call with counter 0 equals two 64-byte calls with
counters 0 and 1. -/
theorem C4_chacha20_encrypt_split_witness :
    bytes_ok (List.replicate 64 0) ∧ (List.replicate 64 0).length = 64 * 1 ∧
    chacha20_encrypt true 2 (List.replicate 32 0) (List.replicate 12 0) 0
        (List.replicate 64 0 ++ List.replicate 64 0)
        (List.replicate 64 0 ++ List.replicate 64 0).length =
      chacha20_encrypt true 2 (List.replicate 32 0) (List.replicate 12 0) 0
          (List.replicate 64 0) (List.replicate 64 0).length ++
        chacha20_encrypt true 2 (List.replicate 32 0) (List.replicate 12 0) ((0 + 1) % 2 ^ 32)
          (List.replicate 64 0) (List.replicate 64 0).length :=
  ⟨by decide, by decide, C4_chacha20_encrypt_split true 2 (List.replicate 32 0)
    (List.replicate 12 0) 0 1 (List.replicate 64 0) (List.replicate 64 0) (by decide)
    (by decide) (by decide)⟩

/-! ## `merge_hash` against the AR compression of the specification -/

theorem le_store_le_load {A : List Nat} (hA : bytes_ok A) : le_store A.length (le_load A) = A := by
  induction A with
  | nil => rfl
  | cons a A ih =>
    have ha := bytes_ok_cons.1 hA
    have e1 : (a + 256 * le_load A) % 256 = a := by omega
    have e2 : (a + 256 * le_load A) / 256 = le_load A := by omega
    simp only [List.length_cons, le_load, le_store, e1, e2, ih ha.2]

theorem length_load_at {b : List Nat} {off n : Nat} (h : off + n ≤ b.length) :
    (load_at b off n).length = n := by
  simp only [load_at, List.length_take, List.length_drop]; omega

theorem bytes_ok_load_at {b : List Nat} (h : bytes_ok b) (off n : Nat) :
    bytes_ok (load_at b off n) := bytes_ok_take (bytes_ok_drop h _) _

theorem load_at_load_at {b : List Nat} {m off n : Nat} (h : off + n ≤ m) :
    load_at (load_at b 0 m) off n = load_at b off n := by
  unfold load_at
  rw [List.drop_zero, List.drop_take, List.take_take, Nat.min_eq_left (by omega)]

/-- A wide load followed by a wide store of the same width copies the bytes. -/
theorem le_store_le_load_at {b : List Nat} {off n : Nat} (hb : bytes_ok b)
    (h : off + n ≤ b.length) : le_store n (le_load (load_at b off n)) = load_at b off n := by
  have := le_store_le_load (bytes_ok_load_at hb off n)
  rwa [length_load_at h] at this

theorem load_words8_load_at (b : List Nat) : load_words8 (load_at b 0 32) = load_words8 b := by
  unfold load_words8
  rw [load_at_load_at (by omega), load_at_load_at (by omega), load_at_load_at (by omega),
    load_at_load_at (by omega), load_at_load_at (by omega), load_at_load_at (by omega),
    load_at_load_at (by omega), load_at_load_at (by omega)]

theorem load_words8_eq_le_words (b : List Nat) : load_words8 b = le_words b 8 := by
  simp [load_words8, le_words, load_at, List.range, List.range.loop]

theorem ROTL32_mod (x n : Nat) : ROTL32 (x % 2 ^ 32) n = rotl32 (x % 2 ^ 32) n :=
  (rotl32_eq n (Nat.mod_lt _ (by decide))).symm

theorem ROTL32_mod_lit (x n : Nat) :
    ROTL32 (x % 4294967296) n = rotl32 (x % 4294967296) n := ROTL32_mod x n

theorem spec_ar_round_toList (r : SRegs) :
    spec_ar_round r.toList = (HASH_ROUND r).toList := by
  simp [spec_ar_round, for_loop, SRegs.toList, HASH_ROUND, List.range', List.set, List.getD,
    ROTL32_mod_lit]

theorem spec_ar_round_iterate (n : Nat) (r : SRegs) :
    spec_ar_round^[n] r.toList = (HASH_ROUND^[n] r).toList := by
  induction n generalizing r with
  | zero => rfl
  | succ n ih =>
    rw [Function.iterate_succ_apply, Function.iterate_succ_apply, spec_ar_round_toList, ih]

theorem spec_seed_toList (w1 w2 : List Nat) :
    (List.range 8).map (fun i => w1.getD i 0 ^^^ w2.getD (7 - i) 0) ++
      (List.range 8).map (fun i => w2.getD i 0 ^^^ w1.getD (7 - i) 0) =
      (merge_hash_seed w1 w2).toList := by
  simp [merge_hash_seed, SRegs.toList, List.range, List.range.loop]

theorem spec_final_toList (r : SRegs) :
    for_loop 0 8 (fun i s => s.set i ((s.getD i 0 + s.getD (15 - i) 0) % 2 ^ 32)) r.toList =
      (merge_hash_final r).toList := by
  simp [for_loop, SRegs.toList, merge_hash_final, List.range', List.set, List.getD]

theorem words_bytes_toList_length (r : SRegs) : (words_bytes r.toList).length = 64 := by
  simp [words_bytes, SRegs.toList, length_le_store]

theorem words_bytes_toList_bytes_ok (r : SRegs) : bytes_ok (words_bytes r.toList) := by
  simp only [words_bytes, SRegs.toList, List.map, List.flatten, bytes_ok_append]
  simp only [bytes_ok_le_store, bytes_ok_nil, and_self]

/-- Copying 64 bytes with two 256-bit loads and stores copies them. -/
theorem copy_two_lanes {R : List Nat} (hR : bytes_ok R) (hl : R.length = 64) :
    le_store 32 (le_load (load_at R 0 32)) ++ le_store 32 (le_load (load_at R 32 32)) = R := by
  rw [le_store_le_load_at hR (by omega), le_store_le_load_at hR (by omega)]
  unfold load_at
  have e : List.drop 32 R = List.take 32 (List.drop 32 R) := by
    rw [List.take_of_length_le]
    simp only [List.length_drop]; omega
  rw [List.drop_zero, ← e, List.take_append_drop]

/-- The scalar path is nine rounds of the specification's round function. -/
theorem merge_hash_scalar_eq (block1 block2 : List Nat) :
    merge_hash_scalar block1 block2 =
      words_bytes (merge_hash_final (HASH_ROUND^[9]
        (merge_hash_seed (le_words block1 8) (le_words block2 8)))).toList := by
  simp only [merge_hash_scalar, load_words8_eq_le_words]
  rfl

/-- The AVX2 path is the AR compression of the specification. -/
theorem merge_hash_avx2_eq_spec {block1 block2 : List Nat} (h1 : bytes_ok block1)
    (h2 : bytes_ok block2) (l1 : 32 ≤ block1.length) (l2 : 32 ≤ block2.length) :
    merge_hash_avx2 block1 block2 = spec_merge_hash block1 block2 := by
  unfold merge_hash_avx2 spec_merge_hash
  simp only []
  rw [le_store_le_load_at h1 (by omega), le_store_le_load_at h2 (by omega),
    load_words8_load_at, load_words8_load_at, load_words8_eq_le_words, load_words8_eq_le_words,
    copy_two_lanes (words_bytes_toList_bytes_ok _) (words_bytes_toList_length _),
    spec_seed_toList, spec_ar_round_iterate, spec_final_toList]
  rfl

/-- C6: on its AVX2 path `merge_hash` is the AR compression of the
specification for all 64-byte blocks: anti-diagonal XOR seeding, ten identical
by-7-then-by-9 rounds, the final addition `s0..s7 += s15..s8`, little-endian
serialisation of `s0..s15` into 64 bytes. -/
theorem C6_merge_hash_avx2_refines_spec (block1 block2 : List Nat) (h1 : bytes_ok block1)
    (h2 : bytes_ok block2) (l1 : block1.length = 64) (l2 : block2.length = 64) :
    merge_hash_bytes true block1 block2 = spec_merge_hash block1 block2 ∧
    (merge_hash_bytes true block1 block2).length = 64 := by
  have e : merge_hash_bytes true block1 block2 = merge_hash_avx2 block1 block2 := rfl
  rw [e]
  refine ⟨merge_hash_avx2_eq_spec h1 h2 (by omega) (by omega), ?_⟩
  unfold merge_hash_avx2
  simp only [List.length_append, length_le_store]

/-- C6 on the block `01 00 .. 00` and the zero block. -/
theorem C6_merge_hash_avx2_refines_spec_witness :
    bytes_ok (1 :: List.replicate 63 0) ∧ bytes_ok (List.replicate 64 0) ∧
    (1 :: List.replicate 63 0).length = 64 ∧ (List.replicate 64 0).length = 64 ∧
    merge_hash_bytes true (1 :: List.replicate 63 0) (List.replicate 64 0) =
      spec_merge_hash (1 :: List.replicate 63 0) (List.replicate 64 0) ∧
    (merge_hash_bytes true (1 :: List.replicate 63 0) (List.replicate 64 0)).length = 64 :=
  ⟨by decide, by decide, by decide, by decide,
    C6_merge_hash_avx2_refines_spec _ _ (by decide) (by decide) (by decide) (by decide)⟩

set_option maxRecDepth 1000000 in
/-- C5: on its scalar path `merge_hash` is not the AR compression of the
specification: for the blocks `01 00 .. 00` and `00 .. 00` the code (nine
rounds) writes `01 00 01 00 ..` where the specification (ten rounds, as on the
AVX2 path) gives `02 00 00 00 ..`. -/
theorem C5_merge_hash_scalar_differs_from_spec :
    merge_hash_bytes false (1 :: List.replicate 63 0) (List.replicate 64 0) ≠
      spec_merge_hash (1 :: List.replicate 63 0) (List.replicate 64 0) ∧
    (merge_hash_bytes false (1 :: List.replicate 63 0) (List.replicate 64 0)).take 4 =
      [1, 0, 1, 0] ∧
    (spec_merge_hash (1 :: List.replicate 63 0) (List.replicate 64 0)).take 4 = [2, 0, 0, 0] ∧
    merge_hash_bytes true (1 :: List.replicate 63 0) (List.replicate 64 0) =
      spec_merge_hash (1 :: List.replicate 63 0) (List.replicate 64 0) := by
  decide

/-! ## Loops that may fault -/

theorem for_loopM_self {σ : Type} (lo : Nat) (body : Nat → σ → Option σ) (s : σ) :
    for_loopM lo lo body s = some s := by
  simp [for_loopM]

theorem for_loopM_succ {σ : Type} (lo hi : Nat) (body : Nat → σ → Option σ) (s : σ)
    (h : lo ≤ hi) :
    for_loopM lo (hi + 1) body s = (for_loopM lo hi body s).bind (body hi) := by
  unfold for_loopM
  have e : hi + 1 - lo = (hi - lo) + 1 := by omega
  have e2 : lo + (hi - lo) = hi := by omega
  rw [e, List.range'_1_concat, List.foldlM_append, e2]
  cases List.foldlM (fun s i => body i s) s (List.range' lo (hi - lo)) with
  | none => rfl
  | some v => simp [List.foldlM]

/-- A `for` loop whose steps succeed along a known trajectory. -/
theorem for_loopM_eq_some {σ : Type} (S : Nat → σ) (lo hi : Nat) (body : Nat → σ → Option σ)
    (hle : lo ≤ hi) (hstep : ∀ i, lo ≤ i → i < hi → body i (S i) = some (S (i + 1))) :
    for_loopM lo hi body (S lo) = some (S hi) := by
  induction hi with
  | zero =>
    have : lo = 0 := by omega
    subst this
    exact for_loopM_self _ _ _
  | succ n ih =>
    by_cases hn : lo = n + 1
    · subst hn
      exact for_loopM_self _ _ _
    · have hle' : lo ≤ n := by omega
      rw [for_loopM_succ _ _ _ _ hle', ih hle' (fun i h1 h2 => hstep i h1 (by omega))]
      exact hstep n hle' (by omega)

/-- Invariant rule for `while_loopM` with a decreasing measure: the loop
terminates within the fuel without faulting. -/
theorem while_loopM_induction {σ : Type} (I : σ → Prop) (μ : σ → Nat) (cond : σ → Bool)
    (body : σ → Option σ)
    (hstep : ∀ s, I s → cond s = true → ∃ s', body s = some s' ∧ I s' ∧ μ s' < μ s)
    (fuel : Nat) (s : σ) (h0 : I s) (hfuel : μ s ≤ fuel) :
    ∃ s', while_loopM cond body fuel s = some s' ∧ I s' ∧ cond s' = false := by
  induction fuel generalizing s with
  | zero =>
    cases hc : cond s with
    | false => exact ⟨s, by simp [while_loopM, hc], h0, hc⟩
    | true =>
      obtain ⟨s', _, _, hlt⟩ := hstep s h0 hc
      omega
  | succ n ih =>
    cases hc : cond s with
    | false => exact ⟨s, by simp [while_loopM, hc], h0, hc⟩
    | true =>
      obtain ⟨s', hb, hI, hlt⟩ := hstep s h0 hc
      obtain ⟨s'', h1, h2, h3⟩ := ih s' hI (by omega)
      exact ⟨s'', by simp [while_loopM, hc, hb, h1], h2, h3⟩

/-! ## `merge_hash` reads eight words of each block and writes sixteen -/

theorem merge_hash_bytes_length (has_avx2 : Bool) (b1 b2 : List Nat) :
    (merge_hash_bytes has_avx2 b1 b2).length = 64 := by
  cases has_avx2
  · exact words_bytes_toList_length _
  · simp [merge_hash_bytes, merge_hash_avx2, length_le_store]

/-- The output of `merge_hash` depends on the first 32 bytes of each block only. -/
theorem merge_hash_bytes_congr (has_avx2 : Bool) {b1 b2 c1 c2 : List Nat}
    (h1 : load_at b1 0 32 = load_at c1 0 32) (h2 : load_at b2 0 32 = load_at c2 0 32) :
    merge_hash_bytes has_avx2 b1 b2 = merge_hash_bytes has_avx2 c1 c2 := by
  cases has_avx2
  · simp only [merge_hash_bytes, merge_hash_scalar, Bool.false_eq_true, if_false]
    rw [← load_words8_load_at b1, ← load_words8_load_at b2, h1, h2, load_words8_load_at,
      load_words8_load_at]
  · simp only [merge_hash_bytes, merge_hash_avx2, if_true, h1, h2]

theorem next_level_succ (has_avx2 : Bool) (src : List Nat) (n : Nat) :
    next_level has_avx2 src (n + 1) = next_level has_avx2 src n ++
      merge_hash_bytes has_avx2 (src.drop ((2 * n) * 64)) (src.drop ((2 * n + 1) * 64)) := by
  simp [next_level, List.range_succ]

theorem next_level_length (has_avx2 : Bool) (src : List Nat) (n : Nat) :
    (next_level has_avx2 src n).length = n * 64 := by
  induction n with
  | zero => simp [next_level]
  | succ n ih =>
    rw [next_level_succ, List.length_append, ih, merge_hash_bytes_length]
    ring

/-! ## One level of the Merkle reduction -/

theorem MerkleState.mem_write_same (st : MerkleState) (p : BufId) (m : List Nat) :
    (st.write p m).mem p = m := by
  cases p <;> rfl

theorem MerkleState.mem_write_other (st : MerkleState) {p q : BufId} (m : List Nat)
    (h : q ≠ p) : (st.write p m).mem q = st.mem q := by
  cases p <;> cases q <;> first | rfl | exact absurd rfl h

theorem MerkleState.write_write (st : MerkleState) (p : BufId) (m m' : List Nat) :
    (st.write p m).write p m' = st.write p m' := by
  cases p <;> rfl

theorem MerkleState.write_mem (st : MerkleState) (p : BufId) : st.write p (st.mem p) = st := by
  cases p <;> rfl

theorem MerkleState.write_fields (st : MerkleState) (p : BufId) (m : List Nat) :
    (st.write p m).prev_buf = st.prev_buf ∧ (st.write p m).cur_buf = st.cur_buf ∧
    (st.write p m).first_iteration = st.first_iteration ∧ (st.write p m).length = st.length := by
  cases p <;> exact ⟨rfl, rfl, rfl, rfl⟩

theorem MerkleState.source_write (st : MerkleState) (input m : List Nat)
    (hsep : st.first_iteration = true ∨ st.prev_buf ≠ st.cur_buf) :
    (st.write st.cur_buf m).source input = st.source input := by
  unfold MerkleState.source
  rw [(st.write_fields st.cur_buf m).2.2.1, (st.write_fields st.cur_buf m).1]
  cases hf : st.first_iteration with
  | true => rfl
  | false =>
    have hne : st.prev_buf ≠ st.cur_buf := by
      cases hsep with
      | inl h => rw [hf] at h; cases h
      | inr h => exact h
    simp only [Bool.false_eq_true, if_false]
    exact st.mem_write_other m hne

theorem level_state_zero (has_avx2 : Bool) (input : List Nat) (st : MerkleState) :
    level_state has_avx2 input st 0 = st := by
  simp [level_state, next_level, MerkleState.write_mem]

/-- Block `i` of a level: the call of `merge_hash` stays in bounds and appends
block `i` of the next level. -/
theorem merkle_block_level_state (has_avx2 : Bool) (input : List Nat) (st : MerkleState)
    (hsep : st.first_iteration = true ∨ st.prev_buf ≠ st.cur_buf) {n i : Nat} (hi : i < n)
    (hcur : n * 64 ≤ (st.mem st.cur_buf).length)
    (hsrc : (2 * n) * 64 ≤ (st.source input).length) :
    merkle_block has_avx2 input i (level_state has_avx2 input st i) =
      some (level_state has_avx2 input st (i + 1)) := by
  have hNL := next_level_length has_avx2 (st.source input) i
  unfold merkle_block
  simp only [level_state, MerkleState.source_write st input _ hsep,
    (st.write_fields st.cur_buf _).2.1, MerkleState.mem_write_same, MerkleState.write_write]
  rw [List.drop_left' hNL, List.take_left' hNL]
  unfold merge_hash
  rw [if_pos ⟨by simp only [List.length_drop]; omega, by simp only [List.length_drop]; omega,
    by simp only [List.length_drop]; omega⟩]
  simp only [Option.map_some', List.drop_drop, next_level_succ, List.append_assoc]
  have e : i * 64 + 64 = (i + 1) * 64 := by ring
  rw [e]

/-- The block loop over `[lo, hi)` continues the trajectory of level states. -/
theorem merkle_blocks_range (has_avx2 : Bool) (input : List Nat) (st : MerkleState)
    (hsep : st.first_iteration = true ∨ st.prev_buf ≠ st.cur_buf) {n lo hi : Nat}
    (h1 : lo ≤ hi) (h2 : hi ≤ n) (hcur : n * 64 ≤ (st.mem st.cur_buf).length)
    (hsrc : (2 * n) * 64 ≤ (st.source input).length) :
    for_loopM lo hi (merkle_block has_avx2 input) (level_state has_avx2 input st lo) =
      some (level_state has_avx2 input st hi) :=
  for_loopM_eq_some (level_state has_avx2 input st) lo hi _ h1
    (fun i _ hi' => merkle_block_level_state has_avx2 input st hsep (show i < n by omega)
      hcur hsrc)

/-- A level of the reduction, on the parallel and on the sequential branch:
no access faults, and `cur_buf` receives the `length / 64` blocks of the next
level before the buffers are swapped. -/
theorem merkle_level_eq (has_avx2 : Bool) (num_threads : Nat) (input : List Nat)
    (st : MerkleState) (hsep : st.first_iteration = true ∨ st.prev_buf ≠ st.cur_buf)
    (hcur : st.length / 64 * 64 ≤ (st.mem st.cur_buf).length)
    (hsrc : (2 * (st.length / 64)) * 64 ≤ (st.source input).length) :
    merkle_level has_avx2 num_threads num_threads input st =
      some (merkle_swap (level_state has_avx2 input st (st.length / 64))) := by
  unfold merkle_level
  simp only [Nat.min_self]
  split
  · next hpar =>
    have hp : st.length / 64 ≥ 4 ∧ st.length / 64 / num_threads ≥ 1 := by
      simpa using hpar
    have hT : 0 < num_threads := by
      rcases Nat.eq_zero_or_pos num_threads with h | h
      · rw [h, Nat.div_zero] at hp; omega
      · exact h
    have hmul : num_threads * (st.length / 64 / num_threads) ≤ st.length / 64 :=
      Nat.mul_div_le _ _
    have traj := for_loopM_eq_some
      (fun t => level_state has_avx2 input st
        (if t = num_threads then st.length / 64 else t * (st.length / 64 / num_threads)))
      0 num_threads
      (fun thread_id st' =>
        for_loopM (thread_id * (st.length / 64 / num_threads))
          (if thread_id = num_threads - 1 then st.length / 64
            else thread_id * (st.length / 64 / num_threads) + st.length / 64 / num_threads)
          (merkle_block has_avx2 input) st')
      (Nat.zero_le _)
      (by
        intro t _ ht
        have hle : (t + 1) * (st.length / 64 / num_threads) ≤
            num_threads * (st.length / 64 / num_threads) :=
          Nat.mul_le_mul_right _ (by omega)
        have e : (t + 1) * (st.length / 64 / num_threads) =
            t * (st.length / 64 / num_threads) + st.length / 64 / num_threads := by ring
        simp only []
        rw [if_neg (show ¬ t = num_threads by omega)]
        by_cases hlast : t = num_threads - 1
        · rw [if_pos hlast, if_pos (show t + 1 = num_threads by omega)]
          exact merkle_blocks_range has_avx2 input st hsep (by omega) (Nat.le_refl _) hcur hsrc
        · rw [if_neg hlast, if_neg (show ¬ t + 1 = num_threads by omega), e]
          exact merkle_blocks_range has_avx2 input st hsep (by omega) (by omega) hcur hsrc)
    simp only [] at traj
    rw [if_neg (show ¬ 0 = num_threads by omega), Nat.zero_mul, level_state_zero,
      if_pos trivial] at traj
    rw [traj]
    rfl
  · have traj := merkle_blocks_range has_avx2 input st hsep (Nat.zero_le _)
      (Nat.le_refl (st.length / 64)) hcur hsrc
    rw [level_state_zero] at traj
    rw [traj]
    rfl

/-- A level whose parallel region, if it has one, is granted the whole team
is the level run by all `num_threads` threads. -/
theorem merkle_level_full (has_avx2 : Bool) (num_threads team : Nat) (input : List Nat)
    (st : MerkleState)
    (hteam : merkle_use_parallel (st.length / 64) num_threads = true → num_threads ≤ team) :
    merkle_level has_avx2 num_threads team input st =
      merkle_level has_avx2 num_threads num_threads input st := by
  unfold merkle_level
  simp only [Nat.min_self]
  cases hp : merkle_use_parallel (st.length / 64) num_threads with
  | true => rw [Nat.min_eq_right (hteam hp)]
  | false =>
    have hp' : (decide (st.length / 64 ≥ 4) &&
        decide (st.length / 64 / num_threads ≥ 1)) = false := hp
    simp only [hp', Bool.false_eq_true, if_false]

/-! ## The reduction loop computes the levels of the specification -/

theorem load_at_head_of_drop (src : List Nat) (off : Nat) :
    load_at (src.drop off) 0 32 = (src.drop off).take 32 := by
  simp [load_at]

theorem load_at_head_of_block {src : List Nat} {m off : Nat} (h : off + 64 ≤ m) :
    load_at (load_at (src.take m) off 64) 0 32 = (src.drop off).take 32 := by
  unfold load_at
  rw [List.drop_zero, List.take_take, List.drop_take, List.take_take,
    Nat.min_eq_left (by omega), Nat.min_eq_left (by omega)]

/-- The level the code computes is the next level of the specification. -/
theorem next_level_eq_spec (has_avx2 : Bool) {src : List Nat} {n : Nat}
    (h : 128 * n ≤ src.length) :
    next_level has_avx2 src n =
      spec_next_level (merge_hash_bytes has_avx2) (src.take (128 * n)) := by
  have hl : (src.take (128 * n)).length / 128 = n := by
    rw [List.length_take, Nat.min_eq_left h]
    omega
  unfold next_level spec_next_level
  rw [hl]
  refine congrArg List.flatten (List.map_congr_left (fun i hi => ?_))
  have hi' : i < n := List.mem_range.1 hi
  apply merge_hash_bytes_congr
  · rw [load_at_head_of_drop, load_at_head_of_block (by omega)]
  · rw [load_at_head_of_drop, load_at_head_of_block (by omega)]

theorem spec_next_level_length (mh : List Nat → List Nat → List Nat)
    (hmh : ∀ a b, (mh a b).length = 64) (lvl : List Nat) :
    (spec_next_level mh lvl).length = lvl.length / 128 * 64 := by
  unfold spec_next_level
  generalize lvl.length / 128 = n
  induction n with
  | zero => simp
  | succ n ih =>
    rw [List.range_succ, List.map_append, List.flatten_append, List.length_append, ih]
    simp only [List.map_cons, List.map_nil, List.flatten_cons, List.flatten_nil,
      List.append_nil, hmh]
    ring

theorem spec_level_succ (mh : List Nat → List Nat → List Nat) (input : List Nat) (m : Nat) :
    spec_level mh input (m + 1) = spec_next_level mh (spec_level mh input m) := by
  unfold spec_level
  rw [Function.iterate_succ_apply']

/-- Level `m` of an input of `2^k` blocks has `2^(k-m)` blocks. -/
theorem spec_level_length (mh : List Nat → List Nat → List Nat)
    (hmh : ∀ a b, (mh a b).length = 64) {input : List Nat} {k : Nat}
    (hlen : input.length = 64 * 2 ^ k) {m : Nat} (hm : m ≤ k) :
    (spec_level mh input m).length = 64 * 2 ^ (k - m) := by
  induction m with
  | zero => simpa [spec_level] using hlen
  | succ m ih =>
    rw [spec_level_succ, spec_next_level_length mh hmh, ih (by omega)]
    have e : k - m = (k - (m + 1)) + 1 := by omega
    rw [e, Nat.pow_succ]
    omega

theorem merkle_swap_fields (st : MerkleState)
    (hsep : st.first_iteration = true ∨ st.prev_buf ≠ st.cur_buf) :
    (merkle_swap st).first_iteration = false ∧ (merkle_swap st).prev_buf = st.cur_buf ∧
    (merkle_swap st).cur_buf ≠ st.cur_buf ∧ (merkle_swap st).length = st.length / 2 ∧
    (∀ p, (merkle_swap st).mem p = st.mem p) := by
  unfold merkle_swap
  cases hf : st.first_iteration with
  | true =>
    refine ⟨rfl, rfl, ?_, rfl, fun p => by cases p <;> rfl⟩
    simp only [if_true]
    cases st.cur_buf <;> simp
  | false =>
    have hne : st.prev_buf ≠ st.cur_buf := by
      cases hsep with
      | inl h => rw [hf] at h; cases h
      | inr h => exact h
    exact ⟨rfl, rfl, hne, rfl, fun p => by cases p <;> rfl⟩

/-- One iteration of the loop keeps the invariant, does not fault and halves
`length`. -/
theorem merkle_level_inv (has_avx2 : Bool) (num_threads : Nat) (input : List Nat) (k : Nat)
    (st : MerkleState) (hI : MerkleInv has_avx2 input k st) (hc : 64 ≤ st.length) :
    ∃ st', merkle_level has_avx2 num_threads num_threads input st = some st' ∧
      MerkleInv has_avx2 input k st' ∧ st'.length < st.length := by
  obtain ⟨r, hrk, hlen, hmem, hfirst, hlater, hsrc, hlvl⟩ := hI
  have hr : r ≠ 0 := by
    intro h0
    rw [h0] at hlen
    simp at hlen
    omega
  obtain ⟨r', rfl⟩ := Nat.exists_eq_succ_of_ne_zero hr
  have hpow : 2 ^ (r' + 1) = 2 * 2 ^ r' := by rw [Nat.pow_succ]; ring
  have hkpow : 2 ^ r' ≤ 2 ^ k := Nat.pow_le_pow_right (by decide) (by omega)
  rw [hpow] at hlen hsrc hlvl
  have hn : st.length / 64 = 2 ^ r' := by omega
  have hsep : st.first_iteration = true ∨ st.prev_buf ≠ st.cur_buf := by
    rcases Nat.lt_or_ge (r' + 1) k with h | h
    · exact Or.inr (hlater h).2
    · exact Or.inl (hfirst (by omega))
  have hlev := merkle_level_eq has_avx2 num_threads input st hsep
    (by rw [hn, hmem]; omega) (by rw [hn]; omega)
  rw [hn] at hlev
  refine ⟨_, hlev, ?_, ?_⟩
  · have hwf := (st.write_fields st.cur_buf
      (next_level has_avx2 (st.source input) (2 ^ r') ++
        (st.mem st.cur_buf).drop (2 ^ r' * 64)))
    have hsepL : (level_state has_avx2 input st (2 ^ r')).first_iteration = true ∨
        (level_state has_avx2 input st (2 ^ r')).prev_buf ≠
          (level_state has_avx2 input st (2 ^ r')).cur_buf := by
      unfold level_state
      rw [hwf.2.2.1, hwf.1, hwf.2.1]
      exact hsep
    obtain ⟨s1, s2, s3, s4, s5⟩ := merkle_swap_fields _ hsepL
    have hcurL : (level_state has_avx2 input st (2 ^ r')).cur_buf = st.cur_buf := hwf.2.1
    have hlenL : (level_state has_avx2 input st (2 ^ r')).length = st.length := hwf.2.2.2
    have hNL := next_level_length has_avx2 (st.source input) (2 ^ r')
    have hmemcur : (level_state has_avx2 input st (2 ^ r')).mem st.cur_buf =
        next_level has_avx2 (st.source input) (2 ^ r') ++
          (st.mem st.cur_buf).drop (2 ^ r' * 64) := st.mem_write_same _ _
    have hsrc' : (merkle_swap (level_state has_avx2 input st (2 ^ r'))).source input =
        next_level has_avx2 (st.source input) (2 ^ r') ++
          (st.mem st.cur_buf).drop (2 ^ r' * 64) := by
      unfold MerkleState.source
      rw [s1, s2, s5, hcurL]
      simp only [Bool.false_eq_true, if_false]
      exact hmemcur
    refine ⟨r', by omega, by rw [s4, hlenL]; omega, ?_, fun h => by omega,
      fun _ => ⟨s1, by rw [s2]; exact fun h => s3 h.symm⟩, ?_, ?_⟩
    · intro p
      rw [s5]
      by_cases hp : p = st.cur_buf
      · rw [hp, hmemcur, List.length_append, hNL, List.length_drop, hmem]
        omega
      · unfold level_state
        rw [st.mem_write_other _ hp, hmem]
    · rw [hsrc', List.length_append, hNL]
      omega
    · rw [hsrc', List.take_left' (by rw [hNL]; ring)]
      have e : k - r' = (k - (r' + 1)) + 1 := by omega
      have e2 : 64 * (2 * 2 ^ r') = 128 * 2 ^ r' := by ring
      rw [e, spec_level_succ, ← hlvl, e2]
      exact next_level_eq_spec has_avx2 (by omega)
  · rw [(merkle_swap_fields _ ?_).2.2.2.1]
    · have hwf := (st.write_fields st.cur_buf
        (next_level has_avx2 (st.source input) (2 ^ r') ++
          (st.mem st.cur_buf).drop (2 ^ r' * 64)))
      have hlenL : (level_state has_avx2 input st (2 ^ r')).length = st.length := hwf.2.2.2
      rw [hlenL]; omega
    · have hwf := (st.write_fields st.cur_buf
        (next_level has_avx2 (st.source input) (2 ^ r') ++
          (st.mem st.cur_buf).drop (2 ^ r' * 64)))
      unfold level_state
      rw [hwf.2.2.1, hwf.1, hwf.2.1]
      exact hsep

theorem MerkleInv_length_le {has_avx2 : Bool} {input : List Nat} {k : Nat} {st : MerkleState}
    (hI : MerkleInv has_avx2 input k st) (hlen : input.length = 64 * 2 ^ k) :
    st.length ≤ input.length / 2 := by
  obtain ⟨r, hrk, hl, _⟩ := hI
  have : 2 ^ r ≤ 2 ^ k := Nat.pow_le_pow_right (by decide) hrk
  omega

/-- The result of `merkel_tree` on `2^k` blocks, `k >= 1`, when every parallel region is
granted its whole team: no access faults, the loop ends, and the output is
`level[k]`, whatever the scratch buffers held. -/
theorem merkel_tree_eq_spec_level (has_avx2 : Bool) (num_threads : Nat) (env : MerkleEnv)
    {k : Nat} {input : List Nat} (hteam : full_team num_threads env input.length)
    (hk : 1 ≤ k) (hlen : input.length = 64 * 2 ^ k) :
    merkel_tree has_avx2 num_threads env input input.length =
      some (spec_level (merge_hash_bytes has_avx2) input k) := by
  have hk2 : 2 ≤ 2 ^ k := by
    calc 2 = 2 ^ 1 := by norm_num
      _ ≤ 2 ^ k := Nat.pow_le_pow_right (by decide) hk
  unfold merkel_tree
  rw [if_neg (by omega)]
  simp only []
  have h0 : MerkleInv has_avx2 input k
      { buf1 := (List.range input.length).map (fun j => env.scratch1 j % 256),
        buf2 := (List.range input.length).map (fun j => env.scratch2 j % 256),
        prev_buf := BufId.buf1, cur_buf := BufId.buf2, first_iteration := true,
        length := input.length / 2 } := by
    refine ⟨k, Nat.le_refl _, by simp only []; omega, ?_, fun _ => rfl,
      fun h => absurd h (Nat.lt_irrefl _), ?_, ?_⟩
    · intro p
      cases p <;> simp [MerkleState.mem, hlen]
    · simp [MerkleState.source, hlen]
    · simp [MerkleState.source, spec_level, ← hlen]
  obtain ⟨st', hrun, hI, hexit⟩ := while_loopM_induction (MerkleInv has_avx2 input k)
    (fun st => st.length) (fun st => decide (st.length ≥ 64))
    (fun st => merkle_level has_avx2 num_threads (env.team st.length) input st)
    (fun s hs hc => by
      show ∃ s', merkle_level has_avx2 num_threads (env.team s.length) input s = some s' ∧ _
      rw [merkle_level_full has_avx2 num_threads _ input s
        (hteam s.length (MerkleInv_length_le hs hlen))]
      exact merkle_level_inv has_avx2 num_threads input k s hs (by simpa using hc))
    input.length _ h0 (by simp only []; omega)
  rw [hrun]
  obtain ⟨r, hrk, hl, hmem, _, hlater, hsrc, hlvl⟩ := hI
  have hlt : st'.length < 64 := by simpa using hexit
  have hr0 : r = 0 := by
    rcases Nat.eq_zero_or_pos r with h | h
    · exact h
    · have : 2 ^ 1 ≤ 2 ^ r := Nat.pow_le_pow_right (by decide) h
      omega
  subst hr0
  have hf := (hlater (by omega)).1
  have hs : st'.source input = st'.mem st'.prev_buf := by
    simp [MerkleState.source, hf]
  rw [hs] at hsrc hlvl
  simp only [Option.some_bind]
  rw [if_pos (by simpa using hsrc)]
  simp only [load_at, List.drop_zero]
  simpa using hlvl

/-! ## Blocks of a level, and the tree shape -/

/-- Block `j` of a concatenation of 64-byte blocks. -/
theorem load_at_flatten_blocks (f : Nat → List Nat) (hf : ∀ i, (f i).length = 64) {n j : Nat}
    (hj : j < n) : load_at ((List.range n).map f).flatten (j * 64) 64 = f j := by
  have hlen : ∀ m, ((List.range m).map f).flatten.length = m * 64 := by
    intro m
    induction m with
    | zero => simp
    | succ m ih =>
      rw [List.range_succ, List.map_append, List.flatten_append, List.length_append, ih]
      simp only [List.map_cons, List.map_nil, List.flatten_cons, List.flatten_nil,
        List.append_nil, hf]
      ring
  induction n with
  | zero => omega
  | succ n ih =>
    rw [List.range_succ, List.map_append, List.flatten_append]
    simp only [List.map_cons, List.map_nil, List.flatten_cons, List.flatten_nil, List.append_nil]
    unfold load_at
    by_cases h : j < n
    · have := ih h
      unfold load_at at this
      rw [List.drop_append_of_le_length (by rw [hlen]; omega),
        List.take_append_of_le_length (by rw [List.length_drop, hlen]; omega)]
      exact this
    · have e : j = n := by omega
      subst e
      rw [List.drop_left' (hlen j), List.take_of_length_le (by rw [hf])]

theorem spec_next_level_block (mh : List Nat → List Nat → List Nat)
    (hmh : ∀ a b, (mh a b).length = 64) (lvl : List Nat) {j : Nat} (hj : j < lvl.length / 128) :
    load_at (spec_next_level mh lvl) (j * 64) 64 =
      mh (load_at lvl ((2 * j) * 64) 64) (load_at lvl ((2 * j + 1) * 64) 64) :=
  load_at_flatten_blocks _ (fun _ => hmh _ _) hj

theorem load_at_append_left {A B : List Nat} {off n : Nat} (h : off + n ≤ A.length) :
    load_at (A ++ B) off n = load_at A off n := by
  unfold load_at
  rw [List.drop_append_of_le_length (by omega),
    List.take_append_of_le_length (by rw [List.length_drop]; omega)]

theorem load_at_append_right (A B : List Nat) (off n : Nat) :
    load_at (A ++ B) (A.length + off) n = load_at B off n := by
  unfold load_at
  rw [List.drop_append]

/-- The next level of a concatenation splits when the left part is a whole
number of pairs. -/
theorem spec_next_level_append (mh : List Nat → List Nat → List Nat) {A B : List Nat} {p : Nat}
    (hA : A.length = 128 * p) :
    spec_next_level mh (A ++ B) = spec_next_level mh A ++ spec_next_level mh B := by
  have e1 : (A ++ B).length / 128 = p + B.length / 128 := by
    rw [List.length_append, hA]; omega
  have e2 : A.length / 128 = p := by rw [hA]; omega
  unfold spec_next_level
  rw [e1, e2, List.range_add, List.map_append, List.flatten_append, List.map_map]
  congr 1
  · refine congrArg List.flatten (List.map_congr_left (fun j hj => ?_))
    have hj' : j < p := List.mem_range.1 hj
    rw [load_at_append_left (by omega), load_at_append_left (by omega)]
  · refine congrArg List.flatten (List.map_congr_left (fun j _ => ?_))
    have o1 : 2 * (p + j) * 64 = A.length + (2 * j) * 64 := by rw [hA]; ring
    have o2 : (2 * (p + j) + 1) * 64 = A.length + (2 * j + 1) * 64 := by rw [hA]; ring
    simp only [Function.comp]
    rw [o1, o2, load_at_append_right, load_at_append_right]

/-- Levels of a concatenation of two equal halves split, up to the level at
which each half is a single block. -/
theorem spec_level_append (mh : List Nat → List Nat → List Nat)
    (hmh : ∀ a b, (mh a b).length = 64) {a b : List Nat} {k : Nat}
    (ha : a.length = 64 * 2 ^ k) {m : Nat} (hm : m ≤ k) :
    spec_level mh (a ++ b) m = spec_level mh a m ++ spec_level mh b m := by
  induction m with
  | zero => rfl
  | succ m ih =>
    rw [spec_level_succ, spec_level_succ, spec_level_succ, ih (by omega)]
    have hl := spec_level_length mh hmh ha (m := m) (by omega)
    have e : k - m = (k - (m + 1)) + 1 := by omega
    rw [e, Nat.pow_succ] at hl
    exact spec_next_level_append mh (p := 2 ^ (k - (m + 1))) (by rw [hl]; ring)

theorem spec_next_level_pair (mh : List Nat → List Nat → List Nat) {x y : List Nat}
    (hx : x.length = 64) (hy : y.length = 64) : spec_next_level mh (x ++ y) = mh x y := by
  have e : (x ++ y).length / 128 = 1 := by rw [List.length_append, hx, hy]
  have l1 : load_at (x ++ y) 0 64 = x := by
    rw [load_at_append_left (by omega)]
    simp [load_at, List.take_of_length_le (Nat.le_of_eq hx)]
  have l2 : load_at (x ++ y) 64 64 = y := by
    have := load_at_append_right x y 0 64
    rw [hx] at this
    rw [this]
    simp [load_at, List.take_of_length_le (Nat.le_of_eq hy)]
  unfold spec_next_level
  rw [e]
  simp [List.range_succ, l1, l2]

/-! ## Environments that grant the whole team -/

theorem full_team_small (num_threads : Nat) (env : MerkleEnv) {length : Nat}
    (h : length < 512) : full_team num_threads env length := by
  intro n hn hp
  have h4 : 4 ≤ n / 64 := by
    simp only [merkle_use_parallel, Bool.and_eq_true, decide_eq_true_eq] at hp
    exact hp.1
  omega

theorem full_team_mono {num_threads : Nat} {env : MerkleEnv} {l n : Nat}
    (h : full_team num_threads env l) (hle : n ≤ l) : full_team num_threads env n :=
  fun j hj hp => h j (by omega) hp

theorem full_team_env_team (num_threads length : Nat) :
    full_team num_threads (env_team num_threads) length :=
  fun _ _ _ => Nat.le_refl _

/-- The result of `merkel_tree` on `2^k` blocks for every `k`, the single-block passthrough
included, when every parallel region is granted its whole team. -/
theorem merkel_tree_eq_root (has_avx2 : Bool) (num_threads : Nat) (env : MerkleEnv) {k : Nat}
    {input : List Nat} (hteam : full_team num_threads env input.length)
    (hlen : input.length = 64 * 2 ^ k) :
    merkel_tree has_avx2 num_threads env input input.length =
      some (spec_level (merge_hash_bytes has_avx2) input k) := by
  rcases Nat.eq_zero_or_pos k with h0 | hpos
  · subst h0
    have h64 : input.length = 64 := by simpa using hlen
    unfold merkel_tree
    rw [if_pos h64, if_pos (by omega)]
    simp [load_at, spec_level, List.take_of_length_le (Nat.le_of_eq h64)]
  · exact merkel_tree_eq_spec_level has_avx2 num_threads env hteam hpos hlen

/-! ## `merkel_tree` and `mercha` when every region is granted its whole team -/

/-- When every parallel region is granted its whole team, `merkel_tree` on
`64 * 2^k` bytes, `k >= 1`, writes to `output` the single block of `level[k]`,
where `level[0]` is the input and block `j` of `level[m+1]` is `merge_hash` of
blocks `2j` and `2j+1` of `level[m]` for every `j < 2^(k-m-1)`; no memory
access is out of bounds. -/
theorem merkel_tree_is_level_k_full_team (has_avx2 : Bool) (num_threads : Nat)
    (env : MerkleEnv) (k : Nat) (input : List Nat)
    (hteam : full_team num_threads env input.length)
    (hk : 1 ≤ k) (hlen : input.length = 64 * 2 ^ k) :
    spec_level (merge_hash_bytes has_avx2) input 0 = input ∧
    (∀ m, m < k → ∀ j, j < 2 ^ (k - m - 1) →
      load_at (spec_level (merge_hash_bytes has_avx2) input (m + 1)) (j * 64) 64 =
        merge_hash_bytes has_avx2
          (load_at (spec_level (merge_hash_bytes has_avx2) input m) ((2 * j) * 64) 64)
          (load_at (spec_level (merge_hash_bytes has_avx2) input m) ((2 * j + 1) * 64) 64)) ∧
    (spec_level (merge_hash_bytes has_avx2) input k).length = 64 ∧
    merkel_tree has_avx2 num_threads env input input.length =
      some (spec_level (merge_hash_bytes has_avx2) input k) := by
  refine ⟨rfl, ?_, ?_, merkel_tree_eq_spec_level has_avx2 num_threads env hteam hk hlen⟩
  · intro m hm j hj
    rw [spec_level_succ]
    apply spec_next_level_block _ (merge_hash_bytes_length has_avx2)
    rw [spec_level_length _ (merge_hash_bytes_length has_avx2) hlen (by omega)]
    have e : k - m = (k - m - 1) + 1 := by omega
    rw [e, Nat.pow_succ]
    omega
  · rw [spec_level_length _ (merge_hash_bytes_length has_avx2) hlen (Nat.le_refl k)]
    simp

/-- When every parallel region of the three calls is granted its whole team,
the digest is the root of a perfect binary hash tree: for `a`, `b` of
`64 * 2^k` bytes each, `k >= 0`, `merkel_tree (a ++ b)` is `merge_hash` of
`merkel_tree a` and `merkel_tree b`. -/
theorem merkel_tree_is_hash_tree_full_team (has_avx2 : Bool) (num_threads : Nat)
    (ea eb e : MerkleEnv) (k : Nat) (a b : List Nat)
    (hta : full_team num_threads ea a.length) (htb : full_team num_threads eb b.length)
    (hte : full_team num_threads e (a ++ b).length)
    (ha : a.length = 64 * 2 ^ k) (hb : b.length = 64 * 2 ^ k) :
    ∃ ra rb, merkel_tree has_avx2 num_threads ea a a.length = some ra ∧
      merkel_tree has_avx2 num_threads eb b b.length = some rb ∧
      merkel_tree has_avx2 num_threads e (a ++ b) (a ++ b).length =
        some (merge_hash_bytes has_avx2 ra rb) := by
  have hab : (a ++ b).length = 64 * 2 ^ (k + 1) := by
    rw [List.length_append, ha, hb, Nat.pow_succ]; ring
  have hmh := merge_hash_bytes_length has_avx2
  refine ⟨_, _, merkel_tree_eq_root has_avx2 num_threads ea hta ha,
    merkel_tree_eq_root has_avx2 num_threads eb htb hb, ?_⟩
  rw [merkel_tree_eq_root has_avx2 num_threads e hte hab, spec_level_succ,
    spec_level_append _ hmh ha (Nat.le_refl k)]
  have la := spec_level_length _ hmh ha (Nat.le_refl k)
  have lb := spec_level_length _ hmh hb (Nat.le_refl k)
  rw [spec_next_level_pair _ (by simpa using la) (by simpa using lb)]

/-! ## A team smaller than the region asks for -/

set_option maxRecDepth 10000000 in
/-- C8: `merkel_tree` does not write `level[k]` when a parallel region is
granted fewer threads than it asks for.  On the 1024-byte input with byte `i`
equal to `(7 * i + 3) mod 256`, with `omp_get_max_threads() = 4` and teams of
two threads, on the AVX2 path with zeroed fresh allocations, the output is
`3c 32 af 72 .. d1 f1 20 4f` and not `level[4]`: threads 2 and 3 do not
exist, so blocks 4..7 of the first level and blocks 2, 3 of the second are
never hashed.  Granted the whole team, the same call writes `level[4]`. -/
theorem C8_merkel_tree_short_team_digest :
    merkel_tree true 4 (env_team 2) ((List.range 1024).map (fun i => (7 * i + 3) % 256)) 1024 =
      some [0x3c, 0x32, 0xaf, 0x72, 0x36, 0x94, 0x15, 0x81, 0x56, 0x6b, 0xd3, 0xb2, 0xef, 0x11,
        0xe3, 0x8f, 0xb3, 0x50, 0x2e, 0x62, 0xe8, 0xce, 0x70, 0x75, 0xba, 0x1a, 0x74, 0x6b, 0xe6,
        0x0c, 0x88, 0x98, 0x60, 0x04, 0x3d, 0x25, 0x23, 0xd7, 0x00, 0x6a, 0xb9, 0x1a, 0xc7, 0x09,
        0xe4, 0xde, 0x3a, 0x13, 0x0b, 0x63, 0x13, 0xd7, 0xcb, 0xe5, 0x3b, 0x7b, 0xd3, 0x3c, 0x02,
        0xe3, 0xd1, 0xf1, 0x20, 0x4f] ∧
    merkel_tree true 4 (env_team 2) ((List.range 1024).map (fun i => (7 * i + 3) % 256)) 1024 ≠
      some (spec_level (merge_hash_bytes true)
        ((List.range 1024).map (fun i => (7 * i + 3) % 256)) 4) ∧
    merkel_tree true 4 (env_team 4) ((List.range 1024).map (fun i => (7 * i + 3) % 256)) 1024 =
      some (spec_level (merge_hash_bytes true)
        ((List.range 1024).map (fun i => (7 * i + 3) % 256)) 4) := by
  decide

set_option maxRecDepth 10000000 in
/-- C9: the digest is not the root of a hash tree when a parallel region is
granted fewer threads than it asks for.  With `omp_get_max_threads() = 4` and
teams of two threads (AVX2 path, zeroed fresh allocations), for the two
512-byte halves `a`, `b` of the input with byte `i` equal to
`(7 * i + 3) mod 256`, `merkel_tree (a ++ b)` (first bytes `3c 32 af 72`) is
not `merge_hash (merkel_tree a) (merkel_tree b)` (first bytes `b1 41 1f ff`),
all three calls returning. -/
theorem C9_merkel_tree_short_team_not_hash_tree :
    (merkel_tree true 4 (env_team 2) ((List.range 512).map (fun i => (7 * i + 3) % 256))
      512).map (List.take 4) = some [0xa8, 0x77, 0x0d, 0xdc] ∧
    (merkel_tree true 4 (env_team 2) ((List.range 512).map (fun i => (7 * (i + 512) + 3) % 256))
      512).map (List.take 4) = some [0xa8, 0x77, 0x0d, 0xdc] ∧
    (merkel_tree true 4 (env_team 2)
      ((List.range 512).map (fun i => (7 * i + 3) % 256) ++
        (List.range 512).map (fun i => (7 * (i + 512) + 3) % 256)) 1024).map (List.take 4) =
      some [0x3c, 0x32, 0xaf, 0x72] ∧
    ((merkel_tree true 4 (env_team 2) ((List.range 512).map (fun i => (7 * i + 3) % 256))
      512).bind (fun ra =>
        (merkel_tree true 4 (env_team 2)
          ((List.range 512).map (fun i => (7 * (i + 512) + 3) % 256)) 512).map (fun rb =>
            (merge_hash_bytes true ra rb).take 4))) = some [0xb1, 0x41, 0x1f, 0xff] ∧
    merkel_tree true 4 (env_team 2)
      ((List.range 512).map (fun i => (7 * i + 3) % 256) ++
        (List.range 512).map (fun i => (7 * (i + 512) + 3) % 256)) 1024 ≠
      (merkel_tree true 4 (env_team 2) ((List.range 512).map (fun i => (7 * i + 3) % 256))
        512).bind (fun ra =>
          (merkel_tree true 4 (env_team 2)
            ((List.range 512).map (fun i => (7 * (i + 512) + 3) % 256)) 512).map (fun rb =>
              merge_hash_bytes true ra rb)) := by
  decide

/-! ## Claims on `merkel_tree` and `mercha` -/

/-- C10: base case.  For every 64-byte input `merkel_tree` copies its input to
`output` unchanged, so `mercha` with `L = 64` returns
`chacha20_encrypt(key, nonce, 0, input)` verbatim (and leaves it in `input`),
in every environment. -/
theorem C10_mercha_single_block (has_avx2 : Bool) (num_threads : Nat) (env : MerkleEnv)
    (key nonce input : List Nat) (hlen : input.length = 64) (hb : bytes_ok input) :
    merkel_tree has_avx2 num_threads env input 64 = some input ∧
    mercha has_avx2 num_threads env key nonce input 64 =
      (chacha20_encrypt has_avx2 num_threads key nonce 0 input 64,
        some (chacha20_encrypt has_avx2 num_threads key nonce 0 input 64)) := by
  have copy : ∀ x : List Nat, x.length = 64 →
      merkel_tree has_avx2 num_threads env x 64 = some x := by
    intro x hx
    unfold merkel_tree
    rw [if_pos rfl, if_pos (by omega)]
    simp [load_at, List.take_of_length_le (Nat.le_of_eq hx)]
  refine ⟨copy input hlen, ?_⟩
  have hl := (chacha20_encrypt_getD has_avx2 num_threads key nonce 0 (n := 64) hb
    (by omega)).1
  unfold mercha
  simp only []
  rw [copy _ (by rw [hl, hlen])]

/-- C10 on the zero key, nonce and input. -/
theorem C10_mercha_single_block_witness :
    (List.replicate 64 0).length = 64 ∧ bytes_ok (List.replicate 64 0) ∧
    merkel_tree true 1 (env_team 1) (List.replicate 64 0) 64 = some (List.replicate 64 0) ∧
    mercha true 1 (env_team 1) (List.replicate 32 0) (List.replicate 12 0)
        (List.replicate 64 0) 64 =
      (chacha20_encrypt true 1 (List.replicate 32 0) (List.replicate 12 0) 0
          (List.replicate 64 0) 64,
        some (chacha20_encrypt true 1 (List.replicate 32 0) (List.replicate 12 0) 0
          (List.replicate 64 0) 64)) :=
  ⟨by decide, by decide,
    C10_mercha_single_block true 1 (env_team 1) (List.replicate 32 0) (List.replicate 12 0)
      (List.replicate 64 0) (by decide) (by decide)⟩

/-! ## End-to-end vectors -/

/-- A 64-byte buffer is one block: `chacha20_encrypt` takes the last tier. -/
theorem chacha20_encrypt_64 (has_avx2 : Bool) (num_threads : Nat) (key nonce : List Nat)
    (ic : Nat) (buffer : List Nat) :
    chacha20_encrypt has_avx2 num_threads key nonce ic buffer 64 =
      chacha20_tier_sequential has_avx2 (chacha20_state key nonce ic) ic buffer 64 1 := by
  simp [chacha20_encrypt]

/-- A 128-byte buffer is two blocks: `chacha20_encrypt` takes the third tier. -/
theorem chacha20_encrypt_128 (has_avx2 : Bool) (num_threads : Nat) (key nonce : List Nat)
    (ic : Nat) (buffer : List Nat) :
    chacha20_encrypt has_avx2 num_threads key nonce ic buffer 128 =
      chacha20_tier_pairs has_avx2 (chacha20_state key nonce ic) ic buffer 128 2 := by
  simp [chacha20_encrypt]

/-- The root of two blocks is `merge_hash` of the two blocks, in every
environment: the only level has one block and is run sequentially. -/
theorem merkel_tree_128 (has_avx2 : Bool) (num_threads : Nat) (env : MerkleEnv) {c : List Nat}
    (hc : c.length = 128) :
    merkel_tree has_avx2 num_threads env c 128 =
      some (merge_hash_bytes has_avx2 (load_at c 0 64) (load_at c 64 64)) := by
  have h := merkel_tree_eq_root has_avx2 num_threads env (k := 1)
    (full_team_small num_threads env (by omega)) (show c.length = 64 * 2 ^ 1 by
    rw [hc]; norm_num)
  rw [hc] at h
  rw [h, spec_level_succ]
  have e : spec_level (merge_hash_bytes has_avx2) c 0 = c := rfl
  rw [e]
  unfold spec_next_level
  rw [hc]
  simp [List.range_succ]

/-- The output of `mercha` on 128 bytes, in every environment. -/
theorem mercha_128 (has_avx2 : Bool) (num_threads : Nat) (env : MerkleEnv)
    (key nonce x : List Nat) (hx : x.length = 128) (hb : bytes_ok x) :
    (mercha has_avx2 num_threads env key nonce x 128).2 =
      some (merge_hash_bytes has_avx2
        (load_at (chacha20_encrypt has_avx2 num_threads key nonce 0 x 128) 0 64)
        (load_at (chacha20_encrypt has_avx2 num_threads key nonce 0 x 128) 64 64)) := by
  have len : (chacha20_encrypt has_avx2 num_threads key nonce 0 x 128).length = 128 := by
    rw [(chacha20_encrypt_getD has_avx2 num_threads key nonce 0 (n := 128) hb (by omega)).1, hx]
  unfold mercha
  simp only []
  exact merkel_tree_128 has_avx2 num_threads env len

theorem bytes_ok_replicate_zero (n : Nat) : bytes_ok (List.replicate n 0) := by
  intro b hb
  rw [List.eq_of_mem_replicate hb]
  decide

set_option maxRecDepth 1000000 in
/-- C7: `mercha` is not SIMD/scalar equivalent.  On 128 zero bytes with the
zero key and nonce, in every environment, the transformed input buffers
agree, but the 64-byte outputs for `has_avx2` true and false differ (first
bytes `a2 9c bc 00` against `3b b8 a7 1c`), because the scalar path of
`merge_hash` runs nine rounds and the AVX2 path ten. -/
theorem C7_mercha_avx2_scalar_outputs_differ (env : MerkleEnv) :
    (mercha true 1 env (List.replicate 32 0) (List.replicate 12 0)
        (List.replicate 128 0) 128).2 ≠
      (mercha false 1 env (List.replicate 32 0) (List.replicate 12 0)
        (List.replicate 128 0) 128).2 ∧
    (mercha true 1 env (List.replicate 32 0) (List.replicate 12 0)
        (List.replicate 128 0) 128).1 =
      (mercha false 1 env (List.replicate 32 0) (List.replicate 12 0)
        (List.replicate 128 0) 128).1 ∧
    ((mercha true 1 env (List.replicate 32 0) (List.replicate 12 0)
        (List.replicate 128 0) 128).2.map (List.take 4)) = some [0xa2, 0x9c, 0xbc, 0x00] ∧
    ((mercha false 1 env (List.replicate 32 0) (List.replicate 12 0)
        (List.replicate 128 0) 128).2.map (List.take 4)) = some [0x3b, 0xb8, 0xa7, 0x1c] := by
  have e2 : ∀ h : Bool, (mercha h 1 env (List.replicate 32 0) (List.replicate 12 0)
      (List.replicate 128 0) 128).1 =
      chacha20_encrypt h 1 (List.replicate 32 0) (List.replicate 12 0) 0
        (List.replicate 128 0) 128 := fun _ => rfl
  rw [mercha_128 true 1 env _ _ _ (List.length_replicate 128 0) (bytes_ok_replicate_zero 128),
    mercha_128 false 1 env _ _ _ (List.length_replicate 128 0) (bytes_ok_replicate_zero 128),
    e2 true, e2 false]
  decide

set_option maxRecDepth 1000000 in
/-- C11: for `L = 64` with the all-zero key, nonce and input, whatever the CPU
flag, the thread count and the environment, the output of `mercha` is the
first ChaCha20 keystream block for the zero key and nonce with counter 0, the
RFC 7539 vector `76 b8 e0 ad a0 f1 3d 90 ..`. -/
theorem C11_mercha_zero_vector (has_avx2 : Bool) (num_threads : Nat) (env : MerkleEnv) :
    (mercha has_avx2 num_threads env (List.replicate 32 0) (List.replicate 12 0)
        (List.replicate 64 0) 64).2 =
      some [0x76, 0xb8, 0xe0, 0xad, 0xa0, 0xf1, 0x3d, 0x90, 0x40, 0x5d, 0x6a, 0xe5, 0x53, 0x86,
        0xbd, 0x28, 0xbd, 0xd2, 0x19, 0xb8, 0xa0, 0x8d, 0xed, 0x1a, 0xa8, 0x36, 0xef, 0xcc, 0x8b,
        0x77, 0x0d, 0xc7, 0xda, 0x41, 0x59, 0x7c, 0x51, 0x57, 0x48, 0x8d, 0x77, 0x24, 0xe0, 0x3f,
        0xb8, 0xd8, 0x4a, 0x37, 0x6a, 0x43, 0xb8, 0xf4, 0x15, 0x18, 0xa1, 0x1c, 0xc3, 0x87, 0xb6,
        0x69, 0xb2, 0xee, 0x65, 0x86] ∧
    (mercha has_avx2 num_threads env (List.replicate 32 0) (List.replicate 12 0)
        (List.replicate 64 0) 64).2 =
      some (chacha20_block (spec_state (List.replicate 32 0) (List.replicate 12 0) 0)).2 := by
  have e : ∀ x : List Nat, merkel_tree has_avx2 num_threads env x 64 =
      if 64 ≤ x.length then some (load_at x 0 64) else none := by
    intro x
    simp [merkel_tree]
  unfold mercha
  simp only []
  rw [e, chacha20_encrypt_64]
  cases has_avx2 <;> decide

set_option maxRecDepth 1000000 in
/-- C12: for every key, nonce and 128-byte input `x`, in every environment, the
output of `mercha` is `merge_hash(c[0..64], c[64..128])` with
`c = chacha20_encrypt(key, nonce, 0, x)`; for the all-zero key, nonce and input
the two blocks are the keystream blocks `K0`, `K1` for counters 0 and 1.  Here
`merge_hash` is the function of the code on the path selected by `has_avx2`. -/
theorem C12_mercha_two_blocks (has_avx2 : Bool) (num_threads : Nat) (env : MerkleEnv)
    (key nonce x : List Nat) (hx : x.length = 128) (hb : bytes_ok x) :
    (mercha has_avx2 num_threads env key nonce x 128).2 =
      some (merge_hash_bytes has_avx2
        (load_at (chacha20_encrypt has_avx2 num_threads key nonce 0 x 128) 0 64)
        (load_at (chacha20_encrypt has_avx2 num_threads key nonce 0 x 128) 64 64)) ∧
    (mercha has_avx2 num_threads env (List.replicate 32 0) (List.replicate 12 0)
        (List.replicate 128 0) 128).2 =
      some (merge_hash_bytes has_avx2
        (chacha20_block (spec_state (List.replicate 32 0) (List.replicate 12 0) 0)).2
        (chacha20_block (spec_state (List.replicate 32 0) (List.replicate 12 0) 1)).2) := by
  constructor
  · exact mercha_128 has_avx2 num_threads env key nonce x hx hb
  · rw [mercha_128 has_avx2 num_threads env _ _ _ (List.length_replicate 128 0)
      (bytes_ok_replicate_zero 128), chacha20_encrypt_128]
    have e0 : load_at (chacha20_tier_pairs has_avx2
        (chacha20_state (List.replicate 32 0) (List.replicate 12 0) 0) 0
        (List.replicate 128 0) 128 2) 0 64 =
        (chacha20_block (spec_state (List.replicate 32 0) (List.replicate 12 0) 0)).2 := by
      cases has_avx2 <;> decide
    have e1 : load_at (chacha20_tier_pairs has_avx2
        (chacha20_state (List.replicate 32 0) (List.replicate 12 0) 0) 0
        (List.replicate 128 0) 128 2) 64 64 =
        (chacha20_block (spec_state (List.replicate 32 0) (List.replicate 12 0) 1)).2 := by
      cases has_avx2 <;> decide
    rw [e0, e1]

/-- C12 on the 128-byte input of ones with the zero key and nonce, two threads
requested and one granted. -/
theorem C12_mercha_two_blocks_witness :
    (List.replicate 128 1).length = 128 ∧ bytes_ok (List.replicate 128 1) ∧
    ((mercha true 2 (env_team 1) (List.replicate 32 0) (List.replicate 12 0)
        (List.replicate 128 1) 128).2 =
      some (merge_hash_bytes true
        (load_at (chacha20_encrypt true 2 (List.replicate 32 0) (List.replicate 12 0) 0
          (List.replicate 128 1) 128) 0 64)
        (load_at (chacha20_encrypt true 2 (List.replicate 32 0) (List.replicate 12 0) 0
          (List.replicate 128 1) 128) 64 64)) ∧
    (mercha true 2 (env_team 1) (List.replicate 32 0) (List.replicate 12 0)
        (List.replicate 128 0) 128).2 =
      some (merge_hash_bytes true
        (chacha20_block (spec_state (List.replicate 32 0) (List.replicate 12 0) 0)).2
        (chacha20_block (spec_state (List.replicate 32 0) (List.replicate 12 0) 1)).2)) :=
  ⟨List.length_replicate 128 1,
    fun b hb => by rw [List.eq_of_mem_replicate hb]; decide,
    C12_mercha_two_blocks true 2 (env_team 1) (List.replicate 32 0) (List.replicate 12 0)
      (List.replicate 128 1) (List.length_replicate 128 1)
      (fun b hb => by rw [List.eq_of_mem_replicate hb]; decide)⟩

/-! ## The tiers agree, and the counter wraps -/

/-- The block-loop invariant at a given block count determines the buffer. -/
theorem Encrypted_unique {orig a b : List Nat} {K : Nat → List Nat} {n m : Nat}
    (ha : Encrypted orig K n m a) (hb : Encrypted orig K n m b) : a = b := by
  apply list_ext_getD (by rw [ha.1, hb.1])
  intro j _
  rw [ha.2.2 j, hb.2.2 j]

/-- Below `length`, the finished invariant XORs byte `j` with byte `j mod 64` of
the block whose state word 12 is `(ic + j / 64) mod 2^32`. -/
theorem Encrypted_getD_lt {buffer out state : List Nat} {ic n j : Nat}
    (h : Encrypted buffer (keystream_block state ic) n ((n + 63) / 64) out) (hj : j < n) :
    out.getD j 0 = buffer.getD j 0 ^^^
      (chacha20_block (state.set 12 ((ic + j / 64) % 2 ^ 32))).2.getD (j % 64) 0 := by
  rw [h.2.2 j, if_pos (by omega)]
  simp only [keystream_block, block_counter_eq]

/-- C15: ChaCha parallel-equivalence.  For every key, nonce, `ctr0`, buffer and
length the four dispatch tiers (batches of four blocks with thread-local
state, per-block loop with a fresh state copy, two-at-a-time with a trailing
block, plain sequential) compute the same bytes, so the result of
`chacha20_encrypt` does not depend on `num_threads` (nor on the XOR path). -/
theorem C15_chacha20_tiers_agree (has_avx2 : Bool) (key nonce : List Nat) (ctr0 : Nat)
    (buffer : List Nat) (length : Nat) (hb : bytes_ok buffer) (hlen : length ≤ buffer.length) :
    chacha20_tier_batch has_avx2 (chacha20_state key nonce ctr0) ctr0 buffer length
        ((length + 63) / 64) =
      chacha20_tier_sequential has_avx2 (chacha20_state key nonce ctr0) ctr0 buffer length
        ((length + 63) / 64) ∧
    chacha20_tier_parallel_for has_avx2 (chacha20_state key nonce ctr0) ctr0 buffer length
        ((length + 63) / 64) =
      chacha20_tier_sequential has_avx2 (chacha20_state key nonce ctr0) ctr0 buffer length
        ((length + 63) / 64) ∧
    chacha20_tier_pairs has_avx2 (chacha20_state key nonce ctr0) ctr0 buffer length
        ((length + 63) / 64) =
      chacha20_tier_sequential has_avx2 (chacha20_state key nonce ctr0) ctr0 buffer length
        ((length + 63) / 64) ∧
    (∀ num_threads, chacha20_encrypt has_avx2 num_threads key nonce ctr0 buffer length =
      chacha20_tier_sequential has_avx2 (chacha20_state key nonce ctr0) ctr0 buffer length
        ((length + 63) / 64)) ∧
    (∀ num_threads h' t', chacha20_encrypt has_avx2 num_threads key nonce ctr0 buffer length =
      chacha20_encrypt h' t' key nonce ctr0 buffer length) := by
  have s4 := tier_sequential_spec has_avx2 (chacha20_state key nonce ctr0) ctr0 hb hlen
  refine ⟨Encrypted_unique (tier_batch_spec has_avx2 _ ctr0 hb hlen) s4,
    Encrypted_unique (tier_parallel_for_spec has_avx2 _ ctr0 hb hlen) s4,
    Encrypted_unique (tier_pairs_spec has_avx2 _ ctr0 hb hlen) s4,
    fun T => Encrypted_unique (chacha20_encrypt_Encrypted has_avx2 T key nonce ctr0 hb hlen) s4,
    fun T h' t' => Encrypted_unique (chacha20_encrypt_Encrypted has_avx2 T key nonce ctr0 hb hlen)
      (chacha20_encrypt_Encrypted h' t' key nonce ctr0 hb hlen)⟩

/-- C15 on a 70-byte buffer. -/
theorem C15_chacha20_tiers_agree_witness :
    bytes_ok (List.replicate 70 9) ∧ 70 ≤ (List.replicate 70 9).length ∧
    (chacha20_tier_batch true (chacha20_state (List.replicate 32 1) (List.replicate 12 2) 5) 5
        (List.replicate 70 9) 70 ((70 + 63) / 64) =
      chacha20_tier_sequential true (chacha20_state (List.replicate 32 1) (List.replicate 12 2) 5)
        5 (List.replicate 70 9) 70 ((70 + 63) / 64) ∧
    chacha20_tier_parallel_for true
        (chacha20_state (List.replicate 32 1) (List.replicate 12 2) 5) 5
        (List.replicate 70 9) 70 ((70 + 63) / 64) =
      chacha20_tier_sequential true (chacha20_state (List.replicate 32 1) (List.replicate 12 2) 5)
        5 (List.replicate 70 9) 70 ((70 + 63) / 64) ∧
    chacha20_tier_pairs true (chacha20_state (List.replicate 32 1) (List.replicate 12 2) 5) 5
        (List.replicate 70 9) 70 ((70 + 63) / 64) =
      chacha20_tier_sequential true (chacha20_state (List.replicate 32 1) (List.replicate 12 2) 5)
        5 (List.replicate 70 9) 70 ((70 + 63) / 64) ∧
    (∀ num_threads, chacha20_encrypt true num_threads (List.replicate 32 1)
        (List.replicate 12 2) 5 (List.replicate 70 9) 70 =
      chacha20_tier_sequential true (chacha20_state (List.replicate 32 1) (List.replicate 12 2) 5)
        5 (List.replicate 70 9) 70 ((70 + 63) / 64)) ∧
    (∀ num_threads h' t', chacha20_encrypt true num_threads (List.replicate 32 1)
        (List.replicate 12 2) 5 (List.replicate 70 9) 70 =
      chacha20_encrypt h' t' (List.replicate 32 1) (List.replicate 12 2) 5
        (List.replicate 70 9) 70)) :=
  ⟨by decide, by decide,
    C15_chacha20_tiers_agree true (List.replicate 32 1) (List.replicate 12 2) 5
      (List.replicate 70 9) 70 (by decide) (by decide)⟩

/-- C20: the block counter wraps modulo 2^32 in every dispatch tier: byte `j`
of block `i = j / 64` is XORed with the keystream of the state whose word 12
is `(ctr0 + i) mod 2^32`; so with `ctr0 = 0xFFFFFFFF` the second block of a
128-byte buffer is XORed with the keystream of counter 0. -/
theorem C20_chacha20_counter_wraps (has_avx2 : Bool) (key nonce : List Nat) (ctr0 : Nat)
    (buffer : List Nat) (length : Nat) (hb : bytes_ok buffer) (hlen : length ≤ buffer.length) :
    (∀ j, j < length →
      (chacha20_tier_batch has_avx2 (chacha20_state key nonce ctr0) ctr0 buffer length
          ((length + 63) / 64)).getD j 0 =
        buffer.getD j 0 ^^^ (chacha20_block
          ((chacha20_state key nonce ctr0).set 12 ((ctr0 + j / 64) % 2 ^ 32))).2.getD (j % 64) 0) ∧
    (∀ j, j < length →
      (chacha20_tier_parallel_for has_avx2 (chacha20_state key nonce ctr0) ctr0 buffer length
          ((length + 63) / 64)).getD j 0 =
        buffer.getD j 0 ^^^ (chacha20_block
          ((chacha20_state key nonce ctr0).set 12 ((ctr0 + j / 64) % 2 ^ 32))).2.getD (j % 64) 0) ∧
    (∀ j, j < length →
      (chacha20_tier_pairs has_avx2 (chacha20_state key nonce ctr0) ctr0 buffer length
          ((length + 63) / 64)).getD j 0 =
        buffer.getD j 0 ^^^ (chacha20_block
          ((chacha20_state key nonce ctr0).set 12 ((ctr0 + j / 64) % 2 ^ 32))).2.getD (j % 64) 0) ∧
    (∀ j, j < length →
      (chacha20_tier_sequential has_avx2 (chacha20_state key nonce ctr0) ctr0 buffer length
          ((length + 63) / 64)).getD j 0 =
        buffer.getD j 0 ^^^ (chacha20_block
          ((chacha20_state key nonce ctr0).set 12 ((ctr0 + j / 64) % 2 ^ 32))).2.getD (j % 64) 0) ∧
    (length = 128 → ∀ num_threads j, 64 ≤ j → j < 128 →
      (chacha20_encrypt has_avx2 num_threads key nonce 0xFFFFFFFF buffer length).getD j 0 =
        buffer.getD j 0 ^^^ (chacha20_block
          ((chacha20_state key nonce 0xFFFFFFFF).set 12 0)).2.getD (j - 64) 0) := by
  refine ⟨fun j hj => Encrypted_getD_lt (tier_batch_spec has_avx2 _ ctr0 hb hlen) hj,
    fun j hj => Encrypted_getD_lt (tier_parallel_for_spec has_avx2 _ ctr0 hb hlen) hj,
    fun j hj => Encrypted_getD_lt (tier_pairs_spec has_avx2 _ ctr0 hb hlen) hj,
    fun j hj => Encrypted_getD_lt (tier_sequential_spec has_avx2 _ ctr0 hb hlen) hj, ?_⟩
  intro h128 T j h1 h2
  have h := Encrypted_getD_lt
    (chacha20_encrypt_Encrypted has_avx2 T key nonce 0xFFFFFFFF hb hlen) (j := j)
    (by omega)
  have e1 : (0xFFFFFFFF + j / 64) % 2 ^ 32 = 0 := by omega
  have e2 : j % 64 = j - 64 := by omega
  rw [e1, e2] at h
  exact h

/-- C20 on 128 zero bytes. -/
theorem C20_chacha20_counter_wraps_witness :
    bytes_ok (List.replicate 128 0) ∧ 128 ≤ (List.replicate 128 0).length ∧
    (128 = 128 → ∀ num_threads j, 64 ≤ j → j < 128 →
      (chacha20_encrypt false num_threads (List.replicate 32 0) (List.replicate 12 0)
          0xFFFFFFFF (List.replicate 128 0) 128).getD j 0 =
        (List.replicate 128 0).getD j 0 ^^^ (chacha20_block
          ((chacha20_state (List.replicate 32 0) (List.replicate 12 0) 0xFFFFFFFF).set 12
            0)).2.getD (j - 64) 0) :=
  ⟨fun b hb => by rw [List.eq_of_mem_replicate hb]; decide,
    Nat.le_of_eq (List.length_replicate 128 0).symm,
    (C20_chacha20_counter_wraps false (List.replicate 32 0) (List.replicate 12 0) 0xFFFFFFFF
      (List.replicate 128 0) 128 (fun b hb => by rw [List.eq_of_mem_replicate hb]; decide)
      (Nat.le_of_eq (List.length_replicate 128 0).symm)).2.2.2.2⟩

/-! ## The XOR helpers -/

/-- Both paths of `optimized_xor_block` XOR the first `n` bytes of the buffer
with the keystream and leave the rest alone. -/
theorem optimized_xor_block_eq (has_avx2 : Bool) {b k : List Nat} {n : Nat} (hb : bytes_ok b)
    (hk : bytes_ok k) (h1 : n ≤ b.length) (h2 : n ≤ k.length) :
    optimized_xor_block has_avx2 b k n = xor_upto b k n := by
  unfold optimized_xor_block
  split
  · next hc =>
    obtain ⟨_, h64⟩ := hc
    subst h64
    simp only []
    have s1 := xor_upto_wide_step (m := 0) (w := 32) hb hk (by omega) (by omega)
    rw [xor_upto_zero] at s1
    have s2 := xor_upto_wide_step (m := 32) (w := 32) hb hk (by omega) (by omega)
    have hz : (List.zipWith (· ^^^ ·) (b.take 32) (k.take 32)).length = 32 := by
      simp only [List.length_zipWith, List.length_take]; omega
    have e : load_at (xor_upto b k 32) 32 32 = load_at b 32 32 := by
      unfold load_at xor_upto
      rw [List.drop_left' hz]
    rw [e] at s2
    rw [s1]
    exact s2
  · have e := simd_xor_block_eq false hb hk h1 h2
    unfold simd_xor_block at e
    rw [if_neg (by simp)] at e
    exact e

/-- C16: for every `n` and byte arrays of at least `n` bytes, `simd_xor_block`
leaves `dst[i] XOR src[i]` in `dst[i]` for every `i < n` and changes nothing
else, on the AVX2 path (32-byte chunks, then bytes) and on the scalar path
(8-byte words, then bytes); the two paths are byte-identical, and
`optimized_xor_block` of merkle.c does the same. -/
theorem C16_xor_block_paths (has_avx2 : Bool) (dst src : List Nat) (n : Nat)
    (hd : bytes_ok dst) (hs : bytes_ok src) (h1 : n ≤ dst.length) (h2 : n ≤ src.length) :
    (simd_xor_block has_avx2 dst src n).length = dst.length ∧
    (∀ i, i < n → (simd_xor_block has_avx2 dst src n).getD i 0 = dst.getD i 0 ^^^ src.getD i 0) ∧
    (∀ i, n ≤ i → (simd_xor_block has_avx2 dst src n).getD i 0 = dst.getD i 0) ∧
    simd_xor_block true dst src n = simd_xor_block false dst src n ∧
    optimized_xor_block has_avx2 dst src n = simd_xor_block has_avx2 dst src n ∧
    optimized_xor_block true dst src n = optimized_xor_block false dst src n := by
  rw [optimized_xor_block_eq has_avx2 hd hs h1 h2, optimized_xor_block_eq true hd hs h1 h2,
    optimized_xor_block_eq false hd hs h1 h2, simd_xor_block_eq has_avx2 hd hs h1 h2,
    simd_xor_block_eq true hd hs h1 h2, simd_xor_block_eq false hd hs h1 h2]
  refine ⟨length_xor_upto h2, fun i hi => ?_, fun i hi => ?_, rfl, rfl, rfl⟩
  · rw [getD_xor_upto h1 h2, if_pos hi]
  · rw [getD_xor_upto h1 h2, if_neg (by omega)]

/-- C16 on a 70-byte buffer of which 67 bytes are XORed. -/
theorem C16_xor_block_paths_witness :
    bytes_ok (List.replicate 70 5) ∧ bytes_ok (List.replicate 67 3) ∧
    67 ≤ (List.replicate 70 5).length ∧ 67 ≤ (List.replicate 67 3).length ∧
    (simd_xor_block true (List.replicate 70 5) (List.replicate 67 3) 67).length =
      (List.replicate 70 5).length ∧
    (∀ i, i < 67 → (simd_xor_block true (List.replicate 70 5) (List.replicate 67 3) 67).getD i 0 =
      (List.replicate 70 5).getD i 0 ^^^ (List.replicate 67 3).getD i 0) ∧
    (∀ i, 67 ≤ i → (simd_xor_block true (List.replicate 70 5) (List.replicate 67 3) 67).getD i 0 =
      (List.replicate 70 5).getD i 0) ∧
    simd_xor_block true (List.replicate 70 5) (List.replicate 67 3) 67 =
      simd_xor_block false (List.replicate 70 5) (List.replicate 67 3) 67 ∧
    optimized_xor_block true (List.replicate 70 5) (List.replicate 67 3) 67 =
      simd_xor_block true (List.replicate 70 5) (List.replicate 67 3) 67 ∧
    optimized_xor_block true (List.replicate 70 5) (List.replicate 67 3) 67 =
      optimized_xor_block false (List.replicate 70 5) (List.replicate 67 3) 67 :=
  ⟨by decide, by decide, by decide, by decide,
    C16_xor_block_paths true (List.replicate 70 5) (List.replicate 67 3) 67 (by decide)
      (by decide) (by decide) (by decide)⟩

/-! ## Commutation of `merge_hash` -/

/-- The 64-bit wrap-around of the code does not change the LCG step. -/
theorem lcg_step_eq (g : Nat) :
    ((LCG_A * g % 2 ^ 64 + LCG_C) % 2 ^ 64) % LCG_M = (1103515245 * g + 12345) % 2 ^ 31 := by
  unfold LCG_A LCG_C LCG_M
  omega

theorem tool_generate_spec (s length : Nat) :
    (tool_generate s length).1 = spec_lcg s length ∧
    (tool_generate s length).2.length = length ∧
    ∀ i, i < length → (tool_generate s length).2.getD i 0 = spec_lcg s (i + 1) % 255 := by
  unfold tool_generate
  have h := for_loop_induction
    (fun n (st : Nat × List Nat) => st.1 = spec_lcg s n ∧ st.2.length = length ∧
      ∀ i, i < n → st.2.getD i 0 = spec_lcg s (i + 1) % 255)
    0 length
    (fun i (st : Nat × List Nat) =>
      let generate_info := ((LCG_A * st.1 % 2 ^ 64 + LCG_C) % 2 ^ 64) % LCG_M
      (generate_info, st.2.set i (generate_info % 255 % 256)))
    (s, List.replicate length 0) (Nat.zero_le _)
    ⟨rfl, List.length_replicate _ _, fun i hi => absurd hi (Nat.not_lt_zero _)⟩
    (by
      rintro n ⟨g, buf⟩ _ hn ⟨h1, h2, h3⟩
      dsimp only at h1 h2 h3 ⊢
      rw [lcg_step_eq, h1]
      refine ⟨rfl, by rw [List.length_set, h2], fun i hi => ?_⟩
      by_cases hin : i = n
      · subst hin
        rw [List.getD_eq_getElem _ _ (by rw [List.length_set, h2]; exact hn),
          List.getElem_set_self]
        have e : spec_lcg s (i + 1) = (1103515245 * spec_lcg s i + 12345) % 2 ^ 31 := rfl
        rw [e]
        omega
      · have hlt : i < n := by omega
        have := h3 i hlt
        rw [List.getD_eq_getElem _ _ (by rw [List.length_set, h2]; omega),
          List.getElem_set_ne (by omega)]
        rw [List.getD_eq_getElem _ _ (by rw [h2]; omega)] at this
        exact this)
  exact h

/-- C19: the generator of tool.c is the stated LCG for every seed `s` (every
64-bit value in particular):
byte `i` of the generated file is `s_{i+1} mod 255` with `s_0 = s` and
`s_{j+1} = (1103515245 * s_j + 12345) mod 2^31` over the integers; the
wrapping 64-bit multiplication and addition never change the value. -/
theorem C19_tool_generate_is_lcg (s length : Nat) :
    (tool_generate s length).2.length = length ∧
    (∀ i, i < length → (tool_generate s length).2.getD i 0 = spec_lcg s (i + 1) % 255) ∧
    (∀ g, ((LCG_A * g % 2 ^ 64 + LCG_C) % 2 ^ 64) % LCG_M =
      (1103515245 * g + 12345) % 2 ^ 31) := by
  have h := tool_generate_spec s length
  exact ⟨h.2.1, h.2.2, fun g => lcg_step_eq g⟩

/-- C19 on the seed `2^64 - 1`, for which the multiplication wraps. -/
theorem C19_tool_generate_is_lcg_witness :
    (tool_generate 18446744073709551615 4).2.length = 4 ∧
    (∀ i, i < 4 → (tool_generate 18446744073709551615 4).2.getD i 0 =
      spec_lcg 18446744073709551615 (i + 1) % 255) ∧
    (∀ g, ((LCG_A * g % 2 ^ 64 + LCG_C) % 2 ^ 64) % LCG_M =
      (1103515245 * g + 12345) % 2 ^ 31) :=
  C19_tool_generate_is_lcg 18446744073709551615 4

/-! ## The verdict of `main` -/

/-- The flag of the comparison loop is `0` or `-1`, and `0` exactly when all
64 bytes agree. -/
theorem main_flag_spec (output result : List Nat) :
    (main_flag output result = 0 ∨ main_flag output result = -1) ∧
    (main_flag output result = 0 ↔ ∀ i, i < 64 → output.getD i 0 = result.getD i 0) := by
  unfold main_flag
  have h := for_loop_induction
    (fun n (flag : Int) => (flag = 0 ∨ flag = -1) ∧
      (flag = 0 ↔ ∀ i, i < n → output.getD i 0 = result.getD i 0))
    0 64 (fun i (flag : Int) => if output.getD i 0 ≠ result.getD i 0 then -1 else flag) 0
    (Nat.zero_le _) ⟨Or.inl rfl, by simp⟩
    (by
      intro n flag _ _ ⟨h1, h2⟩
      dsimp only
      by_cases hne : output.getD n 0 = result.getD n 0
      · rw [if_neg (by simpa using hne)]
        refine ⟨h1, h2.trans ⟨fun h i hi => ?_, fun h i hi => h i (by omega)⟩⟩
        by_cases hin : i = n
        · subst hin; exact hne
        · exact h i (by omega)
      · rw [if_pos hne]
        refine ⟨Or.inr rfl, ⟨fun h => absurd h (by decide), fun h => absurd (h n (by omega)) hne⟩⟩)
  exact h

/-- A 64-byte message is copied by `merkel_tree` whatever the environment, so
`main` does not depend on the environment for a metafile with `Length` 64. -/
theorem main_c_64_env (has_avx2 : Bool) (num_threads : Nat) (env : MerkleEnv) (argc : Nat)
    (m : meta_info) (hm : m.length = 64) (input_file : Option (List Nat)) :
    main_c has_avx2 num_threads env argc (some m) input_file =
      main_c has_avx2 num_threads (env_team 1) argc (some m) input_file := by
  have e : ∀ (e : MerkleEnv) (x : List Nat), merkel_tree has_avx2 num_threads e x 64 =
      if 64 ≤ x.length then some (load_at x 0 64) else none := by
    intro e x
    simp [merkel_tree]
  unfold main_c mercha
  simp only [hm, e]

set_option maxRecDepth 1000000 in
/-- C18: the verdict of `main`.  When the digest differs from the metafile's
`Result` (here in its first byte), `main` prints `Fail this test!` but still
exits with code 0, although every other failure exits with -1; when all bytes
match it prints `Pass this test!` and exits with 0.  This holds in every
environment. -/
theorem C18_main_verdict_exit_code (env : MerkleEnv) :
    main_c true 1 env 2
        (some ⟨64, List.replicate 32 0, List.replicate 12 0, List.replicate 64 0⟩)
        (some (List.replicate 64 0)) = some (some "Fail this test!\n", 0) ∧
    main_c true 1 env 2
        (some ⟨64, List.replicate 32 0, List.replicate 12 0,
          (chacha20_block (spec_state (List.replicate 32 0) (List.replicate 12 0) 0)).2⟩)
        (some (List.replicate 64 0)) = some (some "Pass this test!\n", 0) ∧
    main_c true 1 env 2 none (some (List.replicate 64 0)) = some (none, -1) ∧
    main_c true 1 env 2
        (some ⟨64, List.replicate 32 0, List.replicate 12 0, List.replicate 64 0⟩)
        none = some (none, -1) ∧
    main_c true 1 env 1
        (some ⟨64, List.replicate 32 0, List.replicate 12 0, List.replicate 64 0⟩)
        (some (List.replicate 64 0)) = some (none, -1) := by
  rw [main_c_64_env true 1 env 2 _ rfl, main_c_64_env true 1 env 2 _ rfl,
    main_c_64_env true 1 env 2 _ rfl, main_c_64_env true 1 env 1 _ rfl]
  refine ⟨by decide, by decide, rfl, by decide, by decide⟩

/-! ## Counting the calls of `merge_hash` -/

theorem for_loopM_of_le {σ : Type} {lo hi : Nat} (body : Nat → σ → Option σ) (s : σ)
    (h : hi ≤ lo) : for_loopM lo hi body s = some s := by
  unfold for_loopM
  have e : hi - lo = 0 := by omega
  rw [e]
  rfl

/-- A loop whose body bumps a counter once per iteration bumps it `hi - lo`
times and otherwise runs as the loop without the counter. -/
theorem for_loopM_counted {σ : Type} (body : Nat → σ → Option σ) (lo hi : Nat) (st : σ)
    (c : Nat) :
    for_loopM lo hi (fun i (s : σ × Nat) => (body i s.1).map (fun st => (st, s.2 + 1))) (st, c) =
      (for_loopM lo hi body st).map (fun st' => (st', c + (hi - lo))) := by
  induction hi with
  | zero => simp [for_loopM_of_le]
  | succ n ih =>
    by_cases hn : n + 1 ≤ lo
    · rw [for_loopM_of_le _ _ hn, for_loopM_of_le _ _ hn]
      have e : n + 1 - lo = 0 := by omega
      simp [e]
    · have hle : lo ≤ n := by omega
      rw [for_loopM_succ _ _ _ _ hle, for_loopM_succ _ _ _ _ hle, ih]
      cases for_loopM lo n body st with
      | none => rfl
      | some mid =>
        simp only [Option.map_some', Option.some_bind]
        cases body n mid with
        | none => rfl
        | some v =>
          simp only [Option.map_some']
          have e : c + (n - lo) + 1 = c + (n + 1 - lo) := by omega
          rw [e]

/-- A loop on pairs whose body acts on the first component as `body` does
runs, on the first component, as the loop of `body`. -/
theorem for_loopM_map_fst {σ τ : Type} (body : Nat → σ → Option σ)
    (body' : Nat → σ × τ → Option (σ × τ))
    (hb : ∀ i s, (body' i s).map Prod.fst = body i s.1) (lo hi : Nat) (s : σ × τ) :
    (for_loopM lo hi body' s).map Prod.fst = for_loopM lo hi body s.1 := by
  induction hi with
  | zero => simp [for_loopM_of_le]
  | succ n ih =>
    by_cases hn : n + 1 ≤ lo
    · rw [for_loopM_of_le _ _ hn, for_loopM_of_le _ _ hn]
      rfl
    · have hle : lo ≤ n := by omega
      rw [for_loopM_succ _ _ _ _ hle, for_loopM_succ _ _ _ _ hle, ← ih]
      cases for_loopM lo n body' s with
      | none => rfl
      | some mid =>
        simp only [Option.map_some', Option.some_bind]
        exact hb n mid

theorem while_loopM_map_fst {σ τ : Type} (cond : σ → Bool) (body : σ → Option σ)
    (body' : σ × τ → Option (σ × τ)) (hb : ∀ s, (body' s).map Prod.fst = body s.1)
    (fuel : Nat) (s : σ × τ) :
    (while_loopM (fun (x : σ × τ) => cond x.1) body' fuel s).map Prod.fst =
      while_loopM cond body fuel s.1 := by
  induction fuel generalizing s with
  | zero =>
    unfold while_loopM
    cases cond s.1 <;> simp
  | succ n ih =>
    unfold while_loopM
    cases hc : cond s.1 with
    | false => simp
    | true =>
      simp only [if_true]
      rw [← hb s]
      cases body' s with
      | none => rfl
      | some s' =>
        simp only [Option.map_some', Option.some_bind]
        exact ih s'

/-- A level makes `length / 64` calls of `merge_hash`, on the parallel branch
(the thread ranges add up to `num_blocks`) as on the sequential one, and is
otherwise the level without the counter. -/
theorem merkle_level_counted_eq (has_avx2 : Bool) (num_threads : Nat) (input : List Nat)
    (st : MerkleState) (c : Nat) :
    merkle_level_counted has_avx2 num_threads num_threads input (st, c) =
      (merkle_level has_avx2 num_threads num_threads input st).map (fun st' => (st', c + st.length / 64)) := by
  unfold merkle_level_counted merkle_level
  simp only [Nat.min_self]
  split
  · next hpar =>
    have hp : st.length / 64 ≥ 4 ∧ st.length / 64 / num_threads ≥ 1 := by
      simpa using hpar
    have hT : 0 < num_threads := by
      rcases Nat.eq_zero_or_pos num_threads with h | h
      · rw [h, Nat.div_zero] at hp; omega
      · exact h
    have hmul : num_threads * (st.length / 64 / num_threads) ≤ st.length / 64 :=
      Nat.mul_div_le _ _
    have key : ∀ m, m ≤ num_threads →
        for_loopM 0 m (fun thread_id (s : MerkleState × Nat) =>
          for_loopM (thread_id * (st.length / 64 / num_threads))
            (if thread_id = num_threads - 1 then st.length / 64
              else thread_id * (st.length / 64 / num_threads) + st.length / 64 / num_threads)
            (merkle_block_counted has_avx2 input) s) (st, c) =
        (for_loopM 0 m (fun thread_id st' =>
          for_loopM (thread_id * (st.length / 64 / num_threads))
            (if thread_id = num_threads - 1 then st.length / 64
              else thread_id * (st.length / 64 / num_threads) + st.length / 64 / num_threads)
            (merkle_block has_avx2 input) st') st).map
          (fun st' => (st', c + (if m = num_threads then st.length / 64
            else m * (st.length / 64 / num_threads)))) := by
      intro m
      induction m with
      | zero =>
        intro _
        rw [for_loopM_self, for_loopM_self, if_neg (show ¬ 0 = num_threads by omega)]
        simp
      | succ n ih =>
        intro hn
        rw [for_loopM_succ _ _ _ _ (Nat.zero_le n), for_loopM_succ _ _ _ _ (Nat.zero_le n),
          ih (by omega), if_neg (show ¬ n = num_threads by omega)]
        cases for_loopM 0 n (fun thread_id st' =>
          for_loopM (thread_id * (st.length / 64 / num_threads))
            (if thread_id = num_threads - 1 then st.length / 64
              else thread_id * (st.length / 64 / num_threads) + st.length / 64 / num_threads)
            (merkle_block has_avx2 input) st') st with
        | none => rfl
        | some mid =>
          simp only [Option.map_some', Option.some_bind]
          have hc := for_loopM_counted (merkle_block has_avx2 input)
            (n * (st.length / 64 / num_threads))
            (if n = num_threads - 1 then st.length / 64
              else n * (st.length / 64 / num_threads) + st.length / 64 / num_threads)
            mid (c + n * (st.length / 64 / num_threads))
          unfold merkle_block_counted
          rw [hc]
          have hle : (n + 1) * (st.length / 64 / num_threads) ≤
              num_threads * (st.length / 64 / num_threads) :=
            Nat.mul_le_mul_right _ hn
          have e : (n + 1) * (st.length / 64 / num_threads) =
              n * (st.length / 64 / num_threads) + st.length / 64 / num_threads := by ring
          by_cases hlast : n = num_threads - 1
          · rw [if_pos hlast, if_pos (show n + 1 = num_threads by omega)]
            have e2 : c + n * (st.length / 64 / num_threads) +
                (st.length / 64 - n * (st.length / 64 / num_threads)) =
                c + st.length / 64 := by omega
            rw [e2]
          · rw [if_neg hlast, if_neg (show ¬ n + 1 = num_threads by omega)]
            have e2 : c + n * (st.length / 64 / num_threads) +
                (n * (st.length / 64 / num_threads) + st.length / 64 / num_threads -
                  n * (st.length / 64 / num_threads)) =
                c + (n + 1) * (st.length / 64 / num_threads) := by omega
            rw [e2]
    rw [key num_threads (Nat.le_refl _), if_pos rfl]
    cases for_loopM 0 num_threads (fun thread_id st' =>
      for_loopM (thread_id * (st.length / 64 / num_threads))
        (if thread_id = num_threads - 1 then st.length / 64
          else thread_id * (st.length / 64 / num_threads) + st.length / 64 / num_threads)
        (merkle_block has_avx2 input) st') st with
    | none => rfl
    | some v => rfl
  · have hc := for_loopM_counted (merkle_block has_avx2 input) 0 (st.length / 64) st c
    unfold merkle_block_counted
    rw [hc]
    cases for_loopM 0 (st.length / 64) (merkle_block has_avx2 input) st with
    | none => rfl
    | some v => rfl

/-- A property every step of a loop keeps is kept by the loop. -/
theorem for_loopM_preserves {σ : Type} (P : σ → Prop) (body : Nat → σ → Option σ)
    (hbody : ∀ i s s', body i s = some s' → P s → P s') (lo hi : Nat) (s s' : σ)
    (h : for_loopM lo hi body s = some s') (hP : P s) : P s' := by
  induction hi generalizing s' with
  | zero =>
    rw [for_loopM_of_le _ _ (Nat.zero_le lo)] at h
    cases h
    exact hP
  | succ n ih =>
    by_cases hn : n + 1 ≤ lo
    · rw [for_loopM_of_le _ _ hn] at h
      cases h
      exact hP
    · rw [for_loopM_succ _ _ _ _ (by omega)] at h
      cases hmid : for_loopM lo n body s with
      | none => rw [hmid] at h; cases h
      | some mid =>
        rw [hmid, Option.some_bind] at h
        exact hbody n mid s' h (ih mid hmid)

theorem merkle_block_length {has_avx2 : Bool} {input : List Nat} {i : Nat}
    {st st' : MerkleState} (h : merkle_block has_avx2 input i st = some st') :
    st'.length = st.length := by
  unfold merkle_block at h
  simp only [Option.map_eq_some'] at h
  obtain ⟨out, _, rfl⟩ := h
  exact (st.write_fields _ _).2.2.2

/-- A level halves `length`, whatever team runs it. -/
theorem merkle_level_length {has_avx2 : Bool} {num_threads team : Nat} {input : List Nat}
    {st st' : MerkleState}
    (h : merkle_level has_avx2 num_threads team input st = some st') :
    st'.length = st.length / 2 := by
  have hswap : ∀ x : MerkleState, (merkle_swap x).length = x.length / 2 := by
    intro x
    unfold merkle_swap
    split <;> rfl
  have hblocks : ∀ lo hi (s s' : MerkleState),
      for_loopM lo hi (merkle_block has_avx2 input) s = some s' →
      s.length = st.length → s'.length = st.length :=
    fun lo hi s s' hrun hs =>
      for_loopM_preserves (fun x => x.length = st.length) _
        (fun i a b hab ha => (merkle_block_length hab).trans ha) lo hi s s' hrun hs
  unfold merkle_level at h
  simp only [Option.map_eq_some'] at h
  obtain ⟨x, hx, rfl⟩ := h
  rw [hswap]
  split at hx
  · have := for_loopM_preserves (fun x => x.length = st.length) _
      (fun t a b hab ha => hblocks _ _ a b hab ha) 0 _ st x hx rfl
    rw [this]
  · rw [hblocks _ _ st x hx rfl]

/-- A counted level whose parallel region, if it has one, is granted the whole
team is the counted level run by all `num_threads` threads. -/
theorem merkle_level_counted_full (has_avx2 : Bool) (num_threads team : Nat) (input : List Nat)
    (s : MerkleState × Nat)
    (hteam : merkle_use_parallel (s.1.length / 64) num_threads = true → num_threads ≤ team) :
    merkle_level_counted has_avx2 num_threads team input s =
      merkle_level_counted has_avx2 num_threads num_threads input s := by
  unfold merkle_level_counted
  simp only [Nat.min_self]
  cases hp : merkle_use_parallel (s.1.length / 64) num_threads with
  | true => rw [Nat.min_eq_right (hteam hp)]
  | false =>
    have hp' : (decide (s.1.length / 64 ≥ 4) &&
        decide (s.1.length / 64 / num_threads ≥ 1)) = false := hp
    simp only [hp', Bool.false_eq_true, if_false]

/-- Dropping the counter from a counted level gives the level, whatever team
runs it. -/
theorem merkle_level_counted_fst (has_avx2 : Bool) (num_threads team : Nat) (input : List Nat)
    (s : MerkleState × Nat) :
    (merkle_level_counted has_avx2 num_threads team input s).map Prod.fst =
      merkle_level has_avx2 num_threads team input s.1 := by
  have hb : ∀ i (x : MerkleState × Nat),
      (merkle_block_counted has_avx2 input i x).map Prod.fst =
        merkle_block has_avx2 input i x.1 := by
    intro i x
    unfold merkle_block_counted
    cases merkle_block has_avx2 input i x.1 <;> rfl
  have hr : ∀ lo hi (x : MerkleState × Nat),
      (for_loopM lo hi (merkle_block_counted has_avx2 input) x).map Prod.fst =
        for_loopM lo hi (merkle_block has_avx2 input) x.1 :=
    fun lo hi x => for_loopM_map_fst _ _ hb lo hi x
  unfold merkle_level_counted merkle_level
  simp only [Option.map_map]
  split
  · rw [← for_loopM_map_fst (fun thread_id st' =>
        for_loopM (thread_id * (s.1.length / 64 / num_threads))
          (if thread_id = num_threads - 1 then s.1.length / 64
            else thread_id * (s.1.length / 64 / num_threads) + s.1.length / 64 / num_threads)
          (merkle_block has_avx2 input) st') _ (fun t x => hr _ _ x) 0 _ s, Option.map_map]
    rfl
  · rw [← hr, Option.map_map]
    rfl

/-- Dropping the counter from a counted `while` loop gives the loop itself. -/
theorem while_loopM_counted {σ : Type} (cond : σ → Bool) (body : σ → Option σ) (f : σ → Nat)
    (body' : σ × Nat → Option (σ × Nat))
    (hb : ∀ s c, body' (s, c) = (body s).map (fun s' => (s', c + f s))) (fuel : Nat) (s : σ)
    (c : Nat) :
    (while_loopM (fun (x : σ × Nat) => cond x.1) body' fuel (s, c)).map Prod.fst =
      while_loopM cond body fuel s := by
  induction fuel generalizing s c with
  | zero =>
    unfold while_loopM
    cases cond s <;> simp
  | succ n ih =>
    unfold while_loopM
    cases hc : cond s with
    | false => simp
    | true =>
      simp only [if_true, hb]
      cases body s with
      | none => rfl
      | some s' =>
        simp only [Option.map_some', Option.some_bind]
        exact ih s' _

/-- The counted function computes the output of `merkel_tree`, in every
environment. -/
theorem merkel_tree_counted_fst (has_avx2 : Bool) (num_threads : Nat) (env : MerkleEnv)
    (input : List Nat) (length : Nat) :
    (merkel_tree_counted has_avx2 num_threads env input length).map Prod.fst =
      merkel_tree has_avx2 num_threads env input length := by
  unfold merkel_tree_counted merkel_tree
  split
  · split <;> rfl
  · simp only []
    rw [← while_loopM_map_fst (fun st => decide (st.length ≥ 64))
      (fun st => merkle_level has_avx2 num_threads (env.team st.length) input st)
      (fun s => merkle_level_counted has_avx2 num_threads (env.team s.1.length) input s)
      (fun s => merkle_level_counted_fst has_avx2 num_threads _ input s) length
      (({ buf1 := (List.range length).map (fun j => env.scratch1 j % 256),
          buf2 := (List.range length).map (fun j => env.scratch2 j % 256),
          prev_buf := BufId.buf1, cur_buf := BufId.buf2, first_iteration := true,
          length := length / 2 } : MerkleState), 0)]
    cases while_loopM (fun (x : MerkleState × Nat) => decide (x.1.length ≥ 64))
      (fun s => merkle_level_counted has_avx2 num_threads (env.team s.1.length) input s) length
      ({ buf1 := (List.range length).map (fun j => env.scratch1 j % 256),
         buf2 := (List.range length).map (fun j => env.scratch2 j % 256),
         prev_buf := BufId.buf1, cur_buf := BufId.buf2, first_iteration := true,
         length := length / 2 }, 0) with
    | none => rfl
    | some v =>
      simp only [Option.map_some', Option.some_bind]
      split <;> rfl

/-- The number of `merge_hash` calls on `2^k` blocks, `k >= 1`, when every
parallel region is granted its whole team. -/
theorem merkel_tree_counted_snd (has_avx2 : Bool) (num_threads : Nat) (env : MerkleEnv)
    {k : Nat} {input : List Nat} (hteam : full_team num_threads env input.length)
    (hk : 1 ≤ k) (hlen : input.length = 64 * 2 ^ k) :
    (merkel_tree_counted has_avx2 num_threads env input input.length).map Prod.snd =
      some (2 ^ k - 1) := by
  have hk2 : 2 ≤ 2 ^ k := by
    calc 2 = 2 ^ 1 := by norm_num
      _ ≤ 2 ^ k := Nat.pow_le_pow_right (by decide) hk
  unfold merkel_tree_counted
  rw [if_neg (by omega)]
  simp only []
  have h0 : MerkleInv has_avx2 input k
      { buf1 := (List.range input.length).map (fun j => env.scratch1 j % 256),
        buf2 := (List.range input.length).map (fun j => env.scratch2 j % 256),
        prev_buf := BufId.buf1, cur_buf := BufId.buf2, first_iteration := true,
        length := input.length / 2 } := by
    refine ⟨k, Nat.le_refl _, by simp only []; omega, ?_, fun _ => rfl,
      fun h => absurd h (Nat.lt_irrefl _), ?_, ?_⟩
    · intro p
      cases p <;> simp [MerkleState.mem, hlen]
    · simp [MerkleState.source, hlen]
    · simp [MerkleState.source, spec_level, ← hlen]
  obtain ⟨s', hrun, ⟨hI, hcnt⟩, hexit⟩ := while_loopM_induction
    (fun (s : MerkleState × Nat) => MerkleInv has_avx2 input k s.1 ∧
      s.2 + s.1.length / 32 = 2 ^ k)
    (fun s => s.1.length) (fun (s : MerkleState × Nat) => decide (s.1.length ≥ 64))
    (fun s => merkle_level_counted has_avx2 num_threads (env.team s.1.length) input s)
    (by
      rintro ⟨st, c⟩ ⟨hI, hc⟩ hcond
      dsimp only at hI hc hcond ⊢
      have h64 : 64 ≤ st.length := by simpa using hcond
      obtain ⟨st', hlev, hI', hlt⟩ :=
        merkle_level_inv has_avx2 num_threads input k st hI h64
      have hl := merkle_level_length hlev
      refine ⟨(st', c + st.length / 64), ?_, ⟨hI', ?_⟩, hlt⟩
      · rw [merkle_level_counted_full has_avx2 num_threads _ input (st, c)
          (hteam st.length (MerkleInv_length_le hI hlen)), merkle_level_counted_eq, hlev]
        rfl
      · obtain ⟨r, _, hr, _⟩ := hI
        have hr0 : r ≠ 0 := by
          intro h0
          rw [h0] at hr
          simp at hr
          omega
        obtain ⟨r', rfl⟩ := Nat.exists_eq_succ_of_ne_zero hr0
        rw [Nat.pow_succ] at hr
        dsimp only
        omega)
    input.length
    (({ buf1 := (List.range input.length).map (fun j => env.scratch1 j % 256),
        buf2 := (List.range input.length).map (fun j => env.scratch2 j % 256),
        prev_buf := BufId.buf1, cur_buf := BufId.buf2, first_iteration := true,
        length := input.length / 2 } : MerkleState), 0)
    ⟨h0, by dsimp only; omega⟩ (by dsimp only; omega)
  rw [hrun]
  obtain ⟨r, _, hl, hmem, _⟩ := hI
  have hlt : s'.1.length < 64 := by simpa using hexit
  have hr0 : r = 0 := by
    rcases Nat.eq_zero_or_pos r with h | h
    · exact h
    · have : 2 ^ 1 ≤ 2 ^ r := Nat.pow_le_pow_right (by decide) h
      omega
  subst hr0
  simp only [Option.some_bind]
  rw [if_pos (by rw [hmem]; omega)]
  simp only [Option.map_some']
  congr 1
  simp at hl
  omega

/-- When every parallel region is granted its whole team, `merkel_tree` on
`L = 64 * 2^k` bytes, `k >= 1`, applies `merge_hash` exactly `L / 64 - 1`
times over all levels, on the parallel and on the sequential branch; with
`L = 64` it applies it zero times. -/
theorem merkel_tree_call_count_full_team (has_avx2 : Bool) (num_threads : Nat)
    (env : MerkleEnv) (k : Nat) (input : List Nat)
    (hteam : full_team num_threads env input.length)
    (hk : 1 ≤ k) (hlen : input.length = 64 * 2 ^ k) :
    (merkel_tree_counted has_avx2 num_threads env input input.length).map Prod.snd =
      some (input.length / 64 - 1) ∧
    (∀ x : List Nat, x.length = 64 →
      (merkel_tree_counted has_avx2 num_threads env x 64).map Prod.snd = some 0) := by
  refine ⟨?_, ?_⟩
  · rw [merkel_tree_counted_snd has_avx2 num_threads env hteam hk hlen, hlen]
    have e : 64 * 2 ^ k / 64 = 2 ^ k := by omega
    rw [e]
  · intro x hx
    unfold merkel_tree_counted
    rw [if_pos rfl, if_pos (by omega)]
    rfl

set_option maxRecDepth 10000000 in
/-- C14: the number of `merge_hash` calls is not `L / 64 - 1` when a parallel
region is granted fewer threads than it asks for.  On the 1024-byte input
with byte `i` equal to `(7 * i + 3) mod 256`, with
`omp_get_max_threads() = 4` and teams of two threads, `merkel_tree` makes
`4 + 2 + 2 + 1 = 9` calls instead of `1024 / 64 - 1 = 15`; with the whole
team it makes 15. -/
theorem C14_merkel_tree_short_team_call_count :
    (merkel_tree_counted true 4 (env_team 2)
      ((List.range 1024).map (fun i => (7 * i + 3) % 256)) 1024).map Prod.snd = some 9 ∧
    (merkel_tree_counted true 4 (env_team 2)
      ((List.range 1024).map (fun i => (7 * i + 3) % 256)) 1024).map Prod.snd ≠
        some (1024 / 64 - 1) ∧
    (merkel_tree_counted true 4 (env_team 4)
      ((List.range 1024).map (fun i => (7 * i + 3) % 256)) 1024).map Prod.snd =
        some (1024 / 64 - 1) := by
  decide

/-! ## Structure of `merge_hash`: seed symmetry and unmixed words -/

theorem le_load_le_store4 (v : Nat) : le_load (le_store 4 v) = v % 2 ^ 32 := by
  simp only [le_store, le_load]
  omega

theorem words_bytes_cons (w : Nat) (ws : List Nat) :
    words_bytes (w :: ws) = le_store 4 w ++ words_bytes ws := rfl

/-- Word `i` of the memory image of a word array. -/
theorem load_at_words_bytes (ws : List Nat) {i : Nat} (h : i < ws.length) :
    load_at (words_bytes ws) (4 * i) 4 = le_store 4 (ws.getD i 0) := by
  induction ws generalizing i with
  | nil => simp at h
  | cons w ws ih =>
    rw [words_bytes_cons]
    cases i with
    | zero =>
      rw [load_at_append_left (by rw [length_le_store])]
      simp [load_at, List.take_of_length_le (Nat.le_of_eq (length_le_store 4 w))]
    | succ j =>
      have e : 4 * (j + 1) = (le_store 4 w).length + 4 * j := by rw [length_le_store]; ring
      rw [e, load_at_append_right, ih (by simpa using h)]
      simp

theorem le_words_getD (b : List Nat) {n i : Nat} (h : i < n) :
    (le_words b n).getD i 0 = le_load (load_at b (4 * i) 4) := by
  simp [le_words, load_at, h]

theorem le_words_lt {b : List Nat} (hb : bytes_ok b) (n i : Nat) :
    (le_words b n).getD i 0 < 2 ^ 32 := by
  by_cases h : i < n
  · rw [le_words_getD b h]
    have h1 := bytes_ok_load_at hb (4 * i) 4
    have h2 : (load_at b (4 * i) 4).length ≤ 4 := by simp [load_at]
    generalize load_at b (4 * i) 4 = l at h1 h2
    match l, h1, h2 with
    | [], _, _ => simp [le_load]
    | [a], h1, _ =>
      have := h1 a (by simp); simp only [le_load]; omega
    | [a, b], h1, _ =>
      have := h1 a (by simp); have := h1 b (by simp); simp only [le_load]; omega
    | [a, b, c], h1, _ =>
      have := h1 a (by simp); have := h1 b (by simp); have := h1 c (by simp)
      simp only [le_load]; omega
    | [a, b, c, d], h1, _ =>
      have := h1 a (by simp); have := h1 b (by simp); have := h1 c (by simp)
      have := h1 d (by simp)
      simp only [le_load]; omega
    | _ :: _ :: _ :: _ :: _ :: _, _, h2 => simp at h2
  · rw [List.getD_eq_default _ _ (by simp [le_words]; omega)]
    decide


theorem HASH_ROUND_s12 (r : SRegs) : (HASH_ROUND r).s12 = r.s12 := rfl
theorem HASH_ROUND_s13 (r : SRegs) : (HASH_ROUND r).s13 = r.s13 := rfl
theorem HASH_ROUND_s14 (r : SRegs) : (HASH_ROUND r).s14 = r.s14 := rfl
theorem HASH_ROUND_s15 (r : SRegs) : (HASH_ROUND r).s15 = r.s15 := rfl

theorem HASH_ROUND_iterate_high (n : Nat) (r : SRegs) :
    (HASH_ROUND^[n] r).s12 = r.s12 ∧ (HASH_ROUND^[n] r).s13 = r.s13 ∧
    (HASH_ROUND^[n] r).s14 = r.s14 ∧ (HASH_ROUND^[n] r).s15 = r.s15 := by
  induction n generalizing r with
  | zero => exact ⟨rfl, rfl, rfl, rfl⟩
  | succ n ih =>
    rw [Function.iterate_succ_apply]
    obtain ⟨a, b, c, d⟩ := ih (HASH_ROUND r)
    exact ⟨a, b, c, d⟩

/-- Both paths of `merge_hash` on byte blocks: seed, rounds (ten with AVX2,
nine without), final addition, serialisation. -/
theorem merge_hash_bytes_eq (has_avx2 : Bool) {b1 b2 : List Nat} (h1 : bytes_ok b1)
    (h2 : bytes_ok b2) (l1 : 32 ≤ b1.length) (l2 : 32 ≤ b2.length) :
    merge_hash_bytes has_avx2 b1 b2 =
      words_bytes (merge_hash_final (HASH_ROUND^[merge_hash_rounds has_avx2]
        (merge_hash_seed (le_words b1 8) (le_words b2 8)))).toList := by
  cases has_avx2
  · exact merge_hash_scalar_eq b1 b2
  · show merge_hash_avx2 b1 b2 = _
    unfold merge_hash_avx2
    simp only []
    rw [le_store_le_load_at h1 (by omega), le_store_le_load_at h2 (by omega),
      load_words8_load_at, load_words8_load_at, load_words8_eq_le_words, load_words8_eq_le_words,
      copy_two_lanes (words_bytes_toList_bytes_ok _) (words_bytes_toList_length _)]
    rfl

/-- Words 12..15 of the memory image of the registers. -/
theorem le_words_out_high (r : SRegs) :
    (le_words (words_bytes r.toList) 16).getD 12 0 = r.s12 % 2 ^ 32 ∧
    (le_words (words_bytes r.toList) 16).getD 13 0 = r.s13 % 2 ^ 32 ∧
    (le_words (words_bytes r.toList) 16).getD 14 0 = r.s14 % 2 ^ 32 ∧
    (le_words (words_bytes r.toList) 16).getD 15 0 = r.s15 % 2 ^ 32 := by
  have hl : r.toList.length = 16 := rfl
  refine ⟨?_, ?_, ?_, ?_⟩
  · rw [le_words_getD _ (by omega), load_at_words_bytes _ (by omega), le_load_le_store4]; rfl
  · rw [le_words_getD _ (by omega), load_at_words_bytes _ (by omega), le_load_le_store4]; rfl
  · rw [le_words_getD _ (by omega), load_at_words_bytes _ (by omega), le_load_le_store4]; rfl
  · rw [le_words_getD _ (by omega), load_at_words_bytes _ (by omega), le_load_le_store4]; rfl

theorem xor_words_lt {a b : List Nat} (ha : bytes_ok a) (hb : bytes_ok b) (i j : Nat) :
    (le_words a 8).getD i 0 ^^^ (le_words b 8).getD j 0 < 2 ^ 32 :=
  Nat.xor_lt_two_pow (le_words_lt ha 8 i) (le_words_lt hb 8 j)

/-- Words 12..15 of the output of `merge_hash` on both paths. -/
theorem merge_hash_bytes_high (has_avx2 : Bool) {b1 b2 : List Nat} (h1 : bytes_ok b1)
    (h2 : bytes_ok b2) (l1 : 32 ≤ b1.length) (l2 : 32 ≤ b2.length) :
    (le_words (merge_hash_bytes has_avx2 b1 b2) 16).getD 12 0 =
      (le_words b2 8).getD 4 0 ^^^ (le_words b1 8).getD 3 0 ∧
    (le_words (merge_hash_bytes has_avx2 b1 b2) 16).getD 13 0 =
      (le_words b2 8).getD 5 0 ^^^ (le_words b1 8).getD 2 0 ∧
    (le_words (merge_hash_bytes has_avx2 b1 b2) 16).getD 14 0 =
      (le_words b2 8).getD 6 0 ^^^ (le_words b1 8).getD 1 0 ∧
    (le_words (merge_hash_bytes has_avx2 b1 b2) 16).getD 15 0 =
      (le_words b2 8).getD 7 0 ^^^ (le_words b1 8).getD 0 0 := by
  rw [merge_hash_bytes_eq has_avx2 h1 h2 l1 l2]
  obtain ⟨e12, e13, e14, e15⟩ := le_words_out_high (merge_hash_final
    (HASH_ROUND^[merge_hash_rounds has_avx2] (merge_hash_seed (le_words b1 8) (le_words b2 8))))
  obtain ⟨r12, r13, r14, r15⟩ := HASH_ROUND_iterate_high (merge_hash_rounds has_avx2)
    (merge_hash_seed (le_words b1 8) (le_words b2 8))
  have f12 : ∀ r : SRegs, (merge_hash_final r).s12 = r.s12 := fun _ => rfl
  have f13 : ∀ r : SRegs, (merge_hash_final r).s13 = r.s13 := fun _ => rfl
  have f14 : ∀ r : SRegs, (merge_hash_final r).s14 = r.s14 := fun _ => rfl
  have f15 : ∀ r : SRegs, (merge_hash_final r).s15 = r.s15 := fun _ => rfl
  rw [e12, e13, e14, e15, f12, f13, f14, f15, r12, r13, r14, r15]
  exact ⟨Nat.mod_eq_of_lt (xor_words_lt h2 h1 4 3), Nat.mod_eq_of_lt (xor_words_lt h2 h1 5 2),
    Nat.mod_eq_of_lt (xor_words_lt h2 h1 6 1), Nat.mod_eq_of_lt (xor_words_lt h2 h1 7 0)⟩

/-- C27: for all 64-byte blocks and on both paths, output words 12, 13, 14, 15
of `merge_hash` (bytes 48..63) are `w2[4] ^ w1[3]`, `w2[5] ^ w1[2]`,
`w2[6] ^ w1[1]`, `w2[7] ^ w1[0]`: no round and no finalisation step writes
`s12..s15`. -/
theorem C27_merge_hash_high_words_unmixed (has_avx2 : Bool) (block1 block2 : List Nat)
    (h1 : bytes_ok block1) (h2 : bytes_ok block2) (l1 : block1.length = 64)
    (l2 : block2.length = 64) :
    (∀ r : SRegs, (HASH_ROUND r).s12 = r.s12 ∧ (HASH_ROUND r).s13 = r.s13 ∧
      (HASH_ROUND r).s14 = r.s14 ∧ (HASH_ROUND r).s15 = r.s15 ∧
      (merge_hash_final r).s12 = r.s12 ∧ (merge_hash_final r).s13 = r.s13 ∧
      (merge_hash_final r).s14 = r.s14 ∧ (merge_hash_final r).s15 = r.s15) ∧
    (le_words (merge_hash_bytes has_avx2 block1 block2) 16).getD 12 0 =
      (le_words block2 8).getD 4 0 ^^^ (le_words block1 8).getD 3 0 ∧
    (le_words (merge_hash_bytes has_avx2 block1 block2) 16).getD 13 0 =
      (le_words block2 8).getD 5 0 ^^^ (le_words block1 8).getD 2 0 ∧
    (le_words (merge_hash_bytes has_avx2 block1 block2) 16).getD 14 0 =
      (le_words block2 8).getD 6 0 ^^^ (le_words block1 8).getD 1 0 ∧
    (le_words (merge_hash_bytes has_avx2 block1 block2) 16).getD 15 0 =
      (le_words block2 8).getD 7 0 ^^^ (le_words block1 8).getD 0 0 ∧
    load_at (merge_hash_bytes has_avx2 block1 block2) 48 16 =
      words_bytes [(le_words block2 8).getD 4 0 ^^^ (le_words block1 8).getD 3 0,
        (le_words block2 8).getD 5 0 ^^^ (le_words block1 8).getD 2 0,
        (le_words block2 8).getD 6 0 ^^^ (le_words block1 8).getD 1 0,
        (le_words block2 8).getD 7 0 ^^^ (le_words block1 8).getD 0 0] := by
  obtain ⟨a, b, c, d⟩ := merge_hash_bytes_high has_avx2 h1 h2 (by omega) (by omega)
  refine ⟨fun r => ⟨rfl, rfl, rfl, rfl, rfl, rfl, rfl, rfl⟩, a, b, c, d, ?_⟩
  rw [merge_hash_bytes_eq has_avx2 h1 h2 (by omega) (by omega)]
  obtain ⟨r12, r13, r14, r15⟩ := HASH_ROUND_iterate_high (merge_hash_rounds has_avx2)
    (merge_hash_seed (le_words block1 8) (le_words block2 8))
  generalize HASH_ROUND^[merge_hash_rounds has_avx2]
    (merge_hash_seed (le_words block1 8) (le_words block2 8)) = r at r12 r13 r14 r15
  have e : load_at (words_bytes (merge_hash_final r).toList) 48 16 =
      words_bytes [r.s12, r.s13, r.s14, r.s15] := by
    simp [words_bytes, SRegs.toList, merge_hash_final, load_at, le_store]
  rw [e, r12, r13, r14, r15]
  rfl

/-- C27 on the blocks `01 02 .. 40` and `80 81 .. bf`, scalar path. -/
theorem C27_merge_hash_high_words_unmixed_witness :
    (le_words (merge_hash_bytes false ((List.range 64).map (· + 1))
      ((List.range 64).map (· + 128))) 16).getD 12 0 =
      (le_words ((List.range 64).map (· + 128)) 8).getD 4 0 ^^^
        (le_words ((List.range 64).map (· + 1)) 8).getD 3 0 :=
  (C27_merge_hash_high_words_unmixed false ((List.range 64).map (· + 1))
    ((List.range 64).map (· + 128)) (by decide) (by decide) (by decide) (by decide)).2.1

theorem load_at_store_at_same {buf bytes : List Nat} {off : Nat}
    (h : off + bytes.length ≤ buf.length) :
    load_at (store_at buf off bytes) off bytes.length = bytes := by
  have ht : (buf.take off).length = off := by simp only [List.length_take]; omega
  unfold load_at store_at
  rw [List.append_assoc, List.drop_left' ht, List.take_left' rfl]

theorem load_at_store_at_disjoint {buf bytes : List Nat} {off o n : Nat}
    (h : off + bytes.length ≤ buf.length) (hd : o + n ≤ off ∨ off + bytes.length ≤ o) :
    load_at (store_at buf off bytes) o n = load_at buf o n := by
  apply list_ext_getD
  · simp only [load_at, List.length_take, List.length_drop, length_store_at h]
  · intro j hj
    have hj' : j < n := by
      simp only [load_at, List.length_take] at hj; omega
    unfold load_at
    rw [getD_take_of_lt hj', getD_take_of_lt hj', getD_drop', getD_drop', getD_store_at h,
      if_neg (by omega)]

theorem length_xor_word {b : List Nat} {i : Nat} (d : Nat) (h : 4 * i + 4 ≤ b.length) :
    (xor_word b i d).length = b.length :=
  length_store_at (by rw [length_le_store]; exact h)

theorem bytes_ok_xor_word {b : List Nat} (hb : bytes_ok b) (i d : Nat) :
    bytes_ok (xor_word b i d) :=
  bytes_ok_store_at _ hb (bytes_ok_le_store _ _)

/-- The words of a block after `d` was XORed into word `i`. -/
theorem le_words_xor_word {b : List Nat} (hb : bytes_ok b) {i d j : Nat}
    (h : 4 * i + 4 ≤ b.length) (hd : d < 2 ^ 32) (hj : j < 8) :
    (le_words (xor_word b i d) 8).getD j 0 =
      if j = i then (le_words b 8).getD j 0 ^^^ d else (le_words b 8).getD j 0 := by
  have hs : 4 * i + (le_store 4 (le_load (load_at b (4 * i) 4) ^^^ d)).length ≤ b.length := by
    rw [length_le_store]; exact h
  rw [le_words_getD _ hj, le_words_getD _ hj]
  by_cases e : j = i
  · subst e
    rw [if_pos rfl]
    have := load_at_store_at_same hs
    rw [length_le_store] at this
    unfold xor_word
    rw [this, le_load_le_store4]
    have hw := le_words_lt hb 8 j
    rw [le_words_getD _ hj] at hw
    exact Nat.mod_eq_of_lt (Nat.xor_lt_two_pow hw hd)
  · rw [if_neg e]
    unfold xor_word
    rw [load_at_store_at_disjoint hs (by rw [length_le_store]; omega)]

theorem xor_cancel_both (a b d : Nat) : (a ^^^ d) ^^^ (b ^^^ d) = a ^^^ b := by
  rw [Nat.xor_assoc, Nat.xor_comm b d, ← Nat.xor_assoc d, Nat.xor_self, Nat.zero_xor]

/-- The seeded registers are determined by the eight seed words: `s_{i+8} = s_{7-i}`. -/
theorem merge_hash_seed_eq (w1 w2 : List Nat) :
    merge_hash_seed w1 w2 =
      { s0 := (seed_words w1 w2).getD 0 0, s1 := (seed_words w1 w2).getD 1 0,
        s2 := (seed_words w1 w2).getD 2 0, s3 := (seed_words w1 w2).getD 3 0,
        s4 := (seed_words w1 w2).getD 4 0, s5 := (seed_words w1 w2).getD 5 0,
        s6 := (seed_words w1 w2).getD 6 0, s7 := (seed_words w1 w2).getD 7 0,
        s8 := (seed_words w1 w2).getD 7 0, s9 := (seed_words w1 w2).getD 6 0,
        s10 := (seed_words w1 w2).getD 5 0, s11 := (seed_words w1 w2).getD 4 0,
        s12 := (seed_words w1 w2).getD 3 0, s13 := (seed_words w1 w2).getD 2 0,
        s14 := (seed_words w1 w2).getD 1 0, s15 := (seed_words w1 w2).getD 0 0 } := by
  have e : ∀ i, i < 8 → (seed_words w1 w2).getD i 0 = w1.getD i 0 ^^^ w2.getD (7 - i) 0 := by
    intro i hi
    simp [seed_words, hi]
  rw [e 0 (by omega), e 1 (by omega), e 2 (by omega), e 3 (by omega), e 4 (by omega),
    e 5 (by omega), e 6 (by omega), e 7 (by omega)]
  unfold merge_hash_seed
  rw [Nat.xor_comm (w2.getD 0 0), Nat.xor_comm (w2.getD 1 0), Nat.xor_comm (w2.getD 2 0),
    Nat.xor_comm (w2.getD 3 0), Nat.xor_comm (w2.getD 4 0), Nat.xor_comm (w2.getD 5 0),
    Nat.xor_comm (w2.getD 6 0), Nat.xor_comm (w2.getD 7 0)]

/-- Both paths of `merge_hash` as a function of the eight seed words. -/
theorem merge_hash_bytes_from_seed (has_avx2 : Bool) {b1 b2 : List Nat} (h1 : bytes_ok b1)
    (h2 : bytes_ok b2) (l1 : 32 ≤ b1.length) (l2 : 32 ≤ b2.length) :
    merge_hash_bytes has_avx2 b1 b2 =
      merge_hash_from_seed has_avx2 (seed_words (le_words b1 8) (le_words b2 8)) := by
  rw [merge_hash_bytes_eq has_avx2 h1 h2 l1 l2, merge_hash_seed_eq]
  rfl

/-- XORing `d` into word `i` of the first block and word `7 - i` of the second
leaves the seed words unchanged. -/
theorem seed_words_xor_word {b1 b2 : List Nat} (h1 : bytes_ok b1) (h2 : bytes_ok b2)
    (l1 : 32 ≤ b1.length) (l2 : 32 ≤ b2.length) {i d : Nat} (hi : i < 8) (hd : d < 2 ^ 32) :
    seed_words (le_words (xor_word b1 i d) 8) (le_words (xor_word b2 (7 - i) d) 8) =
      seed_words (le_words b1 8) (le_words b2 8) := by
  unfold seed_words
  refine List.map_congr_left (fun j hj => ?_)
  have hj' : j < 8 := List.mem_range.1 hj
  rw [le_words_xor_word h1 (by omega) hd hj', le_words_xor_word h2 (by omega) hd
    (show 7 - j < 8 by omega)]
  by_cases e : j = i
  · subst e
    rw [if_pos rfl, if_pos rfl, xor_cancel_both]
  · rw [if_neg e, if_neg (by omega)]

/-- C24: `merge_hash` has 256 bits of effective input.  On both paths and for
all 64-byte blocks the seeded registers satisfy `s_{i+8} = s_{7-i}`, the output
is a function of the eight words `w1[i] ^ w2[7-i]` alone, and XORing any 32-bit
`d` into word `i` of block1 and word `7-i` of block2 leaves the output
unchanged. -/
theorem C24_merge_hash_effective_input (has_avx2 : Bool) (block1 block2 : List Nat)
    (h1 : bytes_ok block1) (h2 : bytes_ok block2) (l1 : block1.length = 64)
    (l2 : block2.length = 64) :
    (∀ i, i < 8 →
      (merge_hash_seed (le_words block1 8) (le_words block2 8)).toList.getD (i + 8) 0 =
      (merge_hash_seed (le_words block1 8) (le_words block2 8)).toList.getD (7 - i) 0) ∧
    merge_hash_bytes has_avx2 block1 block2 =
      merge_hash_from_seed has_avx2 (seed_words (le_words block1 8) (le_words block2 8)) ∧
    (∀ c1 c2 : List Nat, bytes_ok c1 → bytes_ok c2 → c1.length = 64 → c2.length = 64 →
      seed_words (le_words c1 8) (le_words c2 8) =
        seed_words (le_words block1 8) (le_words block2 8) →
      merge_hash_bytes has_avx2 c1 c2 = merge_hash_bytes has_avx2 block1 block2) ∧
    (∀ i d, i < 8 → d < 2 ^ 32 →
      bytes_ok (xor_word block1 i d) ∧ bytes_ok (xor_word block2 (7 - i) d) ∧
      (le_words (xor_word block1 i d) 8).getD i 0 = (le_words block1 8).getD i 0 ^^^ d ∧
      (le_words (xor_word block2 (7 - i) d) 8).getD (7 - i) 0 =
        (le_words block2 8).getD (7 - i) 0 ^^^ d ∧
      merge_hash_bytes has_avx2 (xor_word block1 i d) (xor_word block2 (7 - i) d) =
        merge_hash_bytes has_avx2 block1 block2) := by
  refine ⟨?_, merge_hash_bytes_from_seed has_avx2 h1 h2 (by omega) (by omega), ?_, ?_⟩
  · intro i hi
    rw [merge_hash_seed_eq]
    have : i = 0 ∨ i = 1 ∨ i = 2 ∨ i = 3 ∨ i = 4 ∨ i = 5 ∨ i = 6 ∨ i = 7 := by omega
    rcases this with e | e | e | e | e | e | e | e <;> subst e <;> rfl
  · intro c1 c2 hc1 hc2 m1 m2 hs
    rw [merge_hash_bytes_from_seed has_avx2 hc1 hc2 (by omega) (by omega), hs,
      merge_hash_bytes_from_seed has_avx2 h1 h2 (by omega) (by omega)]
  · intro i d hi hd
    have e1 := le_words_xor_word h1 (i := i) (d := d) (j := i) (by omega) hd hi
    have e2 := le_words_xor_word h2 (i := 7 - i) (d := d) (j := 7 - i) (by omega) hd (by omega)
    rw [if_pos rfl] at e1 e2
    refine ⟨bytes_ok_xor_word h1 _ _, bytes_ok_xor_word h2 _ _, e1, e2, ?_⟩
    rw [merge_hash_bytes_from_seed has_avx2 (bytes_ok_xor_word h1 _ _)
        (bytes_ok_xor_word h2 _ _) (by rw [length_xor_word _ (by omega)]; omega)
        (by rw [length_xor_word _ (by omega)]; omega),
      seed_words_xor_word h1 h2 (by omega) (by omega) hi hd,
      merge_hash_bytes_from_seed has_avx2 h1 h2 (by omega) (by omega)]

/-- C24 on the blocks `01 02 .. 40` and `80 81 .. bf`, AVX2 path, `d = 0xdeadbeef`
XORed into word 2 of the first and word 5 of the second. -/
theorem C24_merge_hash_effective_input_witness :
    merge_hash_bytes true (xor_word ((List.range 64).map (· + 1)) 2 0xdeadbeef)
      (xor_word ((List.range 64).map (· + 128)) (7 - 2) 0xdeadbeef) =
      merge_hash_bytes true ((List.range 64).map (· + 1)) ((List.range 64).map (· + 128)) :=
  ((C24_merge_hash_effective_input true ((List.range 64).map (· + 1))
    ((List.range 64).map (· + 128)) (by decide) (by decide) (by decide) (by decide)).2.2.2
    2 0xdeadbeef (by decide) (by decide)).2.2.2.2

/-- The seed words of `(a, b)` and of `(b, a)` agree exactly when the seed
words of `(a, b)` read the same in both directions. -/
theorem seed_words_swap {wa wb : List Nat}
    (h : ∀ i, i < 4 → wa.getD i 0 ^^^ wb.getD (7 - i) 0 = wa.getD (7 - i) 0 ^^^ wb.getD i 0) :
    seed_words wa wb = seed_words wb wa := by
  unfold seed_words
  refine List.map_congr_left (fun j hj => ?_)
  have hj' : j < 8 := List.mem_range.1 hj
  by_cases c : j < 4
  · rw [h j c, Nat.xor_comm]
  · have := h (7 - j) (by omega)
    have e : 7 - (7 - j) = j := by omega
    rw [e] at this
    rw [← this, Nat.xor_comm]

/-- C26: for all 64-byte blocks `a`, `b` with first eight little-endian words
`wa`, `wb`, on both paths, `merge_hash(a, b) = merge_hash(b, a)` if and only if
`wa[i] ^ wb[7-i] = wa[7-i] ^ wb[i]` for `i = 0, 1, 2, 3`. -/
theorem C26_merge_hash_commutes_iff (has_avx2 : Bool) (a b : List Nat) (ha : bytes_ok a)
    (hb : bytes_ok b) (la : a.length = 64) (lb : b.length = 64) :
    merge_hash_bytes has_avx2 a b = merge_hash_bytes has_avx2 b a ↔
      ∀ i, i < 4 → (le_words a 8).getD i 0 ^^^ (le_words b 8).getD (7 - i) 0 =
        (le_words a 8).getD (7 - i) 0 ^^^ (le_words b 8).getD i 0 := by
  constructor
  · intro h i hi
    obtain ⟨p12, p13, p14, p15⟩ := merge_hash_bytes_high has_avx2 ha hb (by omega) (by omega)
    obtain ⟨q12, q13, q14, q15⟩ := merge_hash_bytes_high has_avx2 hb ha (by omega) (by omega)
    rw [h] at p12 p13 p14 p15
    rw [q12] at p12
    rw [q13] at p13
    rw [q14] at p14
    rw [q15] at p15
    have : i = 0 ∨ i = 1 ∨ i = 2 ∨ i = 3 := by omega
    rcases this with e | e | e | e <;> subst e
    · rw [Nat.xor_comm, ← p15, Nat.xor_comm]
    · rw [Nat.xor_comm, ← p14, Nat.xor_comm]
    · rw [Nat.xor_comm, ← p13, Nat.xor_comm]
    · rw [Nat.xor_comm, ← p12, Nat.xor_comm]
  · intro h
    rw [merge_hash_bytes_from_seed has_avx2 ha hb (by omega) (by omega),
      merge_hash_bytes_from_seed has_avx2 hb ha (by omega) (by omega), seed_words_swap h]

/-- C26 on a commuting pair: `a` has words 0 and 7 equal to 1, `b` is zero. -/
theorem C26_merge_hash_commutes_iff_witness :
    merge_hash_bytes false ([1, 0, 0, 0] ++ List.replicate 24 0 ++ [1, 0, 0, 0] ++
        List.replicate 32 0) (List.replicate 64 0) =
      merge_hash_bytes false (List.replicate 64 0) ([1, 0, 0, 0] ++ List.replicate 24 0 ++
        [1, 0, 0, 0] ++ List.replicate 32 0) :=
  (C26_merge_hash_commutes_iff false ([1, 0, 0, 0] ++ List.replicate 24 0 ++ [1, 0, 0, 0] ++
    List.replicate 32 0) (List.replicate 64 0) (by decide) (by decide) (by decide)
    (by decide)).2 (by decide)

/-! ## The digest depends on the low half of every block only -/

/-- A `for` loop whose body does not fault on the states of `P` and keeps `P`
does not fault. -/
theorem for_loopM_total {σ : Type} (P : σ → Prop) (lo hi : Nat) (body : Nat → σ → Option σ)
    (hbody : ∀ i s, lo ≤ i → i < hi → P s → ∃ s', body i s = some s' ∧ P s') (s : σ)
    (hP : P s) : ∃ s', for_loopM lo hi body s = some s' ∧ P s' := by
  induction hi with
  | zero => exact ⟨s, for_loopM_of_le _ _ (Nat.zero_le lo), hP⟩
  | succ n ih =>
    by_cases hn : n + 1 ≤ lo
    · exact ⟨s, for_loopM_of_le _ _ hn, hP⟩
    · have hle : lo ≤ n := by omega
      obtain ⟨mid, hmid, hPmid⟩ := ih (fun i x h1 h2 hx => hbody i x h1 (by omega) hx)
      obtain ⟨s', hs', hPs'⟩ := hbody n mid hle (by omega) hPmid
      exact ⟨s', by rw [for_loopM_succ _ _ _ _ hle, hmid]; exact hs', hPs'⟩

theorem MerkleState.write_length (st : MerkleState) (p : BufId) (m : List Nat)
    (h : m.length = (st.mem p).length) :
    (st.write p m).buf1.length = st.buf1.length ∧ (st.write p m).buf2.length = st.buf2.length := by
  cases p
  · exact ⟨h, rfl⟩
  · exact ⟨rfl, h⟩

/-- The call of `merge_hash` for block `i` does not fault when the two source
blocks and the destination block lie in their buffers; it changes neither the
pointers, nor `length`, nor the size of a buffer. -/
theorem merkle_block_total (has_avx2 : Bool) (input : List Nat) (i : Nat) (st : MerkleState)
    (hsrc : (2 * i + 2) * 64 ≤ (st.source input).length)
    (hcur : (i + 1) * 64 ≤ (st.mem st.cur_buf).length) :
    ∃ st', merkle_block has_avx2 input i st = some st' ∧
      st'.prev_buf = st.prev_buf ∧ st'.cur_buf = st.cur_buf ∧
      st'.first_iteration = st.first_iteration ∧ st'.length = st.length ∧
      st'.buf1.length = st.buf1.length ∧ st'.buf2.length = st.buf2.length := by
  unfold merkle_block merge_hash
  simp only []
  rw [if_pos ⟨by simp only [List.length_drop]; omega, by simp only [List.length_drop]; omega,
    by simp only [List.length_drop]; omega⟩]
  simp only [Option.map_some']
  refine ⟨_, rfl, ?_⟩
  obtain ⟨h1, h2, h3, h4⟩ := st.write_fields st.cur_buf
    (List.take (i * 64) (st.mem st.cur_buf) ++
      (merge_hash_bytes has_avx2 (List.drop (2 * i * 64) (st.source input))
        (List.drop ((2 * i + 1) * 64) (st.source input)) ++
        List.drop 64 (List.drop (i * 64) (st.mem st.cur_buf))))
  obtain ⟨h5, h6⟩ := st.write_length st.cur_buf
    (List.take (i * 64) (st.mem st.cur_buf) ++
      (merge_hash_bytes has_avx2 (List.drop (2 * i * 64) (st.source input))
        (List.drop ((2 * i + 1) * 64) (st.source input)) ++
        List.drop 64 (List.drop (i * 64) (st.mem st.cur_buf))))
    (by
      simp only [List.length_append, List.length_take, List.length_drop,
        merge_hash_bytes_length]
      omega)
  exact ⟨h1, h2, h3, h4, h5, h6⟩

/-- A level does not fault, whatever team runs it, when the buffers hold
twice `length` bytes: every block a thread of the team takes is one of the
`length / 64` blocks of the level.  It halves `length`, keeps the size of the
buffers and moves the pointers as `merkle_swap` does. -/
theorem merkle_level_total (has_avx2 : Bool) (num_threads team : Nat) (input : List Nat)
    (st : MerkleState) (h1 : 2 * st.length ≤ st.buf1.length)
    (h2 : 2 * st.length ≤ st.buf2.length) (hin : 2 * st.length ≤ input.length) :
    ∃ st', merkle_level has_avx2 num_threads team input st = some st' ∧
      st'.length = st.length / 2 ∧ st'.buf1.length = st.buf1.length ∧
      st'.buf2.length = st.buf2.length ∧ st'.first_iteration = false ∧
      st'.prev_buf = st.cur_buf ∧
      st'.cur_buf = (if st.first_iteration then
        (if st.cur_buf = BufId.buf1 then BufId.buf2 else BufId.buf1) else st.prev_buf) := by
  have hmem : ∀ (s : MerkleState) (p : BufId), s.buf1.length = st.buf1.length →
      s.buf2.length = st.buf2.length → 2 * st.length ≤ (s.mem p).length := by
    intro s p e1 e2
    cases p
    · show 2 * st.length ≤ s.buf1.length
      omega
    · show 2 * st.length ≤ s.buf2.length
      omega
  have hsource : ∀ (s : MerkleState), s.buf1.length = st.buf1.length →
      s.buf2.length = st.buf2.length → 2 * st.length ≤ (s.source input).length := by
    intro s e1 e2
    unfold MerkleState.source
    split
    · exact hin
    · exact hmem s _ e1 e2
  have hdiv : st.length / 64 * 64 ≤ st.length := Nat.div_mul_le_self _ _
  have hblocks : ∀ lo hi, hi ≤ st.length / 64 → ∀ s : MerkleState,
      (s.length = st.length ∧ s.buf1.length = st.buf1.length ∧
        s.buf2.length = st.buf2.length ∧ s.prev_buf = st.prev_buf ∧
        s.cur_buf = st.cur_buf ∧ s.first_iteration = st.first_iteration) →
      ∃ s', for_loopM lo hi (merkle_block has_avx2 input) s = some s' ∧
        (s'.length = st.length ∧ s'.buf1.length = st.buf1.length ∧
          s'.buf2.length = st.buf2.length ∧ s'.prev_buf = st.prev_buf ∧
          s'.cur_buf = st.cur_buf ∧ s'.first_iteration = st.first_iteration) := by
    intro lo hi hhi s hs
    refine for_loopM_total (fun s : MerkleState => s.length = st.length ∧
      s.buf1.length = st.buf1.length ∧ s.buf2.length = st.buf2.length ∧
      s.prev_buf = st.prev_buf ∧ s.cur_buf = st.cur_buf ∧
      s.first_iteration = st.first_iteration) lo hi _ ?_ s hs
    intro i x _ hi' ⟨a, b, c, d, e, f⟩
    have hi64 : (i + 1) * 64 ≤ st.length / 64 * 64 := Nat.mul_le_mul_right _ (by omega)
    obtain ⟨x', hx', e1, e2, e3, e4, e5, e6⟩ := merkle_block_total has_avx2 input i x
      (by have := hsource x b c; omega) (by have := hmem x x.cur_buf b c; omega)
    exact ⟨x', hx', by omega, by omega, by omega, e1.trans d, e2.trans e, e3.trans f⟩
  have hswap : ∀ x : MerkleState, (merkle_swap x).length = x.length / 2 ∧
      (merkle_swap x).buf1 = x.buf1 ∧ (merkle_swap x).buf2 = x.buf2 ∧
      (merkle_swap x).first_iteration = false ∧ (merkle_swap x).prev_buf = x.cur_buf ∧
      (merkle_swap x).cur_buf = (if x.first_iteration then
        (if x.cur_buf = BufId.buf1 then BufId.buf2 else BufId.buf1) else x.prev_buf) := by
    intro x
    unfold merkle_swap
    cases hf : x.first_iteration <;> exact ⟨rfl, rfl, rfl, rfl, rfl, rfl⟩
  have hfin : ∀ r : Option MerkleState,
      (∃ s', r = some s' ∧ (s'.length = st.length ∧ s'.buf1.length = st.buf1.length ∧
          s'.buf2.length = st.buf2.length ∧ s'.prev_buf = st.prev_buf ∧
          s'.cur_buf = st.cur_buf ∧ s'.first_iteration = st.first_iteration)) →
      ∃ st', r.map merkle_swap = some st' ∧ st'.length = st.length / 2 ∧
        st'.buf1.length = st.buf1.length ∧ st'.buf2.length = st.buf2.length ∧
        st'.first_iteration = false ∧ st'.prev_buf = st.cur_buf ∧
        st'.cur_buf = (if st.first_iteration then
          (if st.cur_buf = BufId.buf1 then BufId.buf2 else BufId.buf1) else st.prev_buf) := by
    rintro r ⟨s', rfl, a, b, c, d, e, f⟩
    obtain ⟨e1, e2, e3, e4, e5, e6⟩ := hswap s'
    exact ⟨_, rfl, by rw [e1, a], by rw [e2, b], by rw [e3, c], e4, e5.trans e,
      by rw [e6, d, e, f]⟩
  unfold merkle_level
  simp only []
  apply hfin
  split
  · next hpar =>
    have hp : st.length / 64 ≥ 4 ∧ st.length / 64 / num_threads ≥ 1 := by
      simpa using hpar
    have hT : 0 < num_threads := by
      rcases Nat.eq_zero_or_pos num_threads with h | h
      · rw [h, Nat.div_zero] at hp; omega
      · exact h
    have hmul : num_threads * (st.length / 64 / num_threads) ≤ st.length / 64 :=
      Nat.mul_div_le _ _
    refine for_loopM_total (fun s : MerkleState => s.length = st.length ∧
      s.buf1.length = st.buf1.length ∧ s.buf2.length = st.buf2.length ∧
      s.prev_buf = st.prev_buf ∧ s.cur_buf = st.cur_buf ∧
      s.first_iteration = st.first_iteration) 0 _ _ ?_ st ⟨rfl, rfl, rfl, rfl, rfl, rfl⟩
    intro t x _ ht hx
    have htT : t < num_threads := Nat.lt_of_lt_of_le ht (Nat.min_le_right _ _)
    have hle : (t + 1) * (st.length / 64 / num_threads) ≤
        num_threads * (st.length / 64 / num_threads) :=
      Nat.mul_le_mul_right _ (by omega)
    have e : (t + 1) * (st.length / 64 / num_threads) =
        t * (st.length / 64 / num_threads) + st.length / 64 / num_threads := by ring
    refine hblocks _ _ ?_ x hx
    split
    · exact Nat.le_refl _
    · omega
  · exact hblocks 0 _ (Nat.le_refl _) st ⟨rfl, rfl, rfl, rfl, rfl, rfl⟩

/-- In every environment `merkel_tree` on `length >= 64` bytes returns 64
bytes: no access faults and the loop ends within its fuel. -/
theorem merkel_tree_total (has_avx2 : Bool) (num_threads : Nat) (env : MerkleEnv)
    (input : List Nat) (length : Nat) (h64 : 64 ≤ length) (hlen : input.length = length) :
    ∃ d, merkel_tree has_avx2 num_threads env input length = some d ∧ d.length = 64 := by
  unfold merkel_tree
  split
  · rw [if_pos (by omega)]
    exact ⟨_, rfl, by simp [load_at]; omega⟩
  · simp only []
    obtain ⟨st', hrun, ⟨hb1, hb2, _⟩, _⟩ := while_loopM_induction
      (fun st : MerkleState => st.buf1.length = length ∧ st.buf2.length = length ∧
        2 * st.length ≤ length)
      (fun st => st.length) (fun st => decide (st.length ≥ 64))
      (fun st => merkle_level has_avx2 num_threads (env.team st.length) input st)
      (fun s ⟨a, b, c⟩ hc => by
        have hc' : 64 ≤ s.length := by simpa using hc
        obtain ⟨s', hs', e1, e2, e3, _⟩ := merkle_level_total has_avx2 num_threads
          (env.team s.length) input s (by omega) (by omega) (by omega)
        exact ⟨s', hs', ⟨by omega, by omega, by omega⟩, by show s'.length < s.length; omega⟩)
      length
      { buf1 := (List.range length).map (fun j => env.scratch1 j % 256),
        buf2 := (List.range length).map (fun j => env.scratch2 j % 256),
        prev_buf := BufId.buf1, cur_buf := BufId.buf2, first_iteration := true,
        length := length / 2 }
      ⟨by simp, by simp, by simp only []; omega⟩ (by simp only []; omega)
    rw [hrun]
    have hm : (st'.mem st'.prev_buf).length = length := by
      cases hp : st'.prev_buf
      · exact hb1
      · exact hb2
    simp only [Option.some_bind]
    rw [if_pos (by omega)]
    exact ⟨_, rfl, by simp [load_at]; omega⟩

/-- In every environment the loop of `merkel_tree` on `L` input bytes does
not fault, and after `i` iterations `length` is `L / 2^(i+1)`, `prev_buf` and
`cur_buf` are the two different scratch buffers, alternating, and
`first_iteration` is set exactly before the first iteration. -/
theorem merkle_state_after_shape (has_avx2 : Bool) (num_threads : Nat) (env : MerkleEnv)
    (input : List Nat) (L : Nat) (hin : input.length = L) (i : Nat) :
    ∃ st, merkle_state_after has_avx2 num_threads env input L i = some st ∧
      st.length = L / 2 ^ (i + 1) ∧
      st.prev_buf = (if i % 2 = 0 then BufId.buf1 else BufId.buf2) ∧
      st.cur_buf = (if i % 2 = 0 then BufId.buf2 else BufId.buf1) ∧
      st.cur_buf ≠ st.prev_buf ∧
      st.first_iteration = decide (i = 0) ∧ st.buf1.length = L ∧ st.buf2.length = L := by
  induction i with
  | zero =>
    refine ⟨merkle_init env L L L, rfl, by simp [merkle_init], rfl, rfl, ?_, rfl,
      by simp [merkle_init], by simp [merkle_init]⟩
    simp [merkle_init]
  | succ i ih =>
    obtain ⟨st, hst, hl, hp, hc, _, hf, hb1, hb2⟩ := ih
    have h2 : L / 2 ^ (i + 1) * 2 ≤ L := by
      have h1 : L / 2 ^ (i + 1) * 2 ^ (i + 1) ≤ L := Nat.div_mul_le_self _ _
      have h3 : 2 ≤ 2 ^ (i + 1) := by
        calc 2 = 2 ^ 1 := by norm_num
          _ ≤ 2 ^ (i + 1) := Nat.pow_le_pow_right (by decide) (by omega)
      have := Nat.mul_le_mul_left (L / 2 ^ (i + 1)) h3
      omega
    obtain ⟨st', hst', e1, e2, e3, e4, e5, e6⟩ := merkle_level_total has_avx2 num_threads
      (env.team st.length) input st (by omega) (by omega) (by omega)
    have hrun : merkle_state_after has_avx2 num_threads env input L (i + 1) = some st' := by
      unfold merkle_state_after at hst ⊢
      rw [iterateM, hst]
      exact hst'
    have hpar : i % 2 = 0 ∨ i % 2 = 1 := by omega
    have hp' : st'.prev_buf = (if (i + 1) % 2 = 0 then BufId.buf1 else BufId.buf2) := by
      rw [e5, hc]
      rcases hpar with h | h
      · rw [if_pos h, if_neg (by omega)]
      · rw [if_neg (by omega), if_pos (by omega)]
    have hc' : st'.cur_buf = (if (i + 1) % 2 = 0 then BufId.buf2 else BufId.buf1) := by
      rw [e6, hf, hc, hp]
      by_cases h0 : i = 0
      · subst h0
        simp
      · rcases hpar with h | h
        · simp [h0, h, show ¬ (i + 1) % 2 = 0 by omega]
        · simp [h0, show ¬ i % 2 = 0 by omega, show (i + 1) % 2 = 0 by omega]
    refine ⟨st', hrun, ?_, hp', hc', ?_, ?_, by rw [e2, hb1], by rw [e3, hb2]⟩
    · rw [e1, hl, Nat.div_div_eq_div_mul, ← Nat.pow_succ]
    · rw [hp', hc']
      split <;> simp
    · rw [e4]
      simp

/-- The function `merkle_level` in terms of the named flag and thread ranges. -/
theorem merkle_level_unfold (has_avx2 : Bool) (num_threads team : Nat) (input : List Nat)
    (st : MerkleState) :
    merkle_level has_avx2 num_threads team input st =
      (if merkle_use_parallel (st.length / 64) num_threads then
        for_loopM 0 (min team num_threads) (fun thread_id s =>
          for_loopM (merkle_start_block (st.length / 64) num_threads thread_id)
            (merkle_end_block (st.length / 64) num_threads thread_id)
            (merkle_block has_avx2 input) s) st
      else for_loopM 0 (st.length / 64) (merkle_block has_avx2 input) st).map merkle_swap := rfl

/-- Two consecutive `for` loops over `[lo, mid)` and `[mid, hi)` are the loop
over `[lo, hi)`. -/
theorem for_loopM_append {σ : Type} (body : Nat → σ → Option σ) {lo mid hi : Nat}
    (h1 : lo ≤ mid) (h2 : mid ≤ hi) (s : σ) :
    (for_loopM lo mid body s).bind (for_loopM mid hi body) = for_loopM lo hi body s := by
  unfold for_loopM
  have e : hi - lo = (hi - mid) + (mid - lo) := by omega
  have e2 : mid = lo + (mid - lo) := by omega
  rw [e, ← List.range'_append_1, List.foldlM_append, ← e2]
  rfl

/-- The thread loop of the static split is the flat loop over all blocks, for
every loop body and start state. -/
theorem for_loopM_static_split {σ : Type} (body : Nat → σ → Option σ) {nb T : Nat}
    (hT : 1 ≤ T) (s : σ) :
    for_loopM 0 T (fun thread_id s =>
      for_loopM (merkle_start_block nb T thread_id) (merkle_end_block nb T thread_id) body s) s =
    for_loopM 0 nb body s := by
  have hmul : T * (nb / T) ≤ nb := Nat.mul_div_le _ _
  have pre : ∀ t, t ≤ T - 1 →
      for_loopM 0 t (fun thread_id s =>
        for_loopM (merkle_start_block nb T thread_id) (merkle_end_block nb T thread_id)
          body s) s = for_loopM 0 (t * (nb / T)) body s := by
    intro t
    induction t with
    | zero =>
      intro _
      rw [Nat.zero_mul, for_loopM_self, for_loopM_self]
    | succ t ih =>
      intro ht
      rw [for_loopM_succ _ _ _ _ (Nat.zero_le _), ih (by omega)]
      have e : (t + 1) * (nb / T) = t * (nb / T) + nb / T := by ring
      simp only [merkle_start_block, merkle_end_block]
      rw [if_neg (show ¬ t = T - 1 by omega), ← e]
      exact for_loopM_append body (Nat.zero_le _) (Nat.mul_le_mul_right _ (by omega)) s
  have eT : T = (T - 1) + 1 := by omega
  have hle : (T - 1) * (nb / T) ≤ nb :=
    Nat.le_trans (Nat.mul_le_mul_right _ (by omega)) hmul
  rw [eT, for_loopM_succ _ _ _ _ (Nat.zero_le _), ← eT, pre (T - 1) (Nat.le_refl _)]
  simp only [merkle_start_block, merkle_end_block]
  rw [if_pos trivial]
  exact for_loopM_append body (Nat.zero_le _) hle s

/-- On every state and for every thread count the level computed by the whole
team is that of the sequential loop over all `length / 64` blocks. -/
theorem merkle_level_eq_sequential (has_avx2 : Bool) (num_threads : Nat) (input : List Nat)
    (st : MerkleState) :
    merkle_level has_avx2 num_threads num_threads input st =
      (for_loopM 0 (st.length / 64) (merkle_block has_avx2 input) st).map merkle_swap := by
  rw [merkle_level_unfold, Nat.min_self]
  split
  · next hp =>
    have hT : 1 ≤ num_threads := by
      rcases Nat.eq_zero_or_pos num_threads with h | h
      · rw [h] at hp
        simp [merkle_use_parallel] at hp
      · exact h
    rw [for_loopM_static_split (merkle_block has_avx2 input) hT st]
  · rfl

/-- Every block of a level lies in the range of exactly one thread. -/
theorem static_split_unique_thread {nb T : Nat} (hT1 : 1 ≤ T) (hT2 : T ≤ nb) {i : Nat}
    (hi : i < nb) :
    ∃ t, (t < T ∧ merkle_start_block nb T t ≤ i ∧ i < merkle_end_block nb T t) ∧
      ∀ u, (u < T ∧ merkle_start_block nb T u ≤ i ∧ i < merkle_end_block nb T u) → u = t := by
  have hb : 1 ≤ nb / T := (Nat.one_le_div_iff (by omega)).2 hT2
  have hsep : ∀ u v, u < v → v < T → i < merkle_end_block nb T u →
      merkle_start_block nb T v ≤ i → False := by
    intro u v huv hv h1 h2
    simp only [merkle_start_block, merkle_end_block] at h1 h2
    rw [if_neg (show ¬ u = T - 1 by omega)] at h1
    have e : u * (nb / T) + nb / T = (u + 1) * (nb / T) := by ring
    have := Nat.mul_le_mul_right (nb / T) (show u + 1 ≤ v by omega)
    omega
  have huniq : ∀ t u, (t < T ∧ merkle_start_block nb T t ≤ i ∧ i < merkle_end_block nb T t) →
      (u < T ∧ merkle_start_block nb T u ≤ i ∧ i < merkle_end_block nb T u) → u = t := by
    intro t u ⟨a1, a2, a3⟩ ⟨b1, b2, b3⟩
    rcases Nat.lt_trichotomy u t with h | h | h
    · exact (hsep u t h a1 b3 a2).elim
    · exact h
    · exact (hsep t u h b1 a3 b2).elim
  by_cases hlast : (T - 1) * (nb / T) ≤ i
  · refine ⟨T - 1, ⟨by omega, ?_, ?_⟩, fun u hu => huniq _ _ ?_ hu⟩
    · simpa only [merkle_start_block] using hlast
    · simp only [merkle_end_block]
      rw [if_pos trivial]
      exact hi
    · refine ⟨by omega, by simpa only [merkle_start_block] using hlast, ?_⟩
      simp only [merkle_end_block]
      rw [if_pos trivial]
      exact hi
  · have hq : i / (nb / T) < T - 1 := by
      rw [Nat.div_lt_iff_lt_mul (by omega)]
      omega
    have hdm : (nb / T) * (i / (nb / T)) + i % (nb / T) = i := Nat.div_add_mod i (nb / T)
    have hm : i % (nb / T) < nb / T := Nat.mod_lt _ (by omega)
    have hc : i / (nb / T) * (nb / T) = (nb / T) * (i / (nb / T)) := Nat.mul_comm _ _
    have hin : i / (nb / T) < T ∧ merkle_start_block nb T (i / (nb / T)) ≤ i ∧
        i < merkle_end_block nb T (i / (nb / T)) := by
      simp only [merkle_start_block, merkle_end_block]
      rw [if_neg (show ¬ i / (nb / T) = T - 1 by omega)]
      omega
    exact ⟨i / (nb / T), hin, fun u hu => huniq _ _ hin hu⟩

/-- For every `num_blocks >= 4` and thread count `T` with
`1 <= T <= num_blocks` the parallel branch is taken, the thread ranges
`[t * floor(num_blocks/T), end_t)`, with `end_t = (t+1) * floor(num_blocks/T)`
for `t < T-1` and `end_{T-1} = num_blocks`, lie in `[0, num_blocks)`, are
pairwise disjoint and cover it, and the parallel branch run by the whole team
of `T` threads computes the level of the sequential branch; when
`T > num_blocks` the parallel branch is not taken. -/
theorem merkle_static_split_full_team (num_blocks T : Nat) (hnb : 4 ≤ num_blocks) (hT1 : 1 ≤ T)
    (hT2 : T ≤ num_blocks) :
    merkle_use_parallel num_blocks T = true ∧
    (∀ t, t < T → merkle_start_block num_blocks T t = t * (num_blocks / T) ∧
      merkle_end_block num_blocks T t =
        (if t < T - 1 then (t + 1) * (num_blocks / T) else num_blocks) ∧
      merkle_start_block num_blocks T t < merkle_end_block num_blocks T t ∧
      merkle_end_block num_blocks T t ≤ num_blocks) ∧
    (∀ i, i < num_blocks → ∃ t,
      (t < T ∧ merkle_start_block num_blocks T t ≤ i ∧ i < merkle_end_block num_blocks T t) ∧
      ∀ u, (u < T ∧ merkle_start_block num_blocks T u ≤ i ∧
        i < merkle_end_block num_blocks T u) → u = t) ∧
    (∀ (has_avx2 : Bool) (input : List Nat) (st : MerkleState), st.length / 64 = num_blocks →
      for_loopM 0 T (fun thread_id s =>
          for_loopM (merkle_start_block num_blocks T thread_id)
            (merkle_end_block num_blocks T thread_id) (merkle_block has_avx2 input) s) st =
        for_loopM 0 num_blocks (merkle_block has_avx2 input) st ∧
      merkle_level has_avx2 T T input st =
        (for_loopM 0 num_blocks (merkle_block has_avx2 input) st).map merkle_swap) ∧
    (∀ n T', n < T' → merkle_use_parallel n T' = false) := by
  have hb : 1 ≤ num_blocks / T := (Nat.one_le_div_iff (by omega)).2 hT2
  have hmul : T * (num_blocks / T) ≤ num_blocks := Nat.mul_div_le _ _
  refine ⟨?_, ?_, fun i hi => static_split_unique_thread hT1 hT2 hi, ?_, ?_⟩
  · simp only [merkle_use_parallel]
    simp [hnb, hb]
  · intro t ht
    have e : t * (num_blocks / T) + num_blocks / T = (t + 1) * (num_blocks / T) := by ring
    simp only [merkle_start_block, merkle_end_block]
    by_cases hl : t = T - 1
    · rw [if_pos hl, if_neg (by omega)]
      have := Nat.mul_le_mul_right (num_blocks / T) (show t + 1 ≤ T by omega)
      refine ⟨trivial, rfl, by omega, Nat.le_refl _⟩
    · rw [if_neg hl, if_pos (by omega), e]
      have := Nat.mul_le_mul_right (num_blocks / T) (show t + 1 ≤ T by omega)
      refine ⟨trivial, rfl, by omega, by omega⟩
  · intro has_avx2 input st hst
    refine ⟨for_loopM_static_split (merkle_block has_avx2 input) hT1 st, ?_⟩
    rw [merkle_level_eq_sequential, hst]
  · intro n T' h
    simp only [merkle_use_parallel]
    rw [Nat.div_eq_of_lt h]
    simp

set_option maxRecDepth 10000000 in
/-- C23: the parallel branch does not compute the level of the sequential
branch when it is granted fewer threads than it asks for.  In the first
iteration on the 1024-byte input with byte `i` equal to `(7 * i + 3) mod 256`
(`num_blocks = 8`), with `T = 4` threads asked for and two granted, the
parallel branch is taken and hashes the blocks `[0, 4)` of threads 0 and 1
only: its level is that of a sequential loop over four blocks, not over all
eight.  Granted all four threads it computes the level of the sequential
branch. -/
theorem C23_merkle_static_split_short_team :
    merkle_use_parallel 8 4 = true ∧
    (merkle_init (env_team 2) 1024 1024 1024).length / 64 = 8 ∧
    merkle_level true 4 2 ((List.range 1024).map (fun i => (7 * i + 3) % 256))
        (merkle_init (env_team 2) 1024 1024 1024) =
      (for_loopM 0 4 (merkle_block true ((List.range 1024).map (fun i => (7 * i + 3) % 256)))
        (merkle_init (env_team 2) 1024 1024 1024)).map merkle_swap ∧
    merkle_level true 4 2 ((List.range 1024).map (fun i => (7 * i + 3) % 256))
        (merkle_init (env_team 2) 1024 1024 1024) ≠
      (for_loopM 0 8 (merkle_block true ((List.range 1024).map (fun i => (7 * i + 3) % 256)))
        (merkle_init (env_team 2) 1024 1024 1024)).map merkle_swap ∧
    merkle_level true 4 4 ((List.range 1024).map (fun i => (7 * i + 3) % 256))
        (merkle_init (env_team 2) 1024 1024 1024) =
      (for_loopM 0 8 (merkle_block true ((List.range 1024).map (fun i => (7 * i + 3) % 256)))
        (merkle_init (env_team 2) 1024 1024 1024)).map merkle_swap := by
  decide

/-! ## The trajectory of the reduction loop, for every input length -/

theorem iterateM_eq_some {σ : Type} (S : Nat → σ) (body : σ → Option σ) (n : Nat)
    (hstep : ∀ i, i < n → body (S i) = some (S (i + 1))) :
    iterateM body n (S 0) = some (S n) := by
  induction n with
  | zero => rfl
  | succ n ih =>
    rw [iterateM, ih (fun i hi => hstep i (by omega))]
    exact hstep n (by omega)

/-- A `while` loop whose iterations succeed along a known trajectory and whose
condition first fails at step `n`. -/
theorem while_loopM_eq_some {σ : Type} (cond : σ → Bool) (body : σ → Option σ) (n : Nat) :
    ∀ (S : Nat → σ) (fuel : Nat), (∀ i, i < n → body (S i) = some (S (i + 1))) →
      (∀ i, i < n → cond (S i) = true) → cond (S n) = false → n ≤ fuel →
      while_loopM cond body fuel (S 0) = some (S n) := by
  induction n with
  | zero =>
    intro S fuel _ _ hn _
    cases fuel <;> simp [while_loopM, hn]
  | succ n ih =>
    intro S fuel hstep hc hn hf
    obtain ⟨f, rfl⟩ : ∃ f, fuel = f + 1 := ⟨fuel - 1, by omega⟩
    rw [while_loopM, if_pos (hc 0 (by omega)), hstep 0 (by omega), Option.some_bind]
    exact ih (fun i => S (i + 1)) f (fun i hi => hstep (i + 1) (by omega))
      (fun i hi => hc (i + 1) (by omega)) hn (by omega)

/-- The first `p` blocks of a level do not depend on how many more blocks are
computed. -/
theorem next_level_take (has_avx2 : Bool) (src : List Nat) {p n : Nat} (h : p ≤ n) :
    (next_level has_avx2 src n).take (p * 64) = next_level has_avx2 src p := by
  induction n with
  | zero =>
    have : p = 0 := by omega
    subst this
    simp [next_level]
  | succ n ih =>
    by_cases e : p = n + 1
    · subst e
      exact List.take_of_length_le (by rw [next_level_length])
    · rw [next_level_succ, List.take_append_of_le_length (by rw [next_level_length]; omega),
        ih (by omega)]

theorem merkle_swap_cur (st : MerkleState) (hne : st.prev_buf ≠ st.cur_buf) :
    (merkle_swap st).cur_buf = st.prev_buf := by
  unfold merkle_swap
  cases hf : st.first_iteration with
  | true =>
    simp only [if_true]
    revert hne
    cases st.cur_buf <;> cases st.prev_buf <;> simp
  | false => rfl

/-- One iteration from a state of the trajectory: no access faults, and the
next state is again on the trajectory. -/
theorem merkle_traj_step (has_avx2 : Bool) (num_threads : Nat) {input : List Nat}
    {cap1 cap2 L m i : Nat} {st : MerkleState} (hin : L ≤ input.length) (hi : i < m)
    (hA : MerkleAt has_avx2 input cap1 cap2 L m i st)
    (hw : st.length / 64 * 64 ≤ (if i % 2 = 0 then cap2 else cap1))
    (hr : 1 ≤ i → 2 * (st.length / 64) * 64 ≤ (if i % 2 = 0 then cap1 else cap2)) :
    merkle_level has_avx2 num_threads num_threads input st =
      some (merkle_swap (level_state has_avx2 input st (st.length / 64))) ∧
    MerkleAt has_avx2 input cap1 cap2 L m (i + 1)
      (merkle_swap (level_state has_avx2 input st (st.length / 64))) := by
  obtain ⟨hlen, hlo, hhi, hprev, hcur, hfirst, hb1, hb2, hlvl⟩ := hA
  have hpow : 2 ^ (m - i) = 2 * 2 ^ (m - (i + 1)) := by
    rw [show m - i = (m - (i + 1)) + 1 by omega, Nat.pow_succ]; ring
  have hne : st.prev_buf ≠ st.cur_buf := by
    rw [hprev, hcur]; split <;> simp
  have hsep : st.first_iteration = true ∨ st.prev_buf ≠ st.cur_buf := Or.inr hne
  have hmemcur : (st.mem st.cur_buf).length = (if i % 2 = 0 then cap2 else cap1) := by
    rw [hcur]; split
    · exact hb2
    · exact hb1
  have hmemprev : (st.mem st.prev_buf).length = (if i % 2 = 0 then cap1 else cap2) := by
    rw [hprev]; split
    · exact hb1
    · exact hb2
  have hsrclen : 2 * (st.length / 64) * 64 ≤ (st.source input).length := by
    unfold MerkleState.source
    rw [hfirst]
    by_cases h0 : i = 0
    · subst h0
      simp only [decide_True, if_true]
      simp only [Nat.zero_add, Nat.pow_one] at hlen
      omega
    · simp only [h0, decide_False, Bool.false_eq_true, if_false, hmemprev]
      exact hr (by omega)
  have hlev := merkle_level_eq has_avx2 num_threads input st hsep (by rw [hmemcur]; exact hw)
    hsrclen
  refine ⟨hlev, ?_⟩
  have hpn : 2 ^ (m - (i + 1)) ≤ st.length / 64 := by omega
  have hwf := st.write_fields st.cur_buf
    (next_level has_avx2 (st.source input) (st.length / 64) ++
      (st.mem st.cur_buf).drop (st.length / 64 * 64))
  have hXprev : (level_state has_avx2 input st (st.length / 64)).prev_buf = st.prev_buf := hwf.1
  have hXcur : (level_state has_avx2 input st (st.length / 64)).cur_buf = st.cur_buf := hwf.2.1
  have hXlen : (level_state has_avx2 input st (st.length / 64)).length = st.length := hwf.2.2.2
  have hsepL : (level_state has_avx2 input st (st.length / 64)).first_iteration = true ∨
      (level_state has_avx2 input st (st.length / 64)).prev_buf ≠
        (level_state has_avx2 input st (st.length / 64)).cur_buf := by
    rw [hXprev, hXcur]; exact Or.inr hne
  obtain ⟨s1, s2, _, s4, s5⟩ := merkle_swap_fields _ hsepL
  have s3 := merkle_swap_cur (level_state has_avx2 input st (st.length / 64))
    (by rw [hXprev, hXcur]; exact hne)
  rw [hXprev] at s3
  rw [hXcur] at s2
  rw [hXlen] at s4
  have hNL := next_level_length has_avx2 (st.source input) (st.length / 64)
  have hmemX : (level_state has_avx2 input st (st.length / 64)).mem st.cur_buf =
      next_level has_avx2 (st.source input) (st.length / 64) ++
        (st.mem st.cur_buf).drop (st.length / 64 * 64) := st.mem_write_same _ _
  have hmemXo : (level_state has_avx2 input st (st.length / 64)).mem st.prev_buf =
      st.mem st.prev_buf := st.mem_write_other _ hne
  have hlenX : ((level_state has_avx2 input st (st.length / 64)).mem st.cur_buf).length =
      (st.mem st.cur_buf).length := by
    rw [hmemX, List.length_append, hNL, List.length_drop, hmemcur]
    omega
  have hpar : i % 2 = 0 ∨ i % 2 = 1 := by omega
  refine ⟨?_, ?_, ?_, ?_, ?_, ?_, ?_, ?_, ?_⟩
  · rw [s4, hlen, Nat.div_div_eq_div_mul, ← Nat.pow_succ]
  · rw [s4]; omega
  · rw [s4]; omega
  · rw [s2, hcur]
    rcases hpar with h | h
    · rw [if_pos h, if_neg (by omega)]
    · rw [if_neg (by omega), if_pos (by omega)]
  · rw [s3, hprev]
    rcases hpar with h | h
    · rw [if_pos h, if_neg (by omega)]
    · rw [if_neg (by omega), if_pos (by omega)]
  · rw [s1]; simp
  · have e : (merkle_swap (level_state has_avx2 input st (st.length / 64))).buf1 =
        (level_state has_avx2 input st (st.length / 64)).mem BufId.buf1 := s5 BufId.buf1
    rw [e]
    rcases hpar with h | h
    · rw [if_pos h] at hprev
      rw [← hprev, hmemXo, hprev]; exact hb1
    · rw [if_neg (by omega)] at hcur
      rw [← hcur, hlenX, hcur]; exact hb1
  · have e : (merkle_swap (level_state has_avx2 input st (st.length / 64))).buf2 =
        (level_state has_avx2 input st (st.length / 64)).mem BufId.buf2 := s5 BufId.buf2
    rw [e]
    rcases hpar with h | h
    · rw [if_pos h] at hcur
      rw [← hcur, hlenX, hcur]; exact hb2
    · rw [if_neg (by omega)] at hprev
      rw [← hprev, hmemXo, hprev]; exact hb2
  · have hsrc' : (merkle_swap (level_state has_avx2 input st (st.length / 64))).source input =
        next_level has_avx2 (st.source input) (st.length / 64) ++
          (st.mem st.cur_buf).drop (st.length / 64 * 64) := by
      unfold MerkleState.source
      rw [s1, s2, s5]
      simp only [Bool.false_eq_true, if_false]
      exact hmemX
    have e64 : 64 * 2 ^ (m - (i + 1)) = 2 ^ (m - (i + 1)) * 64 := Nat.mul_comm _ _
    rw [hsrc', e64, List.take_append_of_le_length (by rw [hNL]; omega),
      next_level_take has_avx2 _ hpn, spec_level_succ, ← hlvl, hpow,
      next_level_eq_spec has_avx2 (by omega)]
    congr 2
    ring

theorem merkle_init_at (has_avx2 : Bool) (env : MerkleEnv) {input : List Nat}
    {cap1 cap2 L m : Nat} (hm1 : 64 * 2 ^ m ≤ L) (hm2 : L < 64 * 2 ^ (m + 1)) :
    MerkleAt has_avx2 input cap1 cap2 L m 0 (merkle_init env cap1 cap2 L) := by
  have hpow : 2 ^ (m + 1) = 2 * 2 ^ m := by rw [Nat.pow_succ]; ring
  refine ⟨by simp [merkle_init], by simp only [merkle_init, Nat.sub_zero]; omega,
    by simp only [merkle_init, Nat.sub_zero]; omega, rfl, rfl, rfl,
    by simp [merkle_init], by simp [merkle_init], ?_⟩
  simp [MerkleState.source, merkle_init, spec_level]

/-- Every state of the trajectory up to step `m` satisfies the invariant, and
every iteration before step `m` succeeds when it is run by the whole team. -/
theorem merkle_traj_at (has_avx2 : Bool) (num_threads : Nat) (env : MerkleEnv)
    {input : List Nat} {cap1 cap2 L m : Nat} (hin : L ≤ input.length) (hm1 : 64 * 2 ^ m ≤ L)
    (hm2 : L < 64 * 2 ^ (m + 1)) (hcaps : caps_ok cap1 cap2 L m) :
    ∀ i, i ≤ m → MerkleAt has_avx2 input cap1 cap2 L m i
        (merkle_traj has_avx2 env input cap1 cap2 L i) ∧
      (i < m → merkle_level has_avx2 num_threads num_threads input
          (merkle_traj has_avx2 env input cap1 cap2 L i) =
        some (merkle_traj has_avx2 env input cap1 cap2 L (i + 1))) := by
  have key : ∀ i, i ≤ m → MerkleAt has_avx2 input cap1 cap2 L m i
      (merkle_traj has_avx2 env input cap1 cap2 L i) := by
    intro i
    induction i with
    | zero => exact fun _ => merkle_init_at has_avx2 env hm1 hm2
    | succ i ih =>
      intro hi
      have hA := ih (by omega)
      obtain ⟨c1, c2⟩ := hcaps i (by omega)
      rw [← hA.1] at c1 c2
      exact (merkle_traj_step has_avx2 num_threads hin (by omega) hA c1 c2).2
  intro i hi
  refine ⟨key i hi, fun hlt => ?_⟩
  have hA := key i hi
  obtain ⟨c1, c2⟩ := hcaps i hlt
  rw [← hA.1] at c1 c2
  exact (merkle_traj_step has_avx2 num_threads hin hlt hA c1 c2).1

theorem div_two_pow_succ_le (L i : Nat) : L / 2 ^ (i + 1) ≤ L / 2 := by
  rw [Nat.pow_succ, Nat.mul_comm, ← Nat.div_div_eq_div_mul]
  exact Nat.div_le_self _ _

/-- Every iteration before step `m` succeeds along the trajectory in an
environment that grants every parallel region its whole team. -/
theorem merkle_traj_env_step (has_avx2 : Bool) (num_threads : Nat) (env : MerkleEnv)
    {input : List Nat} {cap1 cap2 L m : Nat} (hteam : full_team num_threads env L)
    (hin : L ≤ input.length) (hm1 : 64 * 2 ^ m ≤ L)
    (hm2 : L < 64 * 2 ^ (m + 1)) (hcaps : caps_ok cap1 cap2 L m) {i : Nat} (hi : i < m) :
    merkle_level has_avx2 num_threads
        (env.team (merkle_traj has_avx2 env input cap1 cap2 L i).length) input
        (merkle_traj has_avx2 env input cap1 cap2 L i) =
      some (merkle_traj has_avx2 env input cap1 cap2 L (i + 1)) := by
  obtain ⟨hA, hstep⟩ := merkle_traj_at has_avx2 num_threads env hin hm1 hm2 hcaps i (by omega)
  rw [merkle_level_full has_avx2 num_threads _ input _
    (hteam _ (by rw [hA.1]; exact div_two_pow_succ_le L i))]
  exact hstep hi

/-- The loop condition `length >= 64` holds exactly before step `m`. -/
theorem MerkleAt_cond {has_avx2 : Bool} {input : List Nat} {cap1 cap2 L m i : Nat}
    {st : MerkleState} (hi : i ≤ m) (hA : MerkleAt has_avx2 input cap1 cap2 L m i st) :
    decide (st.length ≥ 64) = decide (i < m) := by
  obtain ⟨_, hlo, hhi, _⟩ := hA
  by_cases h : i < m
  · have hpow : 2 ^ (m - i) = 2 * 2 ^ (m - (i + 1)) := by
      rw [show m - i = (m - (i + 1)) + 1 by omega, Nat.pow_succ]; ring
    have : 0 < 2 ^ (m - (i + 1)) := Nat.pow_pos (by decide)
    simp only [h, decide_True, decide_eq_true_eq]
    omega
  · have e : m - i = 0 := by omega
    rw [e] at hhi
    simp only [h, decide_False, decide_eq_false_iff_not]
    omega

/-- Scratch buffers of `L` bytes each, as the code allocates them, hold every level. -/
theorem caps_ok_full (L m : Nat) : caps_ok L L L m := by
  intro j _
  have h1 : L / 2 ^ (j + 1) * 2 ^ (j + 1) ≤ L := Nat.div_mul_le_self _ _
  have h2 : 2 ≤ 2 ^ (j + 1) := by
    calc 2 = 2 ^ 1 := by norm_num
      _ ≤ 2 ^ (j + 1) := Nat.pow_le_pow_right (by decide) (by omega)
  have h3 : L / 2 ^ (j + 1) * 2 ≤ L / 2 ^ (j + 1) * 2 ^ (j + 1) := Nat.mul_le_mul_left _ h2
  simp only [ite_self]
  constructor
  · omega
  · intro _; omega

/-- The states of the loop of `merkel_tree` are those of the trajectory when
every parallel region is granted its whole team. -/
theorem merkle_state_after_eq (has_avx2 : Bool) (num_threads : Nat) (env : MerkleEnv)
    {input : List Nat} {L m : Nat} (hteam : full_team num_threads env L)
    (hin : L ≤ input.length) (hm1 : 64 * 2 ^ m ≤ L) (hm2 : L < 64 * 2 ^ (m + 1))
    {i : Nat} (hi : i ≤ m) :
    merkle_state_after has_avx2 num_threads env input L i =
      some (merkle_traj has_avx2 env input L L L i) :=
  iterateM_eq_some (merkle_traj has_avx2 env input L L L) _ i
    (fun j hj => merkle_traj_env_step has_avx2 num_threads env hteam hin hm1 hm2
      (caps_ok_full _ _) (show j < m by omega))

/-- The result of `merkel_tree` for any `length` of at least 128 bytes when
every parallel region is granted its whole team: the loop runs `m` iterations
without faulting, and the output is the first block of `prev_buf`, which is
`level[m]` of the first `64 * 2^m` input bytes. -/
theorem merkel_tree_traj (has_avx2 : Bool) (num_threads : Nat) (env : MerkleEnv)
    {input : List Nat} {L m : Nat} (hteam : full_team num_threads env L)
    (hm : 1 ≤ m) (hin : L ≤ input.length) (hm1 : 64 * 2 ^ m ≤ L) (hm2 : L < 64 * 2 ^ (m + 1)) :
    merkel_tree has_avx2 num_threads env input L =
      some (load_at ((merkle_traj has_avx2 env input L L L m).mem
        (merkle_traj has_avx2 env input L L L m).prev_buf) 0 64) ∧
    load_at ((merkle_traj has_avx2 env input L L L m).mem
        (merkle_traj has_avx2 env input L L L m).prev_buf) 0 64 =
      spec_level (merge_hash_bytes has_avx2) (input.take (64 * 2 ^ m)) m := by
  have h2m : 2 ≤ 2 ^ m := by
    calc 2 = 2 ^ 1 := by norm_num
      _ ≤ 2 ^ m := Nat.pow_le_pow_right (by decide) hm
  have hT := merkle_traj_at has_avx2 num_threads env hin hm1 hm2 (caps_ok_full _ _)
  have hrun := while_loopM_eq_some (fun st : MerkleState => decide (st.length ≥ 64))
    (fun st => merkle_level has_avx2 num_threads (env.team st.length) input st) m
    (merkle_traj has_avx2 env input L L L) L
    (fun i hi => merkle_traj_env_step has_avx2 num_threads env hteam hin hm1 hm2
      (caps_ok_full _ _) hi)
    (fun i hi => by
      simp only []
      rw [MerkleAt_cond (by omega) (hT i (by omega)).1]
      simpa using hi)
    (by
      simp only []
      rw [MerkleAt_cond (Nat.le_refl _) (hT m (Nat.le_refl _)).1]
      simp)
    (by
      have := Nat.lt_two_pow m
      omega)
  obtain ⟨_, _, _, _, _, hfirst, _, _, hlvl⟩ := (hT m (Nat.le_refl _)).1
  have hf : (merkle_traj has_avx2 env input L L L m).first_iteration = false := by
    rw [hfirst]; simp; omega
  have hs : (merkle_traj has_avx2 env input L L L m).source input =
      (merkle_traj has_avx2 env input L L L m).mem
        (merkle_traj has_avx2 env input L L L m).prev_buf := by
    simp [MerkleState.source, hf]
  rw [hs, Nat.sub_self, Nat.pow_zero, Nat.mul_one] at hlvl
  have hl64 : (spec_level (merge_hash_bytes has_avx2) (input.take (64 * 2 ^ m)) m).length =
      64 := by
    have := spec_level_length (merge_hash_bytes has_avx2) (merge_hash_bytes_length has_avx2)
      (show (input.take (64 * 2 ^ m)).length = 64 * 2 ^ m by
        rw [List.length_take, Nat.min_eq_left (by omega)]) (m := m) (Nat.le_refl _)
    simpa using this
  have hcap : 64 ≤ ((merkle_traj has_avx2 env input L L L m).mem
      (merkle_traj has_avx2 env input L L L m).prev_buf).length := by
    have := congrArg List.length hlvl
    rw [hl64, List.length_take] at this
    omega
  have hload : load_at ((merkle_traj has_avx2 env input L L L m).mem
      (merkle_traj has_avx2 env input L L L m).prev_buf) 0 64 =
      spec_level (merge_hash_bytes has_avx2) (input.take (64 * 2 ^ m)) m := by
    rw [← hlvl]; simp [load_at]
  refine ⟨?_, hload⟩
  have e : merkel_tree has_avx2 num_threads env input L =
      (while_loopM (fun st : MerkleState => decide (st.length ≥ 64))
        (fun st => merkle_level has_avx2 num_threads (env.team st.length) input st) L
        (merkle_traj has_avx2 env input L L L 0)).bind (fun st =>
          if 64 ≤ (st.mem st.prev_buf).length then some (load_at (st.mem st.prev_buf) 0 64)
          else none) := by
    unfold merkel_tree
    rw [if_neg (by omega)]
    rfl
  rw [e, hrun, Option.some_bind, if_pos hcap]

/-- The result of `merkel_tree` for any `length >= 128`, in closed form, when
every parallel region is granted its whole team. -/
theorem merkel_tree_truncates (has_avx2 : Bool) (num_threads : Nat) (env : MerkleEnv)
    (input : List Nat) (L : Nat) (hteam : full_team num_threads env L)
    (hL : 128 ≤ L) (hin : L ≤ input.length) :
    1 ≤ Nat.log 2 (L / 64) ∧ 64 * 2 ^ Nat.log 2 (L / 64) ≤ L ∧
    merkel_tree has_avx2 num_threads env input L =
      some (spec_level (merge_hash_bytes has_avx2) (input.take (64 * 2 ^ Nat.log 2 (L / 64)))
        (Nat.log 2 (L / 64))) := by
  have h1 : 2 ^ Nat.log 2 (L / 64) ≤ L / 64 := Nat.pow_log_le_self 2 (by omega)
  have h2 : L / 64 < 2 ^ (Nat.log 2 (L / 64) + 1) := Nat.lt_pow_succ_log_self (by decide) _
  have hm : 1 ≤ Nat.log 2 (L / 64) := Nat.log_pos (by decide) (by omega)
  have hm1 : 64 * 2 ^ Nat.log 2 (L / 64) ≤ L := by omega
  have hm2 : L < 64 * 2 ^ (Nat.log 2 (L / 64) + 1) := by omega
  obtain ⟨r1, r2⟩ := merkel_tree_traj has_avx2 num_threads env hteam hm hin hm1 hm2
  exact ⟨hm, hm1, by rw [r1, r2]⟩

/-- When every parallel region is granted its whole team: for every input of
`L >= 128` bytes, a power of two times 64 or not, `merkel_tree` does not fault
(bytes placed after the input never change the result), and its output is
that of `merkel_tree` on the first `64 * 2^m` bytes,
`m = floor(log2(floor(L/64)))`; the bytes after that prefix do not influence
the digest. -/
theorem merkel_tree_silent_truncation_full_team (has_avx2 : Bool) (num_threads : Nat)
    (env : MerkleEnv) (input : List Nat)
    (hteam : full_team num_threads env input.length) (hL : 128 ≤ input.length) :
    2 ^ Nat.log 2 (input.length / 64) ≤ input.length / 64 ∧
    input.length / 64 < 2 ^ (Nat.log 2 (input.length / 64) + 1) ∧
    (∃ d, merkel_tree has_avx2 num_threads env input input.length = some d ∧ d.length = 64) ∧
    (∀ extra : List Nat, merkel_tree has_avx2 num_threads env (input ++ extra) input.length =
      merkel_tree has_avx2 num_threads env input input.length) ∧
    merkel_tree has_avx2 num_threads env input input.length =
      merkel_tree has_avx2 num_threads env
        (input.take (64 * 2 ^ Nat.log 2 (input.length / 64)))
        (64 * 2 ^ Nat.log 2 (input.length / 64)) ∧
    (∀ input' : List Nat, input'.length = input.length →
      input'.take (64 * 2 ^ Nat.log 2 (input.length / 64)) =
        input.take (64 * 2 ^ Nat.log 2 (input.length / 64)) →
      merkel_tree has_avx2 num_threads env input' input'.length =
        merkel_tree has_avx2 num_threads env input input.length) := by
  obtain ⟨hm, hm1, hrun⟩ := merkel_tree_truncates has_avx2 num_threads env input input.length
    hteam hL (Nat.le_refl _)
  have hpl : (input.take (64 * 2 ^ Nat.log 2 (input.length / 64))).length =
      64 * 2 ^ Nat.log 2 (input.length / 64) := by
    rw [List.length_take, Nat.min_eq_left hm1]
  have hroot := merkel_tree_eq_root has_avx2 num_threads env
    (full_team_mono hteam (by rw [hpl]; exact hm1)) hpl
  rw [hpl] at hroot
  refine ⟨Nat.pow_log_le_self 2 (by omega), Nat.lt_pow_succ_log_self (by decide) _,
    ⟨_, hrun, ?_⟩, ?_, ?_, ?_⟩
  · have := spec_level_length (merge_hash_bytes has_avx2) (merge_hash_bytes_length has_avx2)
      hpl (m := Nat.log 2 (input.length / 64)) (Nat.le_refl _)
    simpa using this
  · intro extra
    obtain ⟨_, _, hrun'⟩ := merkel_tree_truncates has_avx2 num_threads env (input ++ extra)
      input.length hteam hL (by rw [List.length_append]; omega)
    rw [hrun', hrun, List.take_append_of_le_length hm1]
  · rw [hrun, hroot]
  · intro input' hl' hp'
    obtain ⟨_, _, hrun'⟩ := merkel_tree_truncates has_avx2 num_threads env input' input'.length
      (by rw [hl']; exact hteam) (by omega) (Nat.le_refl _)
    rw [hrun', hrun, hl', hp']

set_option maxRecDepth 10000000 in
/-- C28: the digest of `L` bytes is not that of the first `64 * 2^m` bytes
when a parallel region is granted fewer threads than it asks for.  For the
768-byte input with byte `i` equal to `(7 * i + 3) mod 256`, with
`omp_get_max_threads() = 2` and teams of one thread (AVX2 path, zeroed fresh
allocations), `m = 3` and the digest of the 768 bytes (first bytes
`fc 77 81 6c`) differs from the digest of their first 512 bytes (first bytes
`a8 77 0d dc`): the first level of the long run hashes blocks 0..2, that of
the short run blocks 0..1.  Granted both threads the two digests agree. -/
theorem C28_merkel_tree_short_team_truncation :
    64 * 2 ^ Nat.log 2 (768 / 64) = 512 ∧
    (merkel_tree true 2 (env_team 1) ((List.range 768).map (fun i => (7 * i + 3) % 256))
      768).map (List.take 4) = some [0xfc, 0x77, 0x81, 0x6c] ∧
    (merkel_tree true 2 (env_team 1)
      (((List.range 768).map (fun i => (7 * i + 3) % 256)).take 512) 512).map (List.take 4) =
      some [0xa8, 0x77, 0x0d, 0xdc] ∧
    merkel_tree true 2 (env_team 1) ((List.range 768).map (fun i => (7 * i + 3) % 256)) 768 ≠
      merkel_tree true 2 (env_team 1)
        (((List.range 768).map (fun i => (7 * i + 3) % 256)).take 512) 512 ∧
    merkel_tree true 2 (env_team 2) ((List.range 768).map (fun i => (7 * i + 3) % 256)) 768 =
      merkel_tree true 2 (env_team 2)
        (((List.range 768).map (fun i => (7 * i + 3) % 256)).take 512) 512 := by
  refine ⟨by norm_num [Nat.log], ?_⟩
  decide

/-! ## The accesses of `merkel_tree` -/

theorem merkle_block_accesses_level_state (has_avx2 : Bool) (input : List Nat)
    (st : MerkleState) (i j : Nat) :
    merkle_block_accesses i (level_state has_avx2 input st j) = merkle_block_accesses i st := by
  have hwf := st.write_fields st.cur_buf
    (next_level has_avx2 (st.source input) j ++ (st.mem st.cur_buf).drop (j * 64))
  unfold merkle_block_accesses MerkleState.source_region level_state
  rw [hwf.1, hwf.2.1, hwf.2.2.1]

theorem level_accesses_succ (st : MerkleState) (n : Nat) :
    level_accesses st (n + 1) = level_accesses st n ++ merkle_block_accesses n st := by
  simp [level_accesses, List.range_succ, List.flatMap_append]

/-- The logged block loop over `[lo, hi)` continues the trajectory of level
states and logs. -/
theorem merkle_blocks_logged_range (has_avx2 : Bool) (input : List Nat) (st : MerkleState)
    (hsep : st.first_iteration = true ∨ st.prev_buf ≠ st.cur_buf) {n : Nat}
    (hcur : n * 64 ≤ (st.mem st.cur_buf).length)
    (hsrc : (2 * n) * 64 ≤ (st.source input).length) :
    for_loopM 0 n (merkle_block_logged has_avx2 input) (st, []) =
      some (level_state has_avx2 input st n, level_accesses st n) := by
  have h := for_loopM_eq_some
    (fun i => (level_state has_avx2 input st i, level_accesses st i)) 0 n
    (merkle_block_logged has_avx2 input) (Nat.zero_le _)
    (fun i _ hi => by
      simp only [merkle_block_logged]
      rw [merkle_block_level_state has_avx2 input st hsep hi hcur hsrc, Option.map_some',
        merkle_block_accesses_level_state, level_accesses_succ])
  simp only [level_state_zero] at h
  exact h

/-- A level of the logged reduction, on the parallel and on the sequential
branch: the state of `merkle_level` and the accesses of all blocks in order. -/
theorem merkle_level_logged_eq (has_avx2 : Bool) (num_threads : Nat) (input : List Nat)
    (st : MerkleState) (hsep : st.first_iteration = true ∨ st.prev_buf ≠ st.cur_buf)
    (hcur : st.length / 64 * 64 ≤ (st.mem st.cur_buf).length)
    (hsrc : (2 * (st.length / 64)) * 64 ≤ (st.source input).length) :
    merkle_level_logged has_avx2 num_threads num_threads input st =
      some (merkle_swap (level_state has_avx2 input st (st.length / 64)),
        level_accesses st (st.length / 64)) := by
  have hflat := merkle_blocks_logged_range has_avx2 input st hsep hcur hsrc
  unfold merkle_level_logged
  simp only [Nat.min_self]
  split
  · next hp =>
    have hT : 1 ≤ num_threads := by
      rcases Nat.eq_zero_or_pos num_threads with h | h
      · rw [h] at hp
        simp [merkle_use_parallel] at hp
      · exact h
    rw [for_loopM_static_split (merkle_block_logged has_avx2 input) hT, hflat]
    rfl
  · rw [hflat]
    rfl

/-- A logged level whose parallel region, if it has one, is granted the whole
team is the logged level run by all `num_threads` threads. -/
theorem merkle_level_logged_full (has_avx2 : Bool) (num_threads team : Nat) (input : List Nat)
    (st : MerkleState)
    (hteam : merkle_use_parallel (st.length / 64) num_threads = true → num_threads ≤ team) :
    merkle_level_logged has_avx2 num_threads team input st =
      merkle_level_logged has_avx2 num_threads num_threads input st := by
  unfold merkle_level_logged
  simp only [Nat.min_self]
  cases hp : merkle_use_parallel (st.length / 64) num_threads with
  | true => rw [Nat.min_eq_right (hteam hp)]
  | false => simp only [Bool.false_eq_true, if_false]

/-- What a level needs of a state on the trajectory: the source is not the
buffer written, and the reads and writes of all its blocks are in bounds. -/
theorem MerkleAt_bounds {has_avx2 : Bool} {input : List Nat} {cap1 cap2 L m i : Nat}
    {st : MerkleState} (hin : L ≤ input.length)
    (hA : MerkleAt has_avx2 input cap1 cap2 L m i st)
    (hw : st.length / 64 * 64 ≤ (if i % 2 = 0 then cap2 else cap1))
    (hr : 1 ≤ i → 2 * (st.length / 64) * 64 ≤ (if i % 2 = 0 then cap1 else cap2)) :
    (st.first_iteration = true ∨ st.prev_buf ≠ st.cur_buf) ∧
    st.length / 64 * 64 ≤ (st.mem st.cur_buf).length ∧
    (2 * (st.length / 64)) * 64 ≤ (st.source input).length := by
  obtain ⟨hlen, _, _, hprev, hcur, hfirst, hb1, hb2, _⟩ := hA
  have hne : st.prev_buf ≠ st.cur_buf := by
    rw [hprev, hcur]; split <;> simp
  have hmemcur : (st.mem st.cur_buf).length = (if i % 2 = 0 then cap2 else cap1) := by
    rw [hcur]; split
    · exact hb2
    · exact hb1
  have hmemprev : (st.mem st.prev_buf).length = (if i % 2 = 0 then cap1 else cap2) := by
    rw [hprev]; split
    · exact hb1
    · exact hb2
  refine ⟨Or.inr hne, by rw [hmemcur]; exact hw, ?_⟩
  unfold MerkleState.source
  rw [hfirst]
  by_cases h0 : i = 0
  · subst h0
    simp only [decide_True, if_true]
    simp only [Nat.zero_add, Nat.pow_one] at hlen
    omega
  · simp only [h0, decide_False, Bool.false_eq_true, if_false, hmemprev]
    exact hr (by omega)

/-- The logged run of `merkel_tree` for any `length >= 128` and any scratch capacities
that hold every level, when every parallel region is granted its whole team:
no access faults, the output is `level[m]` of the first
`64 * 2^m` input bytes, and level `j` logs the accesses of its
`length / 2^(j+1) / 64` blocks. -/
theorem merkel_tree_logged_eq (has_avx2 : Bool) (num_threads : Nat) (env : MerkleEnv)
    {input : List Nat} {cap1 cap2 L m : Nat} (hteam : full_team num_threads env L)
    (hm : 1 ≤ m) (hin : L ≤ input.length) (hm1 : 64 * 2 ^ m ≤ L)
    (hm2 : L < 64 * 2 ^ (m + 1)) (hcaps : caps_ok cap1 cap2 L m) :
    merkel_tree_logged has_avx2 num_threads env cap1 cap2 input L =
      some (spec_level (merge_hash_bytes has_avx2) (input.take (64 * 2 ^ m)) m,
        (List.range m).map (fun j =>
          level_accesses (merkle_traj has_avx2 env input cap1 cap2 L j) (L / 2 ^ (j + 1) / 64)),
        { region := MemRegion.scratch (merkle_traj has_avx2 env input cap1 cap2 L m).prev_buf,
          off := 0, len := 64, is_write := false }) := by
  have h2m : 2 ≤ 2 ^ m := by
    calc 2 = 2 ^ 1 := by norm_num
      _ ≤ 2 ^ m := Nat.pow_le_pow_right (by decide) hm
  have hT := merkle_traj_at has_avx2 num_threads env hin hm1 hm2 hcaps
  have hstep : ∀ i, i < m →
      merkle_level_logged has_avx2 num_threads
          (env.team (merkle_traj has_avx2 env input cap1 cap2 L i).length) input
          (merkle_traj has_avx2 env input cap1 cap2 L i) =
        some (merkle_traj has_avx2 env input cap1 cap2 L (i + 1),
          level_accesses (merkle_traj has_avx2 env input cap1 cap2 L i)
            (L / 2 ^ (i + 1) / 64)) := by
    intro i hi
    have hA := (hT i (by omega)).1
    obtain ⟨c1, c2⟩ := hcaps i hi
    rw [← hA.1] at c1 c2
    obtain ⟨b1, b2, b3⟩ := MerkleAt_bounds hin hA c1 c2
    rw [merkle_level_logged_full has_avx2 num_threads _ input _
      (hteam _ (by rw [hA.1]; exact div_two_pow_succ_le L i)),
      merkle_level_logged_eq has_avx2 num_threads input _ b1 b2 b3, ← hA.1]
    rfl
  have hrun := while_loopM_eq_some
    (fun s : MerkleState × List (List Access) => decide (s.1.length ≥ 64))
    (fun s => (merkle_level_logged has_avx2 num_threads (env.team s.1.length) input s.1).map
      (fun r => (r.1, s.2 ++ [r.2]))) m
    (fun i => (merkle_traj has_avx2 env input cap1 cap2 L i,
      (List.range i).map (fun j =>
        level_accesses (merkle_traj has_avx2 env input cap1 cap2 L j) (L / 2 ^ (j + 1) / 64))))
    L
    (fun i hi => by
      simp only []
      rw [hstep i hi, Option.map_some', List.range_succ, List.map_append]
      rfl)
    (fun i hi => by
      simp only []
      rw [MerkleAt_cond (by omega) (hT i (by omega)).1]
      simpa using hi)
    (by
      simp only []
      rw [MerkleAt_cond (Nat.le_refl _) (hT m (Nat.le_refl _)).1]
      simp)
    (by
      have := Nat.lt_two_pow m
      omega)
  obtain ⟨_, _, _, _, _, hfirst, _, _, hlvl⟩ := (hT m (Nat.le_refl _)).1
  have hf : (merkle_traj has_avx2 env input cap1 cap2 L m).first_iteration = false := by
    rw [hfirst]; simp; omega
  have hs : (merkle_traj has_avx2 env input cap1 cap2 L m).source input =
      (merkle_traj has_avx2 env input cap1 cap2 L m).mem
        (merkle_traj has_avx2 env input cap1 cap2 L m).prev_buf := by
    simp [MerkleState.source, hf]
  rw [hs, Nat.sub_self, Nat.pow_zero, Nat.mul_one] at hlvl
  have hl64 : (spec_level (merge_hash_bytes has_avx2) (input.take (64 * 2 ^ m)) m).length = 64 := by
    have := spec_level_length (merge_hash_bytes has_avx2) (merge_hash_bytes_length has_avx2)
      (show (input.take (64 * 2 ^ m)).length = 64 * 2 ^ m by
        rw [List.length_take, Nat.min_eq_left (by omega)]) (m := m) (Nat.le_refl _)
    simpa using this
  have hcap : 64 ≤ ((merkle_traj has_avx2 env input cap1 cap2 L m).mem
      (merkle_traj has_avx2 env input cap1 cap2 L m).prev_buf).length := by
    have := congrArg List.length hlvl
    rw [hl64, List.length_take] at this
    omega
  have hload : load_at ((merkle_traj has_avx2 env input cap1 cap2 L m).mem
      (merkle_traj has_avx2 env input cap1 cap2 L m).prev_buf) 0 64 =
      spec_level (merge_hash_bytes has_avx2) (input.take (64 * 2 ^ m)) m := by
    rw [← hlvl]; simp [load_at]
  unfold merkel_tree_logged
  rw [if_neg (by omega)]
  have e0 : (merkle_init env cap1 cap2 L, ([] : List (List Access))) =
      (merkle_traj has_avx2 env input cap1 cap2 L 0,
        (List.range 0).map (fun j =>
          level_accesses (merkle_traj has_avx2 env input cap1 cap2 L j) (L / 2 ^ (j + 1) / 64))) :=
    rfl
  simp only [] at hrun
  rw [e0, hrun, Option.some_bind]
  simp only []
  rw [if_pos hcap, hload]

theorem two_pow_split {k a : Nat} (h : a ≤ k) : 2 ^ k = 2 ^ a * 2 ^ (k - a) := by
  rw [← Nat.pow_add]
  congr 1
  omega

theorem div_two_pow {k i : Nat} (h : i ≤ k) : 64 * 2 ^ k / 2 ^ i = 64 * 2 ^ (k - i) := by
  rw [two_pow_split h, Nat.mul_comm (2 ^ i), ← Nat.mul_assoc]
  exact Nat.mul_div_cancel _ (Nat.pow_pos (by decide))

/-- On `2^k` blocks, scratch buffers of a quarter and a half of the input length
hold every level. -/
theorem caps_ok_pow2 (k : Nat) : caps_ok (64 * 2 ^ k / 4) (64 * 2 ^ k / 2) (64 * 2 ^ k) k := by
  intro j hj
  have hX := div_two_pow (show j + 1 ≤ k by omega)
  rw [hX]
  have h1 : 2 ^ k = 2 ^ 1 * 2 ^ (k - 1) := two_pow_split (by omega)
  have hmono : ∀ a b : Nat, a ≤ b → 2 ^ a ≤ 2 ^ b := fun a b hab =>
    Nat.pow_le_pow_right (by decide) hab
  have hpar : j % 2 = 0 ∨ j % 2 = 1 := by omega
  constructor
  · rcases hpar with h | h
    · rw [if_pos h]
      have := hmono (k - (j + 1)) (k - 1) (by omega)
      omega
    · rw [if_neg (by omega)]
      have h2 : 2 ^ k = 2 ^ 2 * 2 ^ (k - 2) := two_pow_split (by omega)
      have := hmono (k - (j + 1)) (k - 2) (by omega)
      omega
  · intro hj1
    rcases hpar with h | h
    · rw [if_pos h]
      have h3 : 2 ^ k = 2 ^ 3 * 2 ^ (k - 3) := two_pow_split (by omega)
      have := hmono (k - (j + 1)) (k - 3) (by omega)
      omega
    · rw [if_neg (by omega)]
      have h2 : 2 ^ k = 2 ^ 2 * 2 ^ (k - 2) := two_pow_split (by omega)
      have := hmono (k - (j + 1)) (k - 2) (by omega)
      omega

theorem mem_level_accesses {st : MerkleState} {n : Nat} {a : Access} :
    a ∈ level_accesses st n ↔ ∃ i, i < n ∧ a ∈ merkle_block_accesses i st := by
  simp [level_accesses, List.mem_flatMap]

theorem getD_map_range_list {α : Type} (f : Nat → List α) {n j : Nat} (h : j < n) :
    ((List.range n).map f).getD j [] = f j := by
  simp [h]

/-- The accesses of level `j` in terms of `j` alone. -/
theorem mem_level_accesses_at {has_avx2 : Bool} {input : List Nat} {cap1 cap2 L m j : Nat}
    {st : MerkleState} (hA : MerkleAt has_avx2 input cap1 cap2 L m j st) {n : Nat} {a : Access} :
    a ∈ level_accesses st n ↔ ∃ i, i < n ∧
      (a = { region := if j = 0 then MemRegion.input
                else MemRegion.scratch (if j % 2 = 0 then BufId.buf1 else BufId.buf2),
             off := (2 * i) * 64, len := 32, is_write := false } ∨
       a = { region := if j = 0 then MemRegion.input
                else MemRegion.scratch (if j % 2 = 0 then BufId.buf1 else BufId.buf2),
             off := (2 * i + 1) * 64, len := 32, is_write := false } ∨
       a = { region := MemRegion.scratch (if j % 2 = 0 then BufId.buf2 else BufId.buf1),
             off := i * 64, len := 64, is_write := true }) := by
  obtain ⟨_, _, _, hprev, hcur, hfirst, _⟩ := hA
  have hs : st.source_region = (if j = 0 then MemRegion.input
      else MemRegion.scratch (if j % 2 = 0 then BufId.buf1 else BufId.buf2)) := by
    unfold MerkleState.source_region
    rw [hfirst, hprev]
    by_cases h0 : j = 0 <;> simp [h0]
  rw [mem_level_accesses]
  simp only [merkle_block_accesses, hs, hcur, List.mem_cons, List.mem_singleton,
    List.not_mem_nil, or_false]

theorem level_accesses_congr {st st' : MerkleState}
    (h1 : st.first_iteration = st'.first_iteration) (h2 : st.prev_buf = st'.prev_buf)
    (h3 : st.cur_buf = st'.cur_buf) (n : Nat) : level_accesses st n = level_accesses st' n := by
  unfold level_accesses merkle_block_accesses MerkleState.source_region
  rw [h1, h2, h3]

/-- When every parallel region is granted its whole team: for every
`L = 64 * 2^k`, `k >= 1`, `merkel_tree` run with scratch buffers of `L/4`
(`buf1`) and `L/2` (`buf2`) bytes does not fault and has the output and the
accesses of the run with the `L`-byte buffers the code allocates.  The first
level reads the input below offset `L` and writes `buf2`; every read of a
later level, and the final copy, lies inside a block the previous level
wrote; every access to `buf2` stays below `L/2` and every access to `buf1`
below `L/4`; the input is only read, and only by the first level. -/
theorem merkel_tree_scratch_bounds_full_team (has_avx2 : Bool) (num_threads k : Nat)
    (env : MerkleEnv) (input : List Nat) (hteam : full_team num_threads env input.length)
    (hk : 1 ≤ k) (hlen : input.length = 64 * 2 ^ k) :
    ∃ out logs copy,
      merkel_tree_logged has_avx2 num_threads env (input.length / 4) (input.length / 2) input
        input.length = some (out, logs, copy) ∧
      merkel_tree_logged has_avx2 num_threads env input.length input.length input
        input.length = some (out, logs, copy) ∧
      merkel_tree has_avx2 num_threads env input input.length = some out ∧
      logs.length = k ∧
      (∀ a ∈ logs.getD 0 [],
        (a.is_write = false → a.region = MemRegion.input ∧ a.off + a.len ≤ input.length) ∧
        (a.is_write = true → a.region = MemRegion.scratch BufId.buf2)) ∧
      (∀ j, 1 ≤ j → j < k → ∀ a ∈ logs.getD j [], a.is_write = false →
        ∃ w ∈ logs.getD (j - 1) [], w.is_write = true ∧ w.region = a.region ∧
          w.off ≤ a.off ∧ a.off + a.len ≤ w.off + w.len) ∧
      (∀ j, j < k → ∀ a ∈ logs.getD j [],
        (a.region = MemRegion.scratch BufId.buf2 → a.off + a.len ≤ input.length / 2) ∧
        (a.region = MemRegion.scratch BufId.buf1 → a.off + a.len ≤ input.length / 4) ∧
        (a.region = MemRegion.input → j = 0 ∧ a.is_write = false)) ∧
      copy.is_write = false ∧ copy.len = 64 ∧
      (∃ w ∈ logs.getD (k - 1) [], w.is_write = true ∧ w.region = copy.region ∧
        w.off ≤ copy.off ∧ copy.off + copy.len ≤ w.off + w.len) := by
  have hroot := merkel_tree_eq_root has_avx2 num_threads env hteam hlen
  rw [hlen] at hroot hteam
  rw [hlen]
  have hm2 : 64 * 2 ^ k < 64 * 2 ^ (k + 1) := by
    have : 0 < 2 ^ k := Nat.pow_pos (by decide)
    rw [Nat.pow_succ]; omega
  have hin : 64 * 2 ^ k ≤ input.length := by omega
  have hcaps := caps_ok_pow2 k
  have hA := fun j hj =>
    (merkle_traj_at has_avx2 num_threads env hin (Nat.le_refl _) hm2 hcaps j hj).1
  have hB := fun j hj => (merkle_traj_at has_avx2 num_threads env hin (Nat.le_refl _) hm2
    (caps_ok_full (64 * 2 ^ k) k) j hj).1
  have hrun := merkel_tree_logged_eq has_avx2 num_threads env hteam hk hin (Nat.le_refl _) hm2
    hcaps
  have hrun' := merkel_tree_logged_eq has_avx2 num_threads env hteam hk hin (Nat.le_refl _) hm2
    (caps_ok_full (64 * 2 ^ k) k)
  have htake : input.take (64 * 2 ^ k) = input := List.take_of_length_le (by omega)
  rw [htake] at hrun hrun'
  have hn : ∀ j, j < k → 64 * 2 ^ k / 2 ^ (j + 1) / 64 = 2 ^ (k - (j + 1)) := by
    intro j hj
    rw [div_two_pow (show j + 1 ≤ k by omega)]
    exact Nat.mul_div_cancel_left _ (by decide)
  have hlogs : (List.range k).map (fun j => level_accesses
        (merkle_traj has_avx2 env input (64 * 2 ^ k) (64 * 2 ^ k) (64 * 2 ^ k) j)
        (64 * 2 ^ k / 2 ^ (j + 1) / 64)) =
      (List.range k).map (fun j => level_accesses
        (merkle_traj has_avx2 env input (64 * 2 ^ k / 4) (64 * 2 ^ k / 2) (64 * 2 ^ k) j)
        (64 * 2 ^ k / 2 ^ (j + 1) / 64)) := by
    refine List.map_congr_left (fun j hj => ?_)
    have hj' : j < k := List.mem_range.1 hj
    obtain ⟨_, _, _, p1, c1, f1, _⟩ := hA j (by omega)
    obtain ⟨_, _, _, p2, c2, f2, _⟩ := hB j (by omega)
    exact level_accesses_congr (by rw [f1, f2]) (by rw [p1, p2]) (by rw [c1, c2]) _
  have hcopy : (merkle_traj has_avx2 env input (64 * 2 ^ k) (64 * 2 ^ k) (64 * 2 ^ k) k).prev_buf =
      (merkle_traj has_avx2 env input (64 * 2 ^ k / 4) (64 * 2 ^ k / 2) (64 * 2 ^ k) k).prev_buf := by
    rw [(hA k (Nat.le_refl _)).2.2.2.1, (hB k (Nat.le_refl _)).2.2.2.1]
  rw [hlogs, hcopy] at hrun'
  have hget : ∀ j, j < k → ((List.range k).map (fun j => level_accesses
        (merkle_traj has_avx2 env input (64 * 2 ^ k / 4) (64 * 2 ^ k / 2) (64 * 2 ^ k) j)
        (64 * 2 ^ k / 2 ^ (j + 1) / 64))).getD j [] =
      level_accesses (merkle_traj has_avx2 env input (64 * 2 ^ k / 4) (64 * 2 ^ k / 2) (64 * 2 ^ k) j)
        (2 ^ (k - (j + 1))) := by
    intro j hj
    rw [getD_map_range_list _ hj, hn j hj]
  have hpk : ∀ j, j < k → 2 ^ (k - j) = 2 * 2 ^ (k - (j + 1)) := by
    intro j hj
    rw [show k - j = (k - (j + 1)) + 1 by omega, Nat.pow_succ]; ring
  refine ⟨_, _, _, hrun, hrun', hroot, by simp, ?_, ?_, ?_, rfl, rfl, ?_⟩
  · intro a ha
    rw [hget 0 (by omega), mem_level_accesses_at (hA 0 (by omega))] at ha
    obtain ⟨i, hi, h | h | h⟩ := ha
    · subst h
      have := hpk 0 (by omega)
      simp only [Nat.sub_zero] at this
      exact ⟨fun _ => ⟨by simp, by simp only []; omega⟩, fun h => by simp at h⟩
    · subst h
      have := hpk 0 (by omega)
      simp only [Nat.sub_zero] at this
      exact ⟨fun _ => ⟨by simp, by simp only []; omega⟩, fun h => by simp at h⟩
    · subst h
      exact ⟨fun h => by simp at h, fun _ => by simp⟩
  · intro j hj1 hjk a ha hread
    rw [hget j hjk, mem_level_accesses_at (hA j (by omega))] at ha
    have hprev := hpk (j - 1) (by omega)
    rw [show j - 1 + 1 = j by omega] at hprev
    have hgj := hget (j - 1) (by omega)
    rw [show j - 1 + 1 = j by omega] at hgj
    have hreg : MemRegion.scratch (if (j - 1) % 2 = 0 then BufId.buf2 else BufId.buf1) =
        (if j = 0 then MemRegion.input
          else MemRegion.scratch (if j % 2 = 0 then BufId.buf1 else BufId.buf2)) := by
      have h0 : ¬ j = 0 := by omega
      have hpar : j % 2 = 0 ∨ j % 2 = 1 := by omega
      rcases hpar with h | h
      · have h1 : ¬ (j - 1) % 2 = 0 := by omega
        simp only [h0, h, h1, if_true, if_false]
      · have h1 : (j - 1) % 2 = 0 := by omega
        have h2 : ¬ j % 2 = 0 := by omega
        simp only [h0, h1, h2, if_true, if_false]
    have hjk' := hpk j hjk
    obtain ⟨i, hi, h | h | h⟩ := ha
    · subst h
      refine ⟨⟨MemRegion.scratch (if (j - 1) % 2 = 0 then BufId.buf2 else BufId.buf1),
          (2 * i) * 64, 64, true⟩, ?_, rfl, hreg, Nat.le_refl _, ?_⟩
      swap
      · simp only []; omega
      rw [hgj, mem_level_accesses_at (hA (j - 1) (by omega))]
      exact ⟨2 * i, by omega, Or.inr (Or.inr rfl)⟩
    · subst h
      refine ⟨⟨MemRegion.scratch (if (j - 1) % 2 = 0 then BufId.buf2 else BufId.buf1),
          (2 * i + 1) * 64, 64, true⟩, ?_, rfl, hreg, Nat.le_refl _, ?_⟩
      swap
      · simp only []; omega
      rw [hgj, mem_level_accesses_at (hA (j - 1) (by omega))]
      exact ⟨2 * i + 1, by omega, Or.inr (Or.inr rfl)⟩
    · subst h
      simp at hread
  · intro j hjk a ha
    rw [hget j hjk, mem_level_accesses_at (hA j (by omega))] at ha
    obtain ⟨cw, cr⟩ := hcaps j hjk
    rw [hn j hjk] at cw cr
    have hpar : j % 2 = 0 ∨ j % 2 = 1 := by omega
    obtain ⟨i, hi, h | h | h⟩ := ha
    · subst h
      by_cases h0 : j = 0
      · subst h0
        simp
      · have c := cr (by omega)
        rcases hpar with h | h
        · simp only [h0, h, if_true, if_false]
          rw [if_pos h] at c
          refine ⟨fun hh => by simp at hh, fun _ => by omega, fun hh => by simp at hh⟩
        · have h' : ¬ j % 2 = 0 := by omega
          simp only [h0, h', if_false]
          rw [if_neg h'] at c
          refine ⟨fun _ => by omega, fun hh => by simp at hh, fun hh => by simp at hh⟩
    · subst h
      by_cases h0 : j = 0
      · subst h0
        simp
      · have c := cr (by omega)
        rcases hpar with h | h
        · simp only [h0, h, if_true, if_false]
          rw [if_pos h] at c
          refine ⟨fun hh => by simp at hh, fun _ => by omega, fun hh => by simp at hh⟩
        · have h' : ¬ j % 2 = 0 := by omega
          simp only [h0, h', if_false]
          rw [if_neg h'] at c
          refine ⟨fun _ => by omega, fun hh => by simp at hh, fun hh => by simp at hh⟩
    · subst h
      rcases hpar with h | h
      · simp only [h, if_true]
        rw [if_pos h] at cw
        refine ⟨fun _ => by omega, fun hh => by simp at hh, fun hh => by simp at hh⟩
      · have h' : ¬ j % 2 = 0 := by omega
        simp only [h', if_false]
        rw [if_neg h'] at cw
        refine ⟨fun hh => by simp at hh, fun _ => by omega, fun hh => by simp at hh⟩
  · have hgk := hget (k - 1) (by omega)
    rw [show k - (k - 1 + 1) = 0 by omega, Nat.pow_zero] at hgk
    refine ⟨⟨MemRegion.scratch (if (k - 1) % 2 = 0 then BufId.buf2 else BufId.buf1),
        0, 64, true⟩, ?_, rfl, ?_, Nat.le_refl _, Nat.le_refl _⟩
    · rw [hgk, mem_level_accesses_at (hA (k - 1) (by omega))]
      exact ⟨0, by omega, Or.inr (Or.inr rfl)⟩
    · simp only []
      rw [(hA k (Nat.le_refl _)).2.2.2.1]
      have hpar : k % 2 = 0 ∨ k % 2 = 1 := by omega
      rcases hpar with h | h
      · have h1 : ¬ (k - 1) % 2 = 0 := by omega
        simp only [h, h1, if_true, if_false]
      · have h1 : (k - 1) % 2 = 0 := by omega
        have h2 : ¬ k % 2 = 0 := by omega
        simp only [h1, h2, if_true, if_false]

set_option maxRecDepth 10000000 in
/-- C21: a later level reads scratch bytes that no level has written when a
parallel region is granted fewer threads than it asks for.  On the 1024-byte
input with byte `i` equal to `(7 * i + 3) mod 256`, with
`omp_get_max_threads() = 4` and teams of two threads, the second level
writes only blocks 0 and 1 of `buf1` (offsets 0 and 64), and the third level
reads `buf1` at offsets 128 and 192, which lie in no block written before:
the digest depends on what the allocation of `buf1` held (first bytes
`3c 32 af 72` for zero bytes, `5f 3b d5 0d` when byte `j` is `j mod 256`). -/
theorem C21_merkel_tree_short_team_reads_unwritten :
    (merkel_tree_logged true 4 (env_team 2) 1024 1024
      ((List.range 1024).map (fun i => (7 * i + 3) % 256)) 1024).map
        (fun r => (r.2.1.getD 1 []).filter (fun a => a.is_write)) =
      some [⟨MemRegion.scratch BufId.buf1, 0, 64, true⟩,
        ⟨MemRegion.scratch BufId.buf1, 64, 64, true⟩] ∧
    (merkel_tree_logged true 4 (env_team 2) 1024 1024
      ((List.range 1024).map (fun i => (7 * i + 3) % 256)) 1024).map
        (fun r => (r.2.1.getD 2 []).filter (fun a => !a.is_write)) =
      some [⟨MemRegion.scratch BufId.buf1, 0, 32, false⟩,
        ⟨MemRegion.scratch BufId.buf1, 64, 32, false⟩,
        ⟨MemRegion.scratch BufId.buf1, 128, 32, false⟩,
        ⟨MemRegion.scratch BufId.buf1, 192, 32, false⟩] ∧
    (merkel_tree_logged true 4 (env_team 2) 1024 1024
      ((List.range 1024).map (fun i => (7 * i + 3) % 256)) 1024).map
        (fun r => decide (∃ a ∈ r.2.1.getD 2 [], a.is_write = false ∧
          ∀ w ∈ r.2.1.getD 1 [], ¬ (w.is_write = true ∧ w.region = a.region ∧
            w.off ≤ a.off ∧ a.off + a.len ≤ w.off + w.len))) = some true ∧
    (merkel_tree true 4 (env_team 2)
      ((List.range 1024).map (fun i => (7 * i + 3) % 256)) 1024).map (List.take 4) =
      some [0x3c, 0x32, 0xaf, 0x72] ∧
    (merkel_tree true 4 ⟨fun _ => 2, fun j => j, fun _ => 0⟩
      ((List.range 1024).map (fun i => (7 * i + 3) % 256)) 1024).map (List.take 4) =
      some [0x5f, 0x3b, 0xd5, 0x0d] := by
  decide

/-- When every parallel region is granted its whole team: on an input of
`L = 64 * 2^k` bytes, `k >= 1`, the state after `i` iterations of the
reduction loop (`i <= k`; the loop condition holds exactly for `i < k`) has
`cur_buf != prev_buf`, both scratch buffers; the region the next level reads
is not the buffer it writes; for `i >= 1` the first `L / 2^i` bytes of
`prev_buf` are `level[i]` (`L / (64 * 2^i)` blocks); and the block copied to
`output` is the first block of `prev_buf` after the last iteration, which is
`level[k]`. -/
theorem merkel_tree_ping_pong_full_team (has_avx2 : Bool) (num_threads k : Nat)
    (env : MerkleEnv) (input : List Nat) (hteam : full_team num_threads env input.length)
    (hk : 1 ≤ k) (hlen : input.length = 64 * 2 ^ k) :
    (∀ i, i ≤ k → ∃ st,
      merkle_state_after has_avx2 num_threads env input input.length i = some st ∧
      st.cur_buf ≠ st.prev_buf ∧
      decide (st.length ≥ 64) = decide (i < k) ∧
      st.source_region ≠ MemRegion.scratch st.cur_buf ∧
      (i = 0 → st.first_iteration = true ∧ st.source input = input) ∧
      (1 ≤ i → st.first_iteration = false ∧ st.source input = st.mem st.prev_buf ∧
        input.length / 2 ^ i = 64 * 2 ^ (k - i) ∧ input.length / (64 * 2 ^ i) = 2 ^ (k - i) ∧
        (st.mem st.prev_buf).take (input.length / 2 ^ i) =
          spec_level (merge_hash_bytes has_avx2) input i ∧
        (spec_level (merge_hash_bytes has_avx2) input i).length = input.length / 2 ^ i)) ∧
    (∃ st, merkle_state_after has_avx2 num_threads env input input.length k = some st ∧
      merkel_tree has_avx2 num_threads env input input.length =
        some (load_at (st.mem st.prev_buf) 0 64) ∧
      load_at (st.mem st.prev_buf) 0 64 = spec_level (merge_hash_bytes has_avx2) input k) := by
  have hm2 : input.length < 64 * 2 ^ (k + 1) := by
    have : 0 < 2 ^ k := Nat.pow_pos (by decide)
    rw [Nat.pow_succ]; omega
  have hm1 : 64 * 2 ^ k ≤ input.length := by omega
  have htake : input.take (64 * 2 ^ k) = input := List.take_of_length_le (by omega)
  constructor
  · intro i hi
    have hst := merkle_state_after_eq has_avx2 num_threads env hteam
      (Nat.le_refl input.length) hm1 hm2 hi
    have hA := (merkle_traj_at has_avx2 num_threads env (Nat.le_refl input.length) hm1 hm2
      (caps_ok_full _ _) i hi).1
    have hc := MerkleAt_cond hi hA
    obtain ⟨_, _, _, hprev, hcur, hfirst, _, _, hlvl⟩ := hA
    rw [htake] at hlvl
    have hne : (merkle_traj has_avx2 env input input.length input.length input.length i).cur_buf ≠
        (merkle_traj has_avx2 env input input.length input.length input.length i).prev_buf := by
      rw [hprev, hcur]; split <;> simp
    refine ⟨_, hst, hne, hc, ?_, ?_, ?_⟩
    · unfold MerkleState.source_region
      cases hf : (merkle_traj has_avx2 env input input.length input.length
        input.length i).first_iteration with
      | true => simp
      | false =>
        simp only [Bool.false_eq_true, if_false, ne_eq, MemRegion.scratch.injEq]
        exact fun h => hne h.symm
    · intro h0
      subst h0
      have hf : (merkle_traj has_avx2 env input input.length input.length
          input.length 0).first_iteration = true := by rw [hfirst]; rfl
      exact ⟨hf, by simp [MerkleState.source, hf]⟩
    · intro h1
      have hf : (merkle_traj has_avx2 env input input.length input.length
          input.length i).first_iteration = false := by
        rw [hfirst]; simp; omega
      have hs : (merkle_traj has_avx2 env input input.length input.length input.length i).source
          input = (merkle_traj has_avx2 env input input.length input.length input.length i).mem
            (merkle_traj has_avx2 env input input.length input.length input.length i).prev_buf := by
        simp [MerkleState.source, hf]
      have hd : input.length / 2 ^ i = 64 * 2 ^ (k - i) := by rw [hlen, div_two_pow hi]
      have hd2 : input.length / (64 * 2 ^ i) = 2 ^ (k - i) := by
        rw [← Nat.div_div_eq_div_mul, hlen, Nat.mul_div_cancel_left _ (by decide),
          two_pow_split hi, Nat.mul_div_cancel_left _ (Nat.pow_pos (by decide))]
      rw [hs] at hlvl
      refine ⟨hf, hs, hd, hd2, by rw [hd]; exact hlvl, ?_⟩
      rw [hd]
      exact spec_level_length (merge_hash_bytes has_avx2) (merge_hash_bytes_length has_avx2)
        hlen hi
  · obtain ⟨r1, r2⟩ := merkel_tree_traj has_avx2 num_threads env hteam hk
      (Nat.le_refl input.length) hm1 hm2
    rw [htake] at r2
    exact ⟨_, merkle_state_after_eq has_avx2 num_threads env hteam (Nat.le_refl input.length)
      hm1 hm2 (Nat.le_refl k), r1, r2⟩

set_option maxRecDepth 10000000 in
/-- C22: `prev_buf` does not hold `level[i]` after the `i`-th iteration when a
parallel region is granted fewer threads than it asks for.  On the 1024-byte
input with byte `i` equal to `(7 * i + 3) mod 256`, with
`omp_get_max_threads() = 4` and teams of two threads, after the first
iteration the first 256 bytes of `prev_buf` are blocks 0..3 of `level[1]`,
the next 256 bytes are the zero bytes the allocation held, and the first
`1024 / 2` bytes of `prev_buf` are not `level[1]`; the pointers do alternate:
`prev_buf` is `buf2` and `cur_buf` is `buf1`. -/
theorem C22_merkel_tree_short_team_ping_pong :
    (merkle_state_after true 4 (env_team 2)
      ((List.range 1024).map (fun i => (7 * i + 3) % 256)) 1024 1).map
        (fun st => (st.prev_buf, st.cur_buf)) = some (BufId.buf2, BufId.buf1) ∧
    (merkle_state_after true 4 (env_team 2)
      ((List.range 1024).map (fun i => (7 * i + 3) % 256)) 1024 1).map
        (fun st => (st.mem st.prev_buf).take 256) =
      some ((spec_level (merge_hash_bytes true)
        ((List.range 1024).map (fun i => (7 * i + 3) % 256)) 1).take 256) ∧
    (merkle_state_after true 4 (env_team 2)
      ((List.range 1024).map (fun i => (7 * i + 3) % 256)) 1024 1).map
        (fun st => ((st.mem st.prev_buf).take (1024 / 2)).drop 256) =
      some (List.replicate 256 0) ∧
    (merkle_state_after true 4 (env_team 2)
      ((List.range 1024).map (fun i => (7 * i + 3) % 256)) 1024 1).map
        (fun st => (st.mem st.prev_buf).take (1024 / 2)) ≠
      some (spec_level (merge_hash_bytes true)
        ((List.range 1024).map (fun i => (7 * i + 3) % 256)) 1) := by
  decide

/-! ## The logged model computes the output of `merkel_tree` -/

theorem merkle_block_logged_fst (has_avx2 : Bool) (input : List Nat) (i : Nat)
    (s : MerkleState × List Access) :
    (merkle_block_logged has_avx2 input i s).map Prod.fst = merkle_block has_avx2 input i s.1 := by
  unfold merkle_block_logged
  cases merkle_block has_avx2 input i s.1 <;> rfl

/-- Without its log a logged level is the level, whatever team runs it. -/
theorem merkle_level_logged_fst (has_avx2 : Bool) (num_threads team : Nat) (input : List Nat)
    (st : MerkleState) :
    (merkle_level_logged has_avx2 num_threads team input st).map Prod.fst =
      merkle_level has_avx2 num_threads team input st := by
  rw [merkle_level_unfold]
  unfold merkle_level_logged
  simp only []
  have inner : ∀ lo hi (s : MerkleState × List Access),
      (for_loopM lo hi (merkle_block_logged has_avx2 input) s).map Prod.fst =
        for_loopM lo hi (merkle_block has_avx2 input) s.1 :=
    for_loopM_map_fst _ _ (merkle_block_logged_fst has_avx2 input)
  split
  · have outer := for_loopM_map_fst
      (fun thread_id s =>
        for_loopM (merkle_start_block (st.length / 64) num_threads thread_id)
          (merkle_end_block (st.length / 64) num_threads thread_id)
          (merkle_block has_avx2 input) s)
      (fun thread_id (s : MerkleState × List Access) =>
        for_loopM (merkle_start_block (st.length / 64) num_threads thread_id)
          (merkle_end_block (st.length / 64) num_threads thread_id)
          (merkle_block_logged has_avx2 input) s)
      (fun t s => inner _ _ s) 0 (min team num_threads) (st, [])
    rw [← outer]
    cases for_loopM 0 (min team num_threads)
        (fun thread_id (s : MerkleState × List Access) =>
        for_loopM (merkle_start_block (st.length / 64) num_threads thread_id)
          (merkle_end_block (st.length / 64) num_threads thread_id)
          (merkle_block_logged has_avx2 input) s) (st, []) <;> rfl
  · rw [← inner 0 (st.length / 64) (st, [])]
    cases for_loopM 0 (st.length / 64) (merkle_block_logged has_avx2 input) (st, []) <;> rfl

/-- With the scratch sizes of the code, the logged function computes the
output of `merkel_tree`, for every input and length and in every
environment. -/
theorem merkel_tree_logged_fst (has_avx2 : Bool) (num_threads : Nat) (env : MerkleEnv)
    (input : List Nat) (length : Nat) :
    (merkel_tree_logged has_avx2 num_threads env length length input length).map
        (fun r => r.1) =
      merkel_tree has_avx2 num_threads env input length := by
  unfold merkel_tree_logged merkel_tree
  split
  · split <;> rfl
  · simp only []
    have h := while_loopM_map_fst (fun st : MerkleState => decide (st.length ≥ 64))
      (fun st => merkle_level has_avx2 num_threads (env.team st.length) input st)
      (fun s : MerkleState × List (List Access) =>
        (merkle_level_logged has_avx2 num_threads (env.team s.1.length) input s.1).map
          (fun r => (r.1, s.2 ++ [r.2])))
      (fun s => by
        show ((merkle_level_logged has_avx2 num_threads (env.team s.1.length) input s.1).map
          (fun r => (r.1, s.2 ++ [r.2]))).map Prod.fst =
          merkle_level has_avx2 num_threads (env.team s.1.length) input s.1
        rw [← merkle_level_logged_fst, Option.map_map]
        rfl)
      length (merkle_init env length length length, [])
    have e : (merkle_init env length length length, ([] : List (List Access))).1 =
        { buf1 := (List.range length).map (fun j => env.scratch1 j % 256),
          buf2 := (List.range length).map (fun j => env.scratch2 j % 256),
          prev_buf := BufId.buf1, cur_buf := BufId.buf2, first_iteration := true,
          length := length / 2 } := rfl
    rw [e] at h
    rw [← h]
    cases while_loopM (fun (x : MerkleState × List (List Access)) => decide (x.1.length ≥ 64))
      (fun s : MerkleState × List (List Access) =>
        (merkle_level_logged has_avx2 num_threads (env.team s.1.length) input s.1).map
          (fun r => (r.1, s.2 ++ [r.2])))
      length (merkle_init env length length length, []) with
    | none => rfl
    | some v =>
      simp only [Option.map_some', Option.some_bind]
      split <;> rfl

/-! ## `mercha` on memory: the loop runs as the loop on the scratch buffers -/

/-- A loop on images under `f` of states runs as the image of the loop. -/
theorem for_loopM_map_comm {σ τ : Type} (f : σ → τ) (body : Nat → σ → Option σ)
    (body' : Nat → τ → Option τ) (hb : ∀ i s, body' i (f s) = (body i s).map f)
    (lo hi : Nat) (s : σ) :
    for_loopM lo hi body' (f s) = (for_loopM lo hi body s).map f := by
  induction hi with
  | zero => simp [for_loopM_of_le]
  | succ n ih =>
    by_cases hn : n + 1 ≤ lo
    · rw [for_loopM_of_le _ _ hn, for_loopM_of_le _ _ hn]
      rfl
    · have hle : lo ≤ n := by omega
      rw [for_loopM_succ _ _ _ _ hle, for_loopM_succ _ _ _ _ hle, ih]
      cases for_loopM lo n body s with
      | none => rfl
      | some mid =>
        simp only [Option.map_some', Option.some_bind]
        exact hb n mid

theorem while_loopM_map_comm {σ τ : Type} (f : σ → τ) (cond : σ → Bool) (body : σ → Option σ)
    (cond' : τ → Bool) (body' : τ → Option τ) (hc : ∀ s, cond' (f s) = cond s)
    (hb : ∀ s, body' (f s) = (body s).map f) (fuel : Nat) (s : σ) :
    while_loopM cond' body' fuel (f s) = (while_loopM cond body fuel s).map f := by
  induction fuel generalizing s with
  | zero =>
    unfold while_loopM
    rw [hc]
    cases cond s <;> simp
  | succ n ih =>
    unfold while_loopM
    rw [hc, hb]
    cases cond s with
    | false => simp
    | true =>
      simp only [if_true]
      cases body s with
      | none => rfl
      | some s' =>
        simp only [Option.map_some', Option.some_bind]
        exact ih s'

theorem MerkleState.in_memory_get (inp out : List Nat) (st : MerkleState) (p : BufId) :
    (st.in_memory inp out).mem.get p.region = st.mem p := by
  cases p <;> rfl

theorem MerkleState.in_memory_write (inp out : List Nat) (st : MerkleState) (p : BufId)
    (v : List Nat) :
    { st.in_memory inp out with mem := (st.in_memory inp out).mem.set p.region v } =
      (st.write p v).in_memory inp out := by
  cases p <;> rfl

/-- The call of `merge_hash` for block `i` on the memory is the call on the
scratch buffers: it writes to a scratch buffer only. -/
theorem merkle_block_mem_eq (has_avx2 : Bool) (inp out : List Nat) (i : Nat)
    (st : MerkleState) :
    merkle_block_mem has_avx2 i (st.in_memory inp out) =
      (merkle_block has_avx2 inp i st).map (MerkleState.in_memory inp out) := by
  have hsrc : (if (st.in_memory inp out).first_iteration then
        (st.in_memory inp out).mem.get MerchaRegion.input
      else (st.in_memory inp out).mem.get (st.in_memory inp out).prev_buf) = st.source inp := by
    unfold MerkleState.source
    cases hf : st.first_iteration with
    | true => simp [MerkleState.in_memory, hf, MerchaMemory.get]
    | false =>
      have := st.in_memory_get inp out st.prev_buf
      simp only [MerkleState.in_memory, hf, Bool.false_eq_true, if_false] at this ⊢
      exact this
  have hcur : (st.in_memory inp out).mem.get (st.in_memory inp out).cur_buf =
      st.mem st.cur_buf := st.in_memory_get inp out st.cur_buf
  unfold merkle_block_mem merkle_block
  simp only [hsrc, hcur]
  cases merge_hash has_avx2 (List.drop (2 * i * 64) (st.source inp))
      (List.drop ((2 * i + 1) * 64) (st.source inp)) (List.drop (i * 64) (st.mem st.cur_buf)) with
  | none => rfl
  | some o =>
    simp only [Option.map_some']
    exact congrArg some (st.in_memory_write inp out st.cur_buf _)

theorem merkle_swap_mem_eq (inp out : List Nat) (st : MerkleState) :
    merkle_swap_mem (st.in_memory inp out) = (merkle_swap st).in_memory inp out := by
  unfold merkle_swap_mem merkle_swap MerkleState.in_memory
  cases hf : st.first_iteration <;> cases hc : st.cur_buf <;> cases hp : st.prev_buf <;>
    simp [BufId.region]

/-- A level on the memory is the level on the scratch buffers, whatever team
runs it. -/
theorem merkle_level_mem_eq (has_avx2 : Bool) (num_threads team : Nat) (inp out : List Nat)
    (st : MerkleState) :
    merkle_level_mem has_avx2 num_threads team (st.in_memory inp out) =
      (merkle_level has_avx2 num_threads team inp st).map (MerkleState.in_memory inp out) := by
  have hr : ∀ lo hi (x : MerkleState),
      for_loopM lo hi (merkle_block_mem has_avx2) (x.in_memory inp out) =
        (for_loopM lo hi (merkle_block has_avx2 inp) x).map (MerkleState.in_memory inp out) :=
    fun lo hi x => for_loopM_map_comm _ _ _ (merkle_block_mem_eq has_avx2 inp out) lo hi x
  have hl : (st.in_memory inp out).length = st.length := rfl
  unfold merkle_level_mem merkle_level
  simp only [hl, Option.map_map]
  split
  · rw [for_loopM_map_comm (MerkleState.in_memory inp out)
      (fun thread_id st' =>
        for_loopM (thread_id * (st.length / 64 / num_threads))
          (if thread_id = num_threads - 1 then st.length / 64
            else thread_id * (st.length / 64 / num_threads) + st.length / 64 / num_threads)
          (merkle_block has_avx2 inp) st') _ (fun t x => hr _ _ x), Option.map_map]
    cases for_loopM 0 (min team num_threads) (fun thread_id st' =>
        for_loopM (thread_id * (st.length / 64 / num_threads))
          (if thread_id = num_threads - 1 then st.length / 64
            else thread_id * (st.length / 64 / num_threads) + st.length / 64 / num_threads)
          (merkle_block has_avx2 inp) st') st with
    | none => rfl
    | some v => exact congrArg some (merkle_swap_mem_eq inp out v)
  · rw [hr, Option.map_map]
    cases for_loopM 0 (st.length / 64) (merkle_block has_avx2 inp) st with
    | none => rfl
    | some v => exact congrArg some (merkle_swap_mem_eq inp out v)

theorem length_store_at_zero (buf bytes : List Nat) (h : bytes.length ≤ buf.length) :
    (store_at buf 0 bytes).length = buf.length := by
  simp only [store_at, List.take_zero, List.nil_append, List.length_append, List.length_drop]
  omega

/-- The function `merkel_tree` on the memory of its caller, when `output` has room for
64 bytes: it returns exactly when `merkel_tree` on the input bytes does, it
leaves `input` as it was, and it replaces the first 64 bytes of `output` by
the result and leaves the other bytes of `output` as they were. -/
theorem merkel_tree_mem_eq (has_avx2 : Bool) (num_threads : Nat) (env : MerkleEnv)
    (m : MerchaMemory) (length : Nat) (hout : 64 ≤ m.output.length) :
    (merkel_tree_mem has_avx2 num_threads env m length).map (fun m' => (m'.input, m'.output)) =
      (merkel_tree has_avx2 num_threads env m.input length).map
        (fun d => (m.input, store_at m.output 0 d)) := by
  unfold merkel_tree_mem merkel_tree
  split
  · by_cases h : 64 ≤ m.input.length
    · rw [if_pos ⟨h, hout⟩, if_pos h]
      rfl
    · rw [if_neg (fun hh => h hh.1), if_neg h]
      rfl
  · simp only []
    have e := while_loopM_map_comm (MerkleState.in_memory m.input m.output)
      (fun st : MerkleState => decide (st.length ≥ 64))
      (fun st => merkle_level has_avx2 num_threads (env.team st.length) m.input st)
      (fun s : MerkleMem => decide (s.length ≥ 64))
      (fun s => merkle_level_mem has_avx2 num_threads (env.team s.length) s)
      (fun _ => rfl)
      (fun st => merkle_level_mem_eq has_avx2 num_threads (env.team st.length) m.input
        m.output st)
      length
      { buf1 := (List.range length).map (fun j => env.scratch1 j % 256),
        buf2 := (List.range length).map (fun j => env.scratch2 j % 256),
        prev_buf := BufId.buf1, cur_buf := BufId.buf2, first_iteration := true,
        length := length / 2 }
    have e0 : MerkleState.in_memory m.input m.output
        { buf1 := (List.range length).map (fun j => env.scratch1 j % 256),
          buf2 := (List.range length).map (fun j => env.scratch2 j % 256),
          prev_buf := BufId.buf1, cur_buf := BufId.buf2, first_iteration := true,
          length := length / 2 } =
        { mem := { m with
            buf1 := (List.range length).map (fun j => env.scratch1 j % 256)
            buf2 := (List.range length).map (fun j => env.scratch2 j % 256) }
          prev_buf := MerchaRegion.buf1
          cur_buf := MerchaRegion.buf2
          first_iteration := true
          length := length / 2 } := rfl
    rw [← e0, e]
    cases while_loopM (fun st : MerkleState => decide (st.length ≥ 64))
      (fun st => merkle_level has_avx2 num_threads (env.team st.length) m.input st) length
      { buf1 := (List.range length).map (fun j => env.scratch1 j % 256),
        buf2 := (List.range length).map (fun j => env.scratch2 j % 256),
        prev_buf := BufId.buf1, cur_buf := BufId.buf2, first_iteration := true,
        length := length / 2 } with
    | none => rfl
    | some st =>
      simp only [Option.map_some', Option.some_bind]
      have hg : (st.in_memory m.input m.output).mem.get (st.in_memory m.input m.output).prev_buf =
          st.mem st.prev_buf := st.in_memory_get m.input m.output st.prev_buf
      have ho : (st.in_memory m.input m.output).mem.output = m.output := rfl
      rw [hg, ho]
      by_cases h : 64 ≤ (st.mem st.prev_buf).length
      · rw [if_pos ⟨h, hout⟩, if_pos h]
        rfl
      · rw [if_neg (fun hh => h hh.1), if_neg h]
        rfl

/-- When `merkel_tree` returns, it returns 64 bytes. -/
theorem merkel_tree_length {has_avx2 : Bool} {num_threads : Nat} {env : MerkleEnv}
    {input : List Nat} {length : Nat} {d : List Nat}
    (h : merkel_tree has_avx2 num_threads env input length = some d) : d.length = 64 := by
  unfold merkel_tree at h
  split at h
  · split at h
    · cases h
      simp [load_at]
      omega
    · cases h
  · simp only [] at h
    cases hw : while_loopM (fun st : MerkleState => decide (st.length ≥ 64))
      (fun st => merkle_level has_avx2 num_threads (env.team st.length) input st) length
      { buf1 := (List.range length).map (fun j => env.scratch1 j % 256),
        buf2 := (List.range length).map (fun j => env.scratch2 j % 256),
        prev_buf := BufId.buf1, cur_buf := BufId.buf2, first_iteration := true,
        length := length / 2 } with
    | none => rw [hw] at h; cases h
    | some st =>
      rw [hw, Option.some_bind] at h
      split at h
      · cases h
        simp [load_at]
        omega
      · cases h

/-- The function `merkel_tree` on the memory of its caller changes neither `input` nor
the bytes of `output` after the first 64. -/
theorem merkel_tree_mem_frame (has_avx2 : Bool) (num_threads : Nat) (env : MerkleEnv)
    (m0 : MerchaMemory) (length : Nat) (hout : 64 ≤ m0.output.length) (m1 : MerchaMemory)
    (h : merkel_tree_mem has_avx2 num_threads env m0 length = some m1) :
    m1.input = m0.input ∧ m1.output.drop 64 = m0.output.drop 64 ∧
    merkel_tree has_avx2 num_threads env m0.input length = some (m1.output.take 64) := by
  have e := merkel_tree_mem_eq has_avx2 num_threads env m0 length hout
  rw [h] at e
  cases hd : merkel_tree has_avx2 num_threads env m0.input length with
  | none => rw [hd] at e; cases e
  | some d =>
    rw [hd] at e
    simp only [Option.map_some', Option.some.injEq, Prod.mk.injEq] at e
    have hl := merkel_tree_length hd
    refine ⟨e.1, ?_, ?_⟩
    · rw [e.2]
      simp [store_at, hl]
    · rw [e.2]
      simp [store_at, hl]

/-- C13: for every key, nonce and input of `L = 64 * 2^k` bytes, in every
environment, the call of `mercha` on the memory of its caller returns; the
first 64 bytes of `output` are then `merkel_tree` applied to
`chacha20_encrypt(key, nonce, 0, input)` and the other bytes of `output` are
as before; `input` holds exactly `chacha20_encrypt(key, nonce, 0, input)`,
because no store of the Merkle stage goes through a pointer to `input`: for
every memory and length `merkel_tree` leaves `input` unchanged.  When every
parallel region is granted its whole team the output is `level[k]` of the
transformed input. -/
theorem C13_mercha_is_encrypt_then_merkle (has_avx2 : Bool) (num_threads k : Nat)
    (env : MerkleEnv) (key nonce : List Nat) (m : MerchaMemory)
    (hlen : m.input.length = 64 * 2 ^ k) (hb : bytes_ok m.input)
    (hout : 64 ≤ m.output.length) :
    ∃ m' d, mercha_mem has_avx2 num_threads env key nonce m m.input.length = some m' ∧
      merkel_tree has_avx2 num_threads env
        (chacha20_encrypt has_avx2 num_threads key nonce 0 m.input m.input.length)
        m.input.length = some d ∧
      d.length = 64 ∧
      m'.output = d ++ m.output.drop 64 ∧
      m'.input = chacha20_encrypt has_avx2 num_threads key nonce 0 m.input m.input.length ∧
      mercha has_avx2 num_threads env key nonce m.input m.input.length =
        (m'.input, some (m'.output.take 64)) ∧
      (full_team num_threads env m.input.length →
        d = spec_level (merge_hash_bytes has_avx2)
          (chacha20_encrypt has_avx2 num_threads key nonce 0 m.input m.input.length) k) ∧
      (∀ (m0 m1 : MerchaMemory) (L : Nat), 64 ≤ m0.output.length →
        merkel_tree_mem has_avx2 num_threads env m0 L = some m1 →
        m1.input = m0.input ∧ m1.output.drop 64 = m0.output.drop 64) := by
  obtain ⟨ex1, _, _⟩ := chacha20_encrypt_getD has_avx2 num_threads key nonce 0 hb
    (Nat.le_refl m.input.length)
  have hpos : 0 < 2 ^ k := Nat.pow_pos (by decide)
  obtain ⟨d, hd, hdl⟩ := merkel_tree_total has_avx2 num_threads env
    (chacha20_encrypt has_avx2 num_threads key nonce 0 m.input m.input.length) m.input.length
    (by omega) ex1
  have e := merkel_tree_mem_eq has_avx2 num_threads env
    (m.set MerchaRegion.input
      (chacha20_encrypt has_avx2 num_threads key nonce 0 m.input m.input.length))
    m.input.length hout
  have hi : (m.set MerchaRegion.input
      (chacha20_encrypt has_avx2 num_threads key nonce 0 m.input m.input.length)).input =
      chacha20_encrypt has_avx2 num_threads key nonce 0 m.input m.input.length := rfl
  have ho : (m.set MerchaRegion.input
      (chacha20_encrypt has_avx2 num_threads key nonce 0 m.input m.input.length)).output =
      m.output := rfl
  rw [hi, ho, hd] at e
  cases hm : mercha_mem has_avx2 num_threads env key nonce m m.input.length with
  | none =>
    unfold mercha_mem at hm
    rw [hm] at e
    cases e
  | some m' =>
    unfold mercha_mem at hm
    rw [hm] at e
    simp only [Option.map_some', Option.some.injEq, Prod.mk.injEq] at e
    have hso : store_at m.output 0 d = d ++ m.output.drop 64 := by
      simp [store_at, hdl]
    refine ⟨m', d, rfl, hd, hdl, by rw [e.2, hso], e.1, ?_, ?_, ?_⟩
    · unfold mercha
      simp only []
      rw [e.1, e.2, hso, hd, List.take_left' hdl]
    · intro hteam
      have hr := merkel_tree_eq_root has_avx2 num_threads env (k := k)
        (by rw [ex1]; exact hteam) (by rw [ex1, hlen])
      rw [ex1, hd] at hr
      exact Option.some.inj hr
    · intro m0 m1 L h0 h1
      obtain ⟨a, b, _⟩ := merkel_tree_mem_frame has_avx2 num_threads env m0 L h0 m1 h1
      exact ⟨a, b⟩

/-- C13 on 128 zero bytes with the zero key and nonce, two threads asked for
and one granted, and an `output` array of 70 bytes. -/
theorem C13_mercha_is_encrypt_then_merkle_witness :
    (List.replicate 128 0).length = 64 * 2 ^ 1 ∧ bytes_ok (List.replicate 128 0) ∧
    64 ≤ (List.replicate 70 9).length ∧
    ∃ m' d, mercha_mem true 2 (env_team 1) (List.replicate 32 0) (List.replicate 12 0)
        ⟨List.replicate 128 0, List.replicate 70 9, [], []⟩ 128 = some m' ∧
      merkel_tree true 2 (env_team 1)
        (chacha20_encrypt true 2 (List.replicate 32 0) (List.replicate 12 0) 0
          (List.replicate 128 0) 128) 128 = some d ∧
      m'.output = d ++ List.replicate 6 9 ∧
      m'.input = chacha20_encrypt true 2 (List.replicate 32 0) (List.replicate 12 0) 0
        (List.replicate 128 0) 128 := by
  refine ⟨by rw [List.length_replicate]; norm_num, bytes_ok_replicate_zero 128,
    by rw [List.length_replicate]; norm_num, ?_⟩
  obtain ⟨m', d, h1, h2, _, h4, h5, _⟩ :=
    C13_mercha_is_encrypt_then_merkle true 2 1 (env_team 1) (List.replicate 32 0)
      (List.replicate 12 0) ⟨List.replicate 128 0, List.replicate 70 9, [], []⟩
      (by rw [List.length_replicate]; norm_num) (bytes_ok_replicate_zero 128)
      (by rw [List.length_replicate]; norm_num)
  exact ⟨m', d, h1, h2, h4, h5⟩
